import Mathlib

/-!
Verification of the layout core of `postermaker.py` (PhotoCollage).

The Python source is shallowly embedded over `ℚ`: every float becomes a
rational, mutable objects become records threaded through explicit state,
and operations that can raise a Python exception (`ZeroDivisionError`,
`IndexError`, `TypeError` from indexing with `None`, `ValueError` from
`max([])`) return `Except PyErr`.  `Photo` and `PhotoExtent` objects are
kept in arenas (lists) and referenced by index, which renders Python's
object aliasing (an extent's `img_ref`, a photo's `spacings` list) exact.
-/

inductive PyErr where
  | zeroDivision
  | indexError
  | typeError
  | valueError
deriving Repr, DecidableEq

deriving instance DecidableEq for Except

/-- Python division `a / b`: raises `ZeroDivisionError` when `b = 0`. -/
def pydiv (a b : ℚ) : Except PyErr ℚ :=
  if b = 0 then .error .zeroDivision else .ok (a / b)

/-- Python list subscript `xs[i]` (with `0 ≤ i`): raises `IndexError` out of range. -/
def pyget (xs : List α) (i : Nat) : Except PyErr α :=
  match xs[i]? with
  | some a => .ok a
  | none => .error .indexError

/-- `Photo.__init__(imagefile, w, h, x=0, y=0)`: `real_w = self.w = w`,
`real_h = self.h = h`, `extended = False`, `spacings = []`.  The image file
handle is irrelevant to the geometry and omitted; `spacings` holds arena
indices of the `PhotoExtent` objects mirroring this photo. -/
structure Photo where
  real_w : ℚ
  real_h : ℚ
  x : ℚ
  y : ℚ
  w : ℚ
  h : ℚ
  extended : Bool
  spacings : List Nat
deriving Repr, DecidableEq

def mkPhoto (w h : ℚ) : Photo :=
  { real_w := w, real_h := h, x := 0, y := 0, w := w, h := h,
    extended := false, spacings := [] }

/-- `PhotoExtent.__init__(img, x, y)`: keeps a reference to the spanning
photo and copies its `w`/`h` at creation time.  (The inherited `real_w`,
`real_h`, `extended`, `spacings` fields of an extent are never read by the
layout code and are omitted.) -/
structure PhotoExtent where
  img_ref : Nat
  x : ℚ
  y : ℚ
  w : ℚ
  h : ℚ
deriving Repr, DecidableEq

/-- One slot of `Column.imglist`: either a `Photo` or a `PhotoExtent`,
referenced by arena index. -/
inductive ColItem where
  | photo (pid : Nat)
  | extent (eid : Nat)
deriving Repr, DecidableEq

structure Column where
  imglist : List ColItem
  x : ℚ
  w : ℚ
  h : ℚ
deriving Repr, DecidableEq

structure Page where
  w : ℚ
  no_cols : Nat
  cols : List Column
  photos : List Photo
  extents : List PhotoExtent
deriving Repr, DecidableEq

/-- The column construction loop of `Page.__init__`: `x` starts at `0` and
advances by `col_w` per column. -/
def initCols (col_w : ℚ) : Nat → ℚ → List Column
  | 0, _ => []
  | n + 1, x => ⟨[], x, col_w, 0⟩ :: initCols col_w n (x + col_w)

/-- `Page.__init__(w, no_cols)`: `col_w = w / no_cols` (a Python
`ZeroDivisionError` when `no_cols == 0`), then `no_cols` columns. -/
def Page.init (w : ℚ) (no_cols : Nat) : Except PyErr Page := do
  let col_w ← pydiv w no_cols
  .ok { w := w, no_cols := no_cols, cols := initCols col_w no_cols 0,
        photos := [], extents := [] }

/-- The loop of `Page.next_col`: `cur_min` starts at `2**31`, `index` at
`None`; each strictly smaller column height replaces both. -/
def nextColAux (cols : List Column) : List Nat → ℚ → Option Nat → Except PyErr (Option Nat)
  | [], _, index => .ok index
  | i :: is, cur_min, index => do
    let c ← pyget cols i
    if c.h < cur_min then nextColAux cols is c.h (some i)
    else nextColAux cols is cur_min index

/-- `Page.next_col`: index of the first column of strictly smallest height
(`None` if every height is at least `2**31`). -/
def Page.next_col (p : Page) : Except PyErr (Option Nat) :=
  nextColAux p.cols (List.range p.no_cols) (2 ^ 31) none

/-- The loop of `Page.worth_multicol`: for each neighbour index `j ≠ i`,
if `abs(cols[j].h - cols[i].h) < 0.5 * cols[i].w` return `sorted([i, j])`. -/
def worthAux (cols : List Column) (i : Nat) : List Nat → Except PyErr (Option (Nat × Nat))
  | [] => .ok none
  | j :: js =>
    if j = i then worthAux cols i js
    else do
      let cj ← pyget cols j
      let ci ← pyget cols i
      if |cj.h - ci.h| < (1 / 2 : ℚ) * ci.w then .ok (some (min i j, max i j))
      else worthAux cols i js

/-- `Page.worth_multicol`: `i = next_col()` (indexing arithmetic on `None`
is a `TypeError`), then scan `range(max(0, i-1), min(no_cols, i+2))`. -/
def Page.worth_multicol (p : Page) : Except PyErr (Option (Nat × Nat)) := do
  let oi ← p.next_col
  match oi with
  | none => .error .typeError
  | some i => worthAux p.cols i (List.range' (i - 1) (min p.no_cols (i + 2) - (i - 1)))

/-- The `else` branch of `Page.append`: place `img` in the smallest column
`c` with `x = c.x`, `y = c.h`, `w = c.w`, `h = c.w * real_h / real_w`,
append it and grow `c.h`. -/
def Page.appendNormal (p : Page) (img0 : Photo) : Except PyErr Page := do
  let pid := p.photos.length
  let oi ← p.next_col
  match oi with
  | none => .error .typeError
  | some i => do
    let c ← pyget p.cols i
    let h ← pydiv (c.w * img0.real_h) img0.real_w
    let img := { img0 with x := c.x, y := c.h, w := c.w, h := h }
    .ok { p with
          photos := p.photos ++ [img],
          cols := p.cols.set i
            { c with imglist := c.imglist ++ [.photo pid], h := c.h + h } }

/-- `Page.append(img)`.  With a multicolumn pair available, a landscape
aspect (`img.w / img.h > 1`) and a winning coin flip (`random.randint(0,1)`
modelled by `rng k`), the photo spans both columns: the `Photo` goes to the
left column, a fresh `PhotoExtent` to the right one, and both columns'
heights become `img.y + img.h`.  Otherwise the photo is placed normally.
Returns the page together with the next unused random index. -/
def Page.append (p : Page) (img0 : Photo) (rng : Nat → Bool) (k : Nat) :
    Except PyErr (Page × Nat) := do
  let pid := p.photos.length
  let mc ← p.worth_multicol
  match mc with
  | some (a, b) => do
    let aspect ← pydiv img0.w img0.h
    if 1 < aspect then
      if rng k then do
        let ca ← pyget p.cols a
        let cb ← pyget p.cols b
        let y := max ca.h cb.h
        let w := ca.w + cb.w
        let h ← pydiv (w * img0.real_h) img0.real_w
        let eid := p.extents.length
        let s : PhotoExtent := { img_ref := pid, x := cb.x, y := cb.h, w := w, h := h }
        let img := { img0 with
                     x := ca.x, y := y, w := w, h := h,
                     extended := true, spacings := img0.spacings ++ [eid] }
        .ok ({ p with
               photos := p.photos ++ [img],
               extents := p.extents ++ [s],
               cols := (p.cols.set a
                   { ca with imglist := ca.imglist ++ [.photo pid], h := y + h }).set b
                   { cb with imglist := cb.imglist ++ [.extent eid], h := y + h } },
             k + 1)
      else do
        let p' ← p.appendNormal img0
        .ok (p', k + 1)
    else do
      let p' ← p.appendNormal img0
      .ok (p', k)
  | none => do
    let p' ← p.appendNormal img0
    .ok (p', k)

/-- `Page.fill(imglist)`: append the photos one by one. -/
def Page.fill (p : Page) (imgs : List Photo) (rng : Nat → Bool) (k : Nat) :
    Except PyErr (Page × Nat) :=
  match imgs with
  | [] => .ok (p, k)
  | img :: rest => do
    let (p', k') ← p.append img rng k
    p'.fill rest rng k'

/-- One movable zone of `Column.adjust_height`: a starting ordinate, the
photos (arena indices) it contains, and its target height. -/
structure MovGroup where
  y : ℚ
  imglist : List Nat
  h : ℚ
deriving Repr, DecidableEq

/-- The grouping loop of `Column.adjust_height`: photos accumulate in the
current group; a `PhotoExtent` closes it (height `extent.y - group.y`) and
opens a new one at `extent.y + extent.h`; the last group's height is
`H - group.y`. -/
def buildGroups (extents : List PhotoExtent) (H : ℚ) :
    List ColItem → ℚ → List Nat → Except PyErr (List MovGroup)
  | [], gy, acc => .ok [⟨gy, acc, H - gy⟩]
  | .photo pid :: rest, gy, acc => buildGroups extents H rest gy (acc ++ [pid])
  | .extent eid :: rest, gy, acc => do
    let e ← pyget extents eid
    let gs ← buildGroups extents H rest (e.y + e.h) []
    .ok (⟨gy, acc, e.y - gy⟩ :: gs)

/-- `sum(i.h for i in group["imglist"])`. -/
def sumHeights (photos : List Photo) : List Nat → Except PyErr ℚ
  | [] => .ok 0
  | pid :: rest => do
    let img ← pyget photos pid
    let s ← sumHeights photos rest
    .ok (img.h + s)

/-- `for s in img.spacings: s.y = img.y; s.h = img.h`. -/
def syncSpacings (y h : ℚ) : List Nat → List PhotoExtent → Except PyErr (List PhotoExtent)
  | [], extents => .ok extents
  | eid :: rest, extents => do
    let e ← pyget extents eid
    syncSpacings y h rest (extents.set eid { e with y := y, h := h })

/-- The inner loop of `Column.adjust_height` for one group: stack the
photos from the group's `y` with heights scaled by `alpha`, keep each
photo's extents in sync, recentre `x` and recompute `w` from the aspect
ratio (`img.h * img.real_w / img.real_h`, a `ZeroDivisionError` when
`real_h == 0`). -/
def adjustGroupImgs (alpha : ℚ) :
    List Nat → ℚ → List Photo → List PhotoExtent →
    Except PyErr (List Photo × List PhotoExtent)
  | [], _, photos, extents => .ok (photos, extents)
  | pid :: rest, y, photos, extents => do
    let img ← pyget photos pid
    let h1 := img.h * alpha
    let extents1 ← syncSpacings y h1 img.spacings extents
    let q ← pydiv (h1 * img.real_w) img.real_h
    let img1 := { img with y := y, h := h1, x := img.x + (img.w - q) / 2, w := q }
    adjustGroupImgs alpha rest (y + h1) (photos.set pid img1) extents1

/-- The outer loop of `Column.adjust_height`: skip empty groups, otherwise
`alpha = group.h / sum(heights)` (a `ZeroDivisionError` when the current
heights sum to zero) and adjust the group's photos. -/
def adjustGroups :
    List MovGroup → List Photo → List PhotoExtent →
    Except PyErr (List Photo × List PhotoExtent)
  | [], photos, extents => .ok (photos, extents)
  | g :: gs, photos, extents =>
    if g.imglist.isEmpty then adjustGroups gs photos extents
    else do
      let hsum ← sumHeights photos g.imglist
      let alpha ← pydiv g.h hsum
      let (photos1, extents1) ← adjustGroupImgs alpha g.imglist g.y photos extents
      adjustGroups gs photos1 extents1

/-- `Column.adjust_height(H)`: build the movable groups, adjust each, and
set the column height to `H`. -/
def Column.adjust_height (c : Column) (H : ℚ) (photos : List Photo)
    (extents : List PhotoExtent) :
    Except PyErr (Column × List Photo × List PhotoExtent) := do
  let groups ← buildGroups extents H c.imglist 0 []
  let (photos1, extents1) ← adjustGroups groups photos extents
  .ok ({ c with h := H }, photos1, extents1)

/-- The loop of `Page.eat_space`: adjust every column to height `H`,
threading the photo and extent arenas left to right. -/
def eatSpaceCols (H : ℚ) :
    List Column → List Photo → List PhotoExtent →
    Except PyErr (List Column × List Photo × List PhotoExtent)
  | [], photos, extents => .ok ([], photos, extents)
  | c :: cs, photos, extents => do
    let (c1, photos1, extents1) ← c.adjust_height H photos extents
    let (cs1, photos2, extents2) ← eatSpaceCols H cs photos1 extents1
    .ok (c1 :: cs1, photos2, extents2)

/-- `Page.eat_space` (phase B): `H = sum(c.h for c in cols) / no_cols`,
then `adjust_height(H)` on every column. -/
def Page.eat_space (p : Page) : Except PyErr Page := do
  let H ← pydiv ((p.cols.map Column.h).sum) p.no_cols
  let (cols1, photos1, extents1) ← eatSpaceCols H p.cols p.photos p.extents
  .ok { p with cols := cols1, photos := photos1, extents := extents1 }

/-- `[img.w for img in imglist if not isinstance(img, PhotoExtent) and not img.extended]`. -/
def imgsWidths (photos : List Photo) : List ColItem → Except PyErr (List ℚ)
  | [] => .ok []
  | .photo pid :: rest => do
    let img ← pyget photos pid
    let ws ← imgsWidths photos rest
    .ok (if img.extended then ws else img.w :: ws)
  | .extent _ :: rest => imgsWidths photos rest

/-- `[img.w / 2 for img in imglist if not isinstance(img, PhotoExtent) and img.extended]`. -/
def extsWidths (photos : List Photo) : List ColItem → Except PyErr (List ℚ)
  | [] => .ok []
  | .photo pid :: rest => do
    let img ← pyget photos pid
    let ws ← extsWidths photos rest
    .ok (if img.extended then img.w / 2 :: ws else ws)
  | .extent _ :: rest => extsWidths photos rest

/-- `[img.img_ref.w / 2 for img in imglist if isinstance(img, PhotoExtent)]`. -/
def spcsWidths (photos : List Photo) (extents : List PhotoExtent) :
    List ColItem → Except PyErr (List ℚ)
  | [] => .ok []
  | .photo _ :: rest => spcsWidths photos extents rest
  | .extent eid :: rest => do
    let e ← pyget extents eid
    let img ← pyget photos e.img_ref
    let ws ← spcsWidths photos extents rest
    .ok (img.w / 2 :: ws)

/-- Python `min` over a nonempty list (the default is returned on `[]`,
which the call sites guard against). -/
def listMin (l : List ℚ) (dflt : ℚ) : ℚ :=
  match l with
  | [] => dflt
  | a :: rest => rest.foldl min a

/-- `Column.get_width`: smallest natural width in the column, starting
from the sentinel `2**32`. -/
def Column.get_width (c : Column) (photos : List Photo) (extents : List PhotoExtent) :
    Except PyErr ℚ := do
  let imgs ← imgsWidths photos c.imglist
  let exts ← extsWidths photos c.imglist
  let spcs ← spcsWidths photos extents c.imglist
  let mini : ℚ := 2 ^ 32
  let mini := if imgs.length > 0 then listMin imgs 0 else mini
  let mini := if exts.length > 0 then min mini (listMin exts 0) else mini
  let mini := if spcs.length > 0 then min mini (listMin spcs 0) else mini
  .ok mini

/-- The loop of `Column.adjust_width`: every non-extent item (the source's
two identical branches for plain and extended photos) is recentred at
`x = col.x + (col.w - img.w) / 2`; for an extent, the referenced photo is
shifted right by `col.w / 2`. -/
def adjustWidthItems (cx cw : ℚ) :
    List ColItem → List Photo → List PhotoExtent → Except PyErr (List Photo)
  | [], photos, _ => .ok photos
  | .photo pid :: rest, photos, extents => do
    let img ← pyget photos pid
    adjustWidthItems cx cw rest (photos.set pid { img with x := cx + (cw - img.w) / 2 }) extents
  | .extent eid :: rest, photos, extents => do
    let e ← pyget extents eid
    let img ← pyget photos e.img_ref
    adjustWidthItems cx cw rest (photos.set e.img_ref { img with x := img.x + cw / 2 }) extents

/-- `Column.adjust_width`: shrink the column to `get_width()` and reposition
its contents. -/
def Column.adjust_width (c : Column) (photos : List Photo) (extents : List PhotoExtent) :
    Except PyErr (Column × List Photo) := do
  let w1 ← c.get_width photos extents
  let c1 := { c with w := w1 }
  let photos1 ← adjustWidthItems c1.x c1.w c1.imglist photos extents
  .ok (c1, photos1)

/-- The loop of `Page.eat_space2`: `x` accumulates the already-shrunk
widths; each column gets `x`, is width-adjusted, and advances `x` by its
new width. -/
def eatSpace2Cols :
    ℚ → List Column → List Photo → List PhotoExtent →
    Except PyErr (List Column × List Photo)
  | _, [], photos, _ => .ok ([], photos)
  | x, c :: cs, photos, extents => do
    let (c1, photos1) ← Column.adjust_width { c with x := x } photos extents
    let (cs1, photos2) ← eatSpace2Cols (x + c1.w) cs photos1 extents
    .ok (c1 :: cs1, photos2)

/-- `Page.eat_space2` (phase C). -/
def Page.eat_space2 (p : Page) : Except PyErr Page := do
  let (cols1, photos1) ← eatSpace2Cols 0 p.cols p.photos p.extents
  .ok { p with cols := cols1, photos := photos1 }

/-- The `y`, `w`, `h` of a column item (photo's or extent's own fields). -/
def itemRect (photos : List Photo) (extents : List PhotoExtent) :
    ColItem → Except PyErr (ℚ × ℚ × ℚ)
  | .photo pid => do
    let img ← pyget photos pid
    .ok (img.y, img.w, img.h)
  | .extent eid => do
    let e ← pyget extents eid
    .ok (e.y, e.w, e.h)

/-- First loop of `Column.wasted_space`: left/right slack
`img.h * (col.w - img.w)` for every item narrower than the column. -/
def wasteLR (cw : ℚ) (photos : List Photo) (extents : List PhotoExtent) :
    List ColItem → Except PyErr ℚ
  | [] => .ok 0
  | it :: rest => do
    let (_, w, h) ← itemRect photos extents it
    let r ← wasteLR cw photos extents rest
    .ok ((if w < cw then h * (cw - w) else 0) + r)

/-- Second loop of `Column.wasted_space`: the area of each vertical gap
between consecutive items. -/
def wasteGaps (cw : ℚ) (photos : List Photo) (extents : List PhotoExtent) :
    List ColItem → Except PyErr ℚ
  | [] => .ok 0
  | [_] => .ok 0
  | it0 :: it1 :: rest => do
    let (y0, _, h0) ← itemRect photos extents it0
    let (y1, _, _) ← itemRect photos extents it1
    let r ← wasteGaps cw photos extents (it1 :: rest)
    .ok ((if y0 + h0 < y1 then cw * (y1 - (y0 + h0)) else 0) + r)

/-- `Column.wasted_space`: slack plus gaps plus the tail gap below
`imglist[-1]` (an `IndexError` on an empty column). -/
def Column.wasted_space (c : Column) (photos : List Photo) (extents : List PhotoExtent) :
    Except PyErr ℚ := do
  let w1 ← wasteLR c.w photos extents c.imglist
  let w2 ← wasteGaps c.w photos extents c.imglist
  match c.imglist.getLast? with
  | none => .error .indexError
  | some it0 => do
    let (y0, _, h0) ← itemRect photos extents it0
    .ok (w1 + w2 + (if y0 + h0 < c.h then c.w * (c.h - (y0 + h0)) else 0))

/-- The loop of `Column.hidden_space`: an extent contributes the fraction
of its referenced photo protruding right of the column; a photo the
fraction of itself protruding left. -/
def hiddenItems (cx cw : ℚ) (photos : List Photo) (extents : List PhotoExtent) :
    List ColItem → Except PyErr ℚ
  | [] => .ok 0
  | .extent eid :: rest => do
    let e ← pyget extents eid
    let img ← pyget photos e.img_ref
    let contrib ← if img.x + img.w > cx + cw then
        pydiv ((img.x + img.w) - (cx + cw)) img.w
      else .ok 0
    let r ← hiddenItems cx cw photos extents rest
    .ok (contrib + r)
  | .photo pid :: rest => do
    let img ← pyget photos pid
    let contrib ← if img.x < cx then pydiv (cx - img.x) img.w else .ok 0
    let r ← hiddenItems cx cw photos extents rest
    .ok (contrib + r)

/-- `Column.hidden_space`. -/
def Column.hidden_space (c : Column) (photos : List Photo) (extents : List PhotoExtent) :
    Except PyErr ℚ :=
  hiddenItems c.x c.w photos extents c.imglist

/-- `Page.get_width`: `sum(c.w for c in cols)`. -/
def Page.get_width (p : Page) : ℚ :=
  (p.cols.map Column.w).sum

/-- `Page.get_height`: `max(c.h for c in cols)` (Python's `max` raises
`ValueError` on an empty sequence). -/
def Page.get_height (p : Page) : Except PyErr ℚ :=
  match p.cols.map Column.h with
  | [] => .error .valueError
  | h :: hs => .ok (hs.foldl max h)

/-- `sum(c.wasted_space() for c in cols)`. -/
def sumWasted (photos : List Photo) (extents : List PhotoExtent) :
    List Column → Except PyErr ℚ
  | [] => .ok 0
  | c :: cs => do
    let a ← c.wasted_space photos extents
    let r ← sumWasted photos extents cs
    .ok (a + r)

/-- `sum(c.hidden_space() for c in cols)`. -/
def sumHidden (photos : List Photo) (extents : List PhotoExtent) :
    List Column → Except PyErr ℚ
  | [] => .ok 0
  | c :: cs => do
    let a ← c.hidden_space photos extents
    let r ← sumHidden photos extents cs
    .ok (a + r)

/-- `Page.wasted_space`: total waste over the bounding-box area. -/
def Page.wasted_space (p : Page) : Except PyErr ℚ := do
  let s ← sumWasted p.photos p.extents p.cols
  let gh ← p.get_height
  pydiv s (p.get_width * gh)

/-- Number of entries of all columns' `imglist`s, extents included:
`sum(len(c.imglist) for c in cols)`. -/
def totalEntries (p : Page) : Nat :=
  (p.cols.map (fun c => c.imglist.length)).sum

/-- `Page.hidden_space`: summed per-column hidden space over the number of
all column entries (extents included). -/
def Page.hidden_space (p : Page) : Except PyErr ℚ := do
  let s ← sumHidden p.photos p.extents p.cols
  pydiv s (totalEntries p)

/-- A photo with its `x` slot blanked: phase C only ever rewrites photo
`x` coordinates, which `Column.get_width` never reads. -/
def eraseX (ph : Photo) : Photo :=
  { ph with x := 0 }

/-- The `y` and `h` of a column item, resolved through the arenas. -/
def itemYH (photos : List Photo) (extents : List PhotoExtent) : ColItem → Option (ℚ × ℚ)
  | .photo pid => photos[pid]?.map (fun ph => (ph.y, ph.h))
  | .extent eid => extents[eid]?.map (fun e => (e.y, e.h))

/-- The items of a column are stacked without overlap: every item resolves
in the arenas, starts at or below the running lower bound, and the last
item's bottom is at most the final bound. -/
inductive ChainBound (photos : List Photo) (extents : List PhotoExtent) :
    ℚ → List ColItem → ℚ → Prop
  | nil {lo hi : ℚ} : lo ≤ hi → ChainBound photos extents lo [] hi
  | cons {lo hi y h : ℚ} {it : ColItem} {rest : List ColItem} :
      itemYH photos extents it = some (y, h) →
      lo ≤ y → ChainBound photos extents (y + h) rest hi →
      ChainBound photos extents lo (it :: rest) hi

/-- Every extent resolves to its referenced photo, copies the photo's
placed height, and starts at or below the photo's `y` (phase A places the
extent at the receiving column's height, the photo at the pair's maximum
height). -/
def extentRefOK (p : Page) : Prop :=
  ∀ (eid : Nat) (e : PhotoExtent), p.extents[eid]? = some e →
    ∃ ph, p.photos[e.img_ref]? = some ph ∧ e.h = ph.h ∧ e.y ≤ ph.y

/-- Every column's items form a non-overlapping stack from `0` bounded by
the column's height. -/
def geomOK (p : Page) : Prop :=
  ∀ c ∈ p.cols, ChainBound p.photos p.extents 0 c.imglist c.h

/-- The photo/extent aliasing discipline of phase A: every extent's
referenced photo holds exactly that extent (and nothing else) in its
`spacings`, and every `spacings` entry points back at its photo. -/
def spacingsBij (photos : List Photo) (extents : List PhotoExtent) : Prop :=
  (∀ (eid : Nat) (e : PhotoExtent), extents[eid]? = some e →
    ∃ ph, photos[e.img_ref]? = some ph ∧ ph.spacings = [eid]) ∧
  (∀ (pid : Nat) (ph : Photo), photos[pid]? = some ph →
    ∀ eid ∈ ph.spacings, ∃ e, extents[eid]? = some e ∧ e.img_ref = pid)

/-- How many column entries reference photo `pid`. -/
def countP (p : Page) (pid : Nat) : Nat :=
  (p.cols.map (fun c => c.imglist.count (ColItem.photo pid))).sum

/-- How many column entries reference extent `eid`. -/
def countE (p : Page) (eid : Nat) : Nat :=
  (p.cols.map (fun c => c.imglist.count (ColItem.extent eid))).sum

/-- Phase A places every arena photo and extent in exactly one column
entry. -/
def placedOnce (p : Page) : Prop :=
  (∀ pid, pid < p.photos.length → countP p pid = 1) ∧
  (∀ pid, p.photos.length ≤ pid → countP p pid = 0) ∧
  (∀ eid, eid < p.extents.length → countE p eid = 1) ∧
  (∀ eid, p.extents.length ≤ eid → countE p eid = 0)

/-- The photo ids of a column's entries, in order. -/
def pidList (items : List ColItem) : List Nat :=
  items.filterMap (fun it => match it with | .photo pid => some pid | .extent _ => none)

/-- The extent ids of a column's entries, in order. -/
def eidList (items : List ColItem) : List Nat :=
  items.filterMap (fun it => match it with | .photo _ => none | .extent eid => some eid)

/-- The referenced photo ids of a column's extent entries, in order,
resolved through the extent arena. -/
def refListE (extents : List PhotoExtent) (items : List ColItem) : List Nat :=
  (eidList items).filterMap (fun eid => (extents[eid]?).map PhotoExtent.img_ref)

/-- The fields of an extent that phase B never writes: `adjust_height`
assigns only `s.y` and `s.h`, so the reference, abscissa and width
survive. -/
def extSig (e : PhotoExtent) : Nat × ℚ × ℚ :=
  (e.img_ref, e.x, e.w)

/-- Positivity after phase A: every arena photo carries positive natural
and placed dimensions, every arena extent positive placed dimensions, and
every column a positive width and a nonnegative height. -/
def posOK (p : Page) : Prop :=
  (∀ ph ∈ p.photos, 0 < ph.real_w ∧ 0 < ph.real_h ∧ 0 < ph.w ∧ 0 < ph.h) ∧
  (∀ e ∈ p.extents, 0 < e.w ∧ 0 < e.h) ∧
  (∀ c ∈ p.cols, 0 < c.w ∧ 0 ≤ c.h)

/-- Phase A's adjacency discipline: the first column holds no extent
entries, and the extent entries of each column reference photos placed in
the column directly to its left, in matching order (`worth_multicol`
returns a sorted pair of adjacent columns; the photo goes to the left one,
the extent to the right one, appended together). -/
def colsAdj (p : Page) : Prop :=
  (∀ c, p.cols[0]? = some c → eidList c.imglist = []) ∧
  (∀ (i : Nat) (c c' : Column), p.cols[i]? = some c → p.cols[i + 1]? = some c' →
    List.Sublist (refListE p.extents c'.imglist) (pidList c.imglist))

/-- Photos, resolved in an arena, stacked in order between two bounds:
each listed photo starts at or after the running bound, has nonnegative
height, and the final bound is at most the upper bound. -/
inductive PChain (photos : List Photo) : ℚ → List Nat → ℚ → Prop
  | nil {lo hi : ℚ} : lo ≤ hi → PChain photos lo [] hi
  | cons {lo hi : ℚ} {pid : Nat} {rest : List Nat} {ph : Photo} :
      photos[pid]? = some ph → lo ≤ ph.y → 0 ≤ ph.h →
      PChain photos (ph.y + ph.h) rest hi → PChain photos lo (pid :: rest) hi

/-- Extents, resolved in an arena, stacked in order between two bounds. -/
inductive EChain (extents : List PhotoExtent) : ℚ → List Nat → ℚ → Prop
  | nil {lo hi : ℚ} : lo ≤ hi → EChain extents lo [] hi
  | cons {lo hi : ℚ} {eid : Nat} {rest : List Nat} {e : PhotoExtent} :
      extents[eid]? = some e → lo ≤ e.y → 0 ≤ e.h →
      EChain extents (e.y + e.h) rest hi → EChain extents lo (eid :: rest) hi

/-- Movable groups stacked in order between two bounds. -/
inductive GChain : ℚ → List MovGroup → ℚ → Prop
  | nil {lo hi : ℚ} : lo ≤ hi → GChain lo [] hi
  | cons {lo hi : ℚ} {g : MovGroup} {gs : List MovGroup} :
      lo ≤ g.y → 0 ≤ g.h → GChain (g.y + g.h) gs hi → GChain lo (g :: gs) hi

/-! ### Concrete test vectors -/

/-- A coin-flip stream that never extends. -/
def rngF : Nat → Bool := fun _ => false

/-- A coin-flip stream whose second draw (index 1) extends. -/
def rng01 : Nat → Bool := fun k => k == 1

/-- `Page(2, 2)` freshly constructed. -/
def wtP0 : Page :=
  { w := 2, no_cols := 2, cols := [⟨[], 0, 1, 0⟩, ⟨[], 1, 1, 0⟩],
    photos := [], extents := [] }

/-- `wtP0` after phase A on two square photos (`1×1` and `2×2`). -/
def wtPA : Page :=
  { w := 2, no_cols := 2,
    cols := [⟨[.photo 0], 0, 1, 1⟩, ⟨[.photo 1], 1, 1, 1⟩],
    photos := [⟨1, 1, 0, 0, 1, 1, false, []⟩, ⟨2, 2, 1, 0, 1, 1, false, []⟩],
    extents := [] }

/-- `wtP0` after phase A on a `1×2/5` photo (placed normally, coin flip
loses) and a `4×1` photo (extended over both columns, coin flip wins):
the extent in column 1 starts at `y = 0` while its referenced photo
starts at `y = 2/5`. -/
def cexC7 : Page :=
  { w := 2, no_cols := 2,
    cols := [⟨[.photo 0, .photo 1], 0, 1, 9/10⟩, ⟨[.extent 0], 1, 1, 9/10⟩],
    photos := [⟨1, 2/5, 0, 0, 1, 2/5, false, []⟩, ⟨4, 1, 0, 2/5, 2, 1/2, true, [0]⟩],
    extents := [⟨1, 1, 0, 2, 1/2⟩] }

/-- `wtP0` after placing only the `1×2/5` photo (the midpoint of the
`cexC7` run). -/
def cexC7mid : Page :=
  { w := 2, no_cols := 2,
    cols := [⟨[.photo 0], 0, 1, 2/5⟩, ⟨[], 1, 1, 0⟩],
    photos := [⟨1, 2/5, 0, 0, 1, 2/5, false, []⟩],
    extents := [] }

/-- `cexC7` after phase B: the extent has been re-synchronised to its
referenced photo's `y = 2/5` and `h = 1/2`. -/
def cexC7B : Page :=
  { w := 2, no_cols := 2,
    cols := [⟨[.photo 0, .photo 1], 0, 1, 9/10⟩, ⟨[.extent 0], 1, 1, 9/10⟩],
    photos := [⟨1, 2/5, 0, 0, 1, 2/5, false, []⟩, ⟨4, 1, 0, 2/5, 2, 1/2, true, [0]⟩],
    extents := [⟨1, 1, 2/5, 2, 1/2⟩] }

/-- `Page(1, 1)` freshly constructed. -/
def pg11 : Page :=
  { w := 1, no_cols := 1, cols := [⟨[], 0, 1, 0⟩], photos := [], extents := [] }

/-- `pg11` after appending a `10×0` photo: the degenerate photo is placed
silently with height `0` (no multicolumn pair exists, so `img.w / img.h`
is never evaluated and `h = c.w * 0 / 10 = 0`). -/
def pg11z : Page :=
  { w := 1, no_cols := 1, cols := [⟨[.photo 0], 0, 1, 0⟩],
    photos := [⟨10, 0, 0, 0, 1, 0, false, []⟩], extents := [] }

/-! ### Generic inversion lemmas for the `Except` plumbing -/

theorem exceptBind_ok {α β : Type} {x : Except PyErr α} {f : α → Except PyErr β} {b : β}
    (h : (x >>= f) = Except.ok b) : ∃ a, x = Except.ok a ∧ f a = Except.ok b := by
  cases x with
  | error e => simp [Bind.bind, Except.bind] at h
  | ok a => exact ⟨a, rfl, by simpa [Bind.bind, Except.bind] using h⟩

theorem pydiv_ok {a b q : ℚ} (h : pydiv a b = .ok q) : b ≠ 0 ∧ q = a / b := by
  by_cases hb : b = 0 <;> simp [pydiv, hb] at h ⊢
  exact h.symm

theorem pyget_ok {α : Type} {xs : List α} {i : Nat} {a : α}
    (h : pyget xs i = .ok a) : xs[i]? = some a := by
  unfold pyget at h
  cases hx : xs[i]? with
  | none => simp [hx] at h
  | some b => simp [hx] at h; rw [h]

theorem pyget_ok_lt {α : Type} {xs : List α} {i : Nat} {a : α}
    (h : pyget xs i = .ok a) : i < xs.length :=
  List.getElem?_eq_some_iff.mp (pyget_ok h) |>.1

/-! ### Phase B: shape of the result (claims C1, C2) -/

theorem adjust_height_ok {c : Column} {H : ℚ} {photos : List Photo}
    {extents : List PhotoExtent} {c1 : Column} {ps : List Photo} {es : List PhotoExtent}
    (h : c.adjust_height H photos extents = .ok (c1, ps, es)) :
    c1 = { c with h := H } := by
  unfold Column.adjust_height at h
  obtain ⟨gs, hg, h⟩ := exceptBind_ok h
  obtain ⟨⟨ps1, es1⟩, ha, h⟩ := exceptBind_ok h
  simp only [Except.ok.injEq, Prod.mk.injEq] at h
  exact h.1.symm

theorem eatSpaceCols_ok {H : ℚ} : ∀ {cs : List Column} {photos : List Photo}
    {extents : List PhotoExtent} {cs1 : List Column} {ps : List Photo}
    {es : List PhotoExtent},
    eatSpaceCols H cs photos extents = .ok (cs1, ps, es) →
    cs1 = cs.map (fun c => { c with h := H })
  | [], photos, extents, cs1, ps, es => by
    intro h
    simp only [eatSpaceCols, Except.ok.injEq, Prod.mk.injEq] at h
    simp [← h.1]
  | c :: cs, photos, extents, cs1, ps, es => by
    intro h
    simp only [eatSpaceCols] at h
    obtain ⟨⟨c1, ps1, es1⟩, h1, h⟩ := exceptBind_ok h
    obtain ⟨⟨cs2, ps2, es2⟩, h2, h⟩ := exceptBind_ok h
    simp only [Except.ok.injEq, Prod.mk.injEq] at h
    have := eatSpaceCols_ok h2
    simp only [List.map_cons, ← h.1, this, adjust_height_ok h1]

theorem eat_space_ok {p p' : Page} (h : p.eat_space = .ok p') :
    p'.w = p.w ∧ p'.no_cols = p.no_cols ∧ (p.no_cols : ℚ) ≠ 0 ∧
    p'.cols = p.cols.map
      (fun c => { c with h := (p.cols.map Column.h).sum / (p.no_cols : ℚ) }) := by
  unfold Page.eat_space at h
  obtain ⟨H, hH, h⟩ := exceptBind_ok h
  obtain ⟨⟨cs1, ps1, es1⟩, hcs, h⟩ := exceptBind_ok h
  obtain ⟨hn0, hHv⟩ := pydiv_ok hH
  simp only [Except.ok.injEq] at h
  subst h
  refine ⟨rfl, rfl, hn0, ?_⟩
  simpa [← hHv] using eatSpaceCols_ok hcs

/-- C1: phase B (`Page.eat_space`) computes the target height as the
average of the column heights at the moment phase B starts
(`sum(c.h for c in cols) / no_cols`), and afterwards every column's `h`
equals that target exactly. -/
theorem c1_eat_space_equalizes_heights {p p' : Page} {c : Column}
    (hn : 1 ≤ p.no_cols)
    (h : p.eat_space = .ok p')
    (hc : c ∈ p'.cols) :
    c.h = (p.cols.map Column.h).sum / (p.no_cols : ℚ) := by
  obtain ⟨-, -, -, hcols⟩ := eat_space_ok h
  rw [hcols] at hc
  obtain ⟨c0, -, hc0⟩ := List.mem_map.mp hc
  rw [← hc0]

/-- Witness for C1 on a concrete page: two square photos in two columns. -/
theorem c1_witness :
    (1 ≤ wtPA.no_cols ∧ wtPA.eat_space = .ok wtPA ∧
      (⟨[.photo 0], 0, 1, 1⟩ : Column) ∈ wtPA.cols) ∧
    (⟨[.photo 0], 0, 1, 1⟩ : Column).h = (wtPA.cols.map Column.h).sum / (wtPA.no_cols : ℚ) :=
  have h1 : 1 ≤ wtPA.no_cols := by decide
  have h2 : wtPA.eat_space = .ok wtPA := by with_unfolding_all decide
  have h3 : (⟨[.photo 0], 0, 1, 1⟩ : Column) ∈ wtPA.cols := by decide
  ⟨⟨h1, h2, h3⟩, c1_eat_space_equalizes_heights h1 h2 h3⟩


/-! ### Width conservation (claim C2) -/

theorem map_set_eq {α β : Type} (f : α → β) : ∀ {l : List α} {i : Nat} {c a : α},
    l[i]? = some c → f a = f c → (l.set i a).map f = l.map f
  | [], i, c, a => by intro hc hf; simp at hc
  | x :: xs, 0, c, a => by
    intro hc hf
    simp only [List.getElem?_cons_zero, Option.some.injEq] at hc
    simp [List.set, hf, hc]
  | x :: xs, n + 1, c, a => by
    intro hc hf
    simp only [List.getElem?_cons_succ] at hc
    simp [List.set, map_set_eq f hc hf]

/-- `map f` over a double `set` at distinct indices is unchanged when `f`
is preserved at both spots. -/
theorem map_set2_eq {α β : Type} (f : α → β) {l : List α} {a b : Nat} {ca cb ca1 cb1 : α}
    (hab : a ≠ b) (hca : l[a]? = some ca) (hcb : l[b]? = some cb)
    (hwa : f ca1 = f ca) (hwb : f cb1 = f cb) :
    ((l.set a ca1).set b cb1).map f = l.map f := by
  rw [map_set_eq f (by rw [List.getElem?_set_ne hab]; exact hcb) hwb, map_set_eq f hca hwa]

theorem worthAux_ok_some {cols : List Column} {i : Nat} : ∀ {js : List Nat} {a b : Nat},
    worthAux cols i js = .ok (some (a, b)) →
    ∃ j ∈ js, j ≠ i ∧ a = min i j ∧ b = max i j ∧ i < cols.length ∧ j < cols.length
  | [], a, b => by intro h; simp [worthAux] at h
  | j :: js, a, b => by
    intro h
    unfold worthAux at h
    by_cases hji : j = i
    · simp only [if_pos hji] at h
      obtain ⟨j', hj', hrest⟩ := worthAux_ok_some h
      exact ⟨j', List.mem_cons_of_mem _ hj', hrest⟩
    · simp only [if_neg hji] at h
      obtain ⟨cj, hcj, h⟩ := exceptBind_ok h
      obtain ⟨ci, hci, h⟩ := exceptBind_ok h
      by_cases hlt : |cj.h - ci.h| < (1 / 2 : ℚ) * ci.w
      · simp only [if_pos hlt, Except.ok.injEq, Option.some.injEq, Prod.mk.injEq] at h
        exact ⟨j, List.mem_cons_self j js, hji, h.1.symm, h.2.symm,
          pyget_ok_lt hci, pyget_ok_lt hcj⟩
      · simp only [if_neg hlt] at h
        obtain ⟨j', hj', hrest⟩ := worthAux_ok_some h
        exact ⟨j', List.mem_cons_of_mem _ hj', hrest⟩

theorem worth_multicol_ok_some {p : Page} {a b : Nat}
    (h : p.worth_multicol = .ok (some (a, b))) :
    a < b ∧ b = a + 1 ∧ a < p.cols.length ∧ b < p.cols.length := by
  unfold Page.worth_multicol at h
  obtain ⟨oi, hoi, h⟩ := exceptBind_ok h
  match oi with
  | none => simp at h
  | some i =>
    simp only at h
    obtain ⟨j, hj, hji, ha, hb, hil, hjl⟩ := worthAux_ok_some h
    have hjr := List.mem_range'_1.mp hj
    have hj2 : j < i + 2 := by omega
    have hji' : i ≠ j := Ne.symm hji
    rcases Nat.le_total i j with hij | hij
    · rw [min_eq_left hij] at ha
      rw [max_eq_right hij] at hb
      subst ha hb
      omega
    · rw [min_eq_right hij] at ha
      rw [max_eq_left hij] at hb
      subst ha hb
      omega

theorem appendNormal_frame {p : Page} {img0 : Photo} {p' : Page}
    (h : p.appendNormal img0 = .ok p') :
    p'.w = p.w ∧ p'.no_cols = p.no_cols ∧ p'.cols.map Column.w = p.cols.map Column.w := by
  unfold Page.appendNormal at h
  obtain ⟨oi, hoi, h⟩ := exceptBind_ok h
  match oi with
  | none => simp at h
  | some i =>
    simp only at h
    obtain ⟨c, hc, h⟩ := exceptBind_ok h
    obtain ⟨hv, hh, h⟩ := exceptBind_ok h
    simp only [Except.ok.injEq] at h
    subst h
    exact ⟨rfl, rfl, map_set_eq Column.w (pyget_ok hc) rfl⟩

theorem append_frame {p : Page} {img0 : Photo} {rng : Nat → Bool} {k : Nat}
    {p' : Page} {k' : Nat} (h : p.append img0 rng k = .ok (p', k')) :
    p'.w = p.w ∧ p'.no_cols = p.no_cols ∧ p'.cols.map Column.w = p.cols.map Column.w := by
  unfold Page.append at h
  obtain ⟨mc, hmc, h⟩ := exceptBind_ok h
  match mc with
  | none =>
    simp only at h
    obtain ⟨p1, hp1, h⟩ := exceptBind_ok h
    simp only [Except.ok.injEq, Prod.mk.injEq] at h
    rw [← h.1]
    exact appendNormal_frame hp1
  | some (a, b) =>
    simp only at h
    obtain ⟨aspect, hasp, h⟩ := exceptBind_ok h
    obtain ⟨hab, -, hal, hbl⟩ := worth_multicol_ok_some hmc
    split at h
    · split at h
      · obtain ⟨ca, hca, h⟩ := exceptBind_ok h
        obtain ⟨cb, hcb, h⟩ := exceptBind_ok h
        obtain ⟨hv, hh, h⟩ := exceptBind_ok h
        simp only [Except.ok.injEq, Prod.mk.injEq] at h
        rw [← h.1]
        exact ⟨rfl, rfl,
          map_set2_eq Column.w (Nat.ne_of_lt hab) (pyget_ok hca) (pyget_ok hcb) rfl rfl⟩
      · obtain ⟨p1, hp1, h⟩ := exceptBind_ok h
        simp only [Except.ok.injEq, Prod.mk.injEq] at h
        rw [← h.1]
        exact appendNormal_frame hp1
    · obtain ⟨p1, hp1, h⟩ := exceptBind_ok h
      simp only [Except.ok.injEq, Prod.mk.injEq] at h
      rw [← h.1]
      exact appendNormal_frame hp1

theorem fill_frame : ∀ {imgs : List Photo} {p : Page} {rng : Nat → Bool} {k : Nat}
    {p' : Page} {k' : Nat}, p.fill imgs rng k = .ok (p', k') →
    p'.w = p.w ∧ p'.no_cols = p.no_cols ∧ p'.cols.map Column.w = p.cols.map Column.w
  | [], p, rng, k, p', k' => by
    intro h
    simp only [Page.fill, Except.ok.injEq, Prod.mk.injEq] at h
    rw [← h.1]
    exact ⟨rfl, rfl, rfl⟩
  | img :: rest, p, rng, k, p', k' => by
    intro h
    simp only [Page.fill] at h
    obtain ⟨⟨p1, k1⟩, h1, h⟩ := exceptBind_ok h
    obtain ⟨hw1, hn1, hm1⟩ := append_frame h1
    obtain ⟨hw2, hn2, hm2⟩ := fill_frame h
    exact ⟨hw2.trans hw1, hn2.trans hn1, hm2.trans hm1⟩

theorem initCols_map_w (cw : ℚ) : ∀ (n : Nat) (x : ℚ),
    (initCols cw n x).map Column.w = List.replicate n cw
  | 0, x => rfl
  | n + 1, x => by
    simp [initCols, initCols_map_w cw n, List.replicate_succ]

theorem init_ok {W : ℚ} {n : Nat} {p0 : Page} (h : Page.init W n = .ok p0) :
    p0.w = W ∧ p0.no_cols = n ∧ (n : ℚ) ≠ 0 ∧ p0.cols = initCols (W / n) n 0 := by
  unfold Page.init at h
  obtain ⟨cw, hcw, h⟩ := exceptBind_ok h
  obtain ⟨hn0, hv⟩ := pydiv_ok hcw
  simp only [Except.ok.injEq] at h
  subst h hv
  exact ⟨rfl, rfl, hn0, rfl⟩

/-- C2: after phase A (`Page.init` then `Page.fill`) the widths of the
columns sum to the page width exactly, and phase B (`Page.eat_space`)
leaves every column width unchanged. -/
theorem c2_width_conservation {W : ℚ} {n : Nat} {imgs : List Photo} {rng : Nat → Bool}
    {p0 p1 p2 : Page} {k1 : Nat}
    (hW : 0 < W) (hn : 1 ≤ n)
    (hvalid : ∀ im ∈ imgs, 0 < im.real_w ∧ 0 < im.real_h)
    (hinit : Page.init W n = .ok p0)
    (hfill : p0.fill imgs rng 0 = .ok (p1, k1))
    (heat : p1.eat_space = .ok p2) :
    (p1.cols.map Column.w).sum = W ∧ p2.cols.map Column.w = p1.cols.map Column.w := by
  obtain ⟨hw0, hn0, hne, hcols0⟩ := init_ok hinit
  obtain ⟨-, -, hm⟩ := fill_frame hfill
  constructor
  · rw [hm, hcols0, initCols_map_w, List.sum_replicate, nsmul_eq_mul]
    field_simp
  · obtain ⟨-, -, -, hcols2⟩ := eat_space_ok heat
    rw [hcols2, List.map_map]
    rfl

/-- Witness for C2: two square photos on a width-2, two-column page. -/
theorem c2_witness :
    ((0 : ℚ) < 2 ∧ 1 ≤ 2 ∧
      Page.init 2 2 = .ok wtP0 ∧
      wtP0.fill [mkPhoto 1 1, mkPhoto 2 2] rngF 0 = .ok (wtPA, 0) ∧
      wtPA.eat_space = .ok wtPA) ∧
    (wtPA.cols.map Column.w).sum = 2 ∧ wtPA.cols.map Column.w = wtPA.cols.map Column.w :=
  have h0 : (0 : ℚ) < 2 := by norm_num
  have h1 : 1 ≤ 2 := by norm_num
  have hv : ∀ im ∈ [mkPhoto 1 1, mkPhoto 2 2], 0 < im.real_w ∧ 0 < im.real_h := by
    with_unfolding_all decide
  have h2 : Page.init 2 2 = .ok wtP0 := by with_unfolding_all decide
  have h3 : wtP0.fill [mkPhoto 1 1, mkPhoto 2 2] rngF 0 = .ok (wtPA, 0) := by
    with_unfolding_all decide
  have h4 : wtPA.eat_space = .ok wtPA := by with_unfolding_all decide
  ⟨⟨h0, h1, h2, h3, h4⟩, c2_width_conservation h0 h1 hv h2 h3 h4⟩

/-! ### Phase C: columns end at their minimum slot width (claim C5) -/

theorem pyget_eraseX {photos1 photos2 : List Photo}
    (h : photos1.map eraseX = photos2.map eraseX) (pid : Nat) :
    (pyget photos1 pid = .error .indexError ∧ pyget photos2 pid = .error .indexError) ∨
    (∃ a b, pyget photos1 pid = .ok a ∧ pyget photos2 pid = .ok b ∧
      a.w = b.w ∧ a.extended = b.extended) := by
  have hp : Option.map eraseX photos1[pid]? = Option.map eraseX photos2[pid]? := by
    rw [← List.getElem?_map, ← List.getElem?_map, h]
  cases h1 : photos1[pid]? with
  | none =>
    cases h2 : photos2[pid]? with
    | none => exact Or.inl ⟨by simp [pyget, h1], by simp [pyget, h2]⟩
    | some b => rw [h1, h2] at hp; exact absurd hp (by simp)
  | some a =>
    cases h2 : photos2[pid]? with
    | none => rw [h1, h2] at hp; exact absurd hp (by simp)
    | some b =>
      rw [h1, h2] at hp
      simp only [Option.map_some', Option.some.injEq] at hp
      refine Or.inr ⟨a, b, by simp [pyget, h1], by simp [pyget, h2], ?_, ?_⟩
      · have := congrArg Photo.w hp
        simpa [eraseX] using this
      · have := congrArg Photo.extended hp
        simpa [eraseX] using this

theorem imgsWidths_congr {photos1 photos2 : List Photo}
    (h : photos1.map eraseX = photos2.map eraseX) : ∀ (items : List ColItem),
    imgsWidths photos1 items = imgsWidths photos2 items
  | [] => rfl
  | .photo pid :: rest => by
    unfold imgsWidths
    rcases pyget_eraseX h pid with ⟨h1, h2⟩ | ⟨a, b, h1, h2, hw, he⟩ <;>
      simp only [h1, h2, Bind.bind, Except.bind]
    rw [imgsWidths_congr h rest, hw, he]
  | .extent eid :: rest => by
    unfold imgsWidths
    exact imgsWidths_congr h rest

theorem extsWidths_congr {photos1 photos2 : List Photo}
    (h : photos1.map eraseX = photos2.map eraseX) : ∀ (items : List ColItem),
    extsWidths photos1 items = extsWidths photos2 items
  | [] => rfl
  | .photo pid :: rest => by
    unfold extsWidths
    rcases pyget_eraseX h pid with ⟨h1, h2⟩ | ⟨a, b, h1, h2, hw, he⟩ <;>
      simp only [h1, h2, Bind.bind, Except.bind]
    rw [extsWidths_congr h rest, hw, he]
  | .extent eid :: rest => by
    unfold extsWidths
    exact extsWidths_congr h rest

theorem spcsWidths_congr {photos1 photos2 : List Photo} {extents : List PhotoExtent}
    (h : photos1.map eraseX = photos2.map eraseX) : ∀ (items : List ColItem),
    spcsWidths photos1 extents items = spcsWidths photos2 extents items
  | [] => rfl
  | .photo pid :: rest => by
    unfold spcsWidths
    exact spcsWidths_congr h rest
  | .extent eid :: rest => by
    unfold spcsWidths
    cases he : pyget extents eid with
    | error e => simp only [he, Bind.bind, Except.bind]
    | ok e =>
      rcases pyget_eraseX h e.img_ref with ⟨h1, h2⟩ | ⟨a, b, h1, h2, hw, hext⟩ <;>
        simp only [he, h1, h2, Bind.bind, Except.bind]
      rw [spcsWidths_congr h rest, hw]

/-- `get_width` depends only on the column's item list, the photos'
widths/extended flags and the extents' references — never on any `x`. -/
theorem get_width_congr {c1 c2 : Column} {photos1 photos2 : List Photo}
    {extents : List PhotoExtent}
    (hi : c1.imglist = c2.imglist)
    (h : photos1.map eraseX = photos2.map eraseX) :
    c1.get_width photos1 extents = c2.get_width photos2 extents := by
  unfold Column.get_width
  rw [hi, imgsWidths_congr h, extsWidths_congr h, spcsWidths_congr h]

theorem adjustWidthItems_eraseX {cx cw : ℚ} : ∀ {items : List ColItem}
    {photos : List Photo} {extents : List PhotoExtent} {ps : List Photo},
    adjustWidthItems cx cw items photos extents = .ok ps →
    ps.map eraseX = photos.map eraseX
  | [], photos, extents, ps => by
    intro h
    simp only [adjustWidthItems, Except.ok.injEq] at h
    rw [h]
  | .photo pid :: rest, photos, extents, ps => by
    intro h
    simp only [adjustWidthItems] at h
    obtain ⟨img, himg, h⟩ := exceptBind_ok h
    refine (adjustWidthItems_eraseX h).trans (map_set_eq eraseX (pyget_ok himg) ?_)
    rfl
  | .extent eid :: rest, photos, extents, ps => by
    intro h
    simp only [adjustWidthItems] at h
    obtain ⟨e, he, h⟩ := exceptBind_ok h
    obtain ⟨img, himg, h⟩ := exceptBind_ok h
    refine (adjustWidthItems_eraseX h).trans (map_set_eq eraseX (pyget_ok himg) ?_)
    rfl

theorem adjust_width_ok {c : Column} {photos : List Photo} {extents : List PhotoExtent}
    {c1 : Column} {ps : List Photo}
    (h : c.adjust_width photos extents = .ok (c1, ps)) :
    c.get_width photos extents = .ok c1.w ∧ c1 = { c with w := c1.w } ∧
    ps.map eraseX = photos.map eraseX := by
  unfold Column.adjust_width at h
  obtain ⟨w1, hw1, h⟩ := exceptBind_ok h
  obtain ⟨ps1, hps1, h⟩ := exceptBind_ok h
  simp only [Except.ok.injEq, Prod.mk.injEq] at h
  obtain ⟨hc1, hps⟩ := h
  subst hps
  rw [← hc1]
  exact ⟨hw1, rfl, adjustWidthItems_eraseX hps1⟩

theorem eatSpace2Cols_ok : ∀ {x : ℚ} {cs : List Column} {photos : List Photo}
    {extents : List PhotoExtent} {cs1 : List Column} {ps : List Photo},
    eatSpace2Cols x cs photos extents = .ok (cs1, ps) →
    ps.map eraseX = photos.map eraseX ∧
    ∀ c1 ∈ cs1, c1.get_width ps extents = .ok c1.w
  | x, [], photos, extents, cs1, ps => by
    intro h
    simp only [eatSpace2Cols, Except.ok.injEq, Prod.mk.injEq] at h
    obtain ⟨h1, h2⟩ := h
    subst h1 h2
    exact ⟨rfl, by simp⟩
  | x, c :: cs, photos, extents, cs1, ps => by
    intro h
    simp only [eatSpace2Cols] at h
    obtain ⟨⟨c1, ps1⟩, h1, h⟩ := exceptBind_ok h
    obtain ⟨⟨cs2, ps2⟩, h2, h⟩ := exceptBind_ok h
    simp only [Except.ok.injEq, Prod.mk.injEq] at h
    obtain ⟨hcs, hps⟩ := h
    subst hcs hps
    obtain ⟨hgw, hc1, hmap1⟩ := adjust_width_ok h1
    obtain ⟨hmap2, hrest⟩ := eatSpace2Cols_ok h2
    refine ⟨hmap2.trans hmap1, ?_⟩
    intro c' hc'
    rcases List.mem_cons.mp hc' with hhd | htl
    · subst hhd
      rw [@get_width_congr c' { c with x := x } _ _ _
        (by rw [hc1]) (hmap2.trans hmap1)]
      rw [hgw]
    · exact hrest c' htl

/-- C5: after phase C (`Page.eat_space2`), every column's `w` equals
`Column.get_width` (the minimum natural slot width over non-extended
photos, halves of extended photos and halves of extents' referenced
photos, with the `2**32` sentinel) recomputed over that column's final
items and the final arenas. -/
theorem c5_eat_space2_min_width {p p' : Page} {c : Column}
    (h : p.eat_space2 = .ok p')
    (hc : c ∈ p'.cols) :
    c.get_width p'.photos p'.extents = .ok c.w := by
  unfold Page.eat_space2 at h
  obtain ⟨⟨cs1, ps1⟩, h1, h⟩ := exceptBind_ok h
  simp only [Except.ok.injEq] at h
  subst h
  exact (eatSpace2Cols_ok h1).2 c hc

/-- Witness for C5 on the two-square-photo page. -/
theorem c5_witness :
    (wtPA.eat_space2 = .ok wtPA ∧ (⟨[.photo 0], 0, 1, 1⟩ : Column) ∈ wtPA.cols) ∧
    (⟨[.photo 0], 0, 1, 1⟩ : Column).get_width wtPA.photos wtPA.extents =
      .ok (⟨[.photo 0], 0, 1, 1⟩ : Column).w :=
  have h1 : wtPA.eat_space2 = .ok wtPA := by with_unfolding_all decide
  have h2 : (⟨[.photo 0], 0, 1, 1⟩ : Column) ∈ wtPA.cols := by decide
  ⟨⟨h1, h2⟩, c5_eat_space2_min_width h1 h2⟩

/-! ### Error behaviour on degenerate photos (claim C8) -/

/-- Counterexample to C8: the code has no `InvalidPhotoDimensions`
condition at all.  On a single-column page a photo with `real_h = 0`
(and `real_w = 10`) is appended without any error: the multicolumn test
finds no pair, `img.w / img.h` is never evaluated, and the photo is placed
with height `0`. -/
theorem c8_counterexample :
    (mkPhoto 10 0).real_h = 0 ∧
    Page.init 1 1 = .ok pg11 ∧
    pg11.append (mkPhoto 10 0) rngF 0 = .ok (pg11z, 0) := by
  refine ⟨by with_unfolding_all decide, by with_unfolding_all decide, ?_⟩
  with_unfolding_all decide

theorem appendNormal_zero_real_w {p : Page} {img0 : Photo} (h0 : img0.real_w = 0) :
    (p.appendNormal img0).isOk = false := by
  unfold Page.appendNormal
  cases hoi : p.next_col with
  | error e => rfl
  | ok oi =>
    match oi with
    | none => rfl
    | some i =>
      simp only [Bind.bind, Except.bind]
      cases hc : pyget p.cols i with
      | error e => rfl
      | ok c =>
        simp only [pydiv, h0]
        norm_num [Except.isOk, Except.toBool]

/-- Amended C8: appending a photo whose `real_w` is zero never succeeds —
every placement path divides by `real_w` — but it fails with the ordinary
`ZeroDivisionError`-style faults of the interpreter, not with any named
`InvalidPhotoDimensions` condition (no such condition exists in the code,
and a `real_h = 0` photo can even be placed successfully, see the
counterexample). -/
theorem c8_amended_zero_real_w_always_faults {p : Page} {img0 : Photo}
    {rng : Nat → Bool} {k : Nat} (h0 : img0.real_w = 0) :
    (p.append img0 rng k).isOk = false := by
  unfold Page.append
  cases hmc : p.worth_multicol with
  | error e => rfl
  | ok mc =>
    simp only [Bind.bind, Except.bind]
    match mc with
    | none =>
      cases hn : p.appendNormal img0 with
      | error e => rfl
      | ok p1 =>
        have hfa := @appendNormal_zero_real_w p img0 h0
        rw [hn] at hfa
        simp [Except.isOk, Except.toBool] at hfa
    | some (a, b) =>
      cases hasp : pydiv img0.w img0.h with
      | error e => rfl
      | ok aspect =>
        simp only
        split
        · split
          · cases hca : pyget p.cols a with
            | error e => rfl
            | ok ca =>
              simp only [Bind.bind, Except.bind]
              cases hcb : pyget p.cols b with
              | error e => rfl
              | ok cb =>
                simp only [pydiv, h0]
                norm_num [Except.isOk, Except.toBool]
          · cases hn : p.appendNormal img0 with
            | error e => rfl
            | ok p1 =>
              have hfa := @appendNormal_zero_real_w p img0 h0
              rw [hn] at hfa
              simp [Except.isOk, Except.toBool] at hfa
        · cases hn : p.appendNormal img0 with
          | error e => rfl
          | ok p1 =>
            have hfa := @appendNormal_zero_real_w p img0 h0
            rw [hn] at hfa
            simp [Except.isOk, Except.toBool] at hfa

/-- Witness for the amended C8 at a concrete input. -/
theorem c8_amended_witness :
    (mkPhoto 0 1).real_w = 0 ∧ (wtP0.append (mkPhoto 0 1) rngF 0).isOk = false :=
  have h0 : (mkPhoto 0 1).real_w = 0 := by with_unfolding_all decide
  ⟨h0, c8_amended_zero_real_w_always_faults h0⟩

/-! ### Metrics on an empty layout (claim C9) -/

/-- Counterexample to C9: on the page produced by `fill` of an empty photo
list, both columns do have height `0`, but `Page.wasted_space` faults with
an `IndexError` (the `imglist[-1]` subscript of `Column.wasted_space` on an
empty column) and `Page.hidden_space` faults with a `ZeroDivisionError`
(`sum(len(c.imglist) ...) == 0`); neither returns `0` or a named
`EmptyLayout` condition. -/
theorem c9_counterexample :
    Page.init 2 2 = .ok wtP0 ∧
    wtP0.fill [] rngF 0 = .ok (wtP0, 0) ∧
    wtP0.cols.map Column.h = [0, 0] ∧
    wtP0.wasted_space = .error .indexError ∧
    wtP0.hidden_space = .error .zeroDivision := by
  refine ⟨by with_unfolding_all decide, by with_unfolding_all decide,
    by with_unfolding_all decide, ?_, ?_⟩ <;> with_unfolding_all decide

theorem initCols_imglist_nil (cw : ℚ) : ∀ (n : Nat) (x : ℚ) (c : Column),
    c ∈ initCols cw n x → c.imglist = [] ∧ c.h = 0
  | 0, x, c => by intro h; simp [initCols] at h
  | n + 1, x, c => by
    intro h
    rcases List.mem_cons.mp h with h1 | h1
    · subst h1; exact ⟨rfl, rfl⟩
    · exact initCols_imglist_nil cw n (x + cw) c h1

theorem sumHidden_nil_cols {photos : List Photo} {extents : List PhotoExtent} :
    ∀ {cs : List Column}, (∀ c ∈ cs, c.imglist = []) →
    sumHidden photos extents cs = .ok 0
  | [] => by intro h; rfl
  | c :: cs => by
    intro h
    have hc := h c (List.mem_cons_self c cs)
    have hcs := @sumHidden_nil_cols photos extents cs
      (fun c' hc' => h c' (List.mem_cons_of_mem _ hc'))
    simp [sumHidden, Column.hidden_space, hc, hiddenItems, hcs, Bind.bind, Except.bind]

/-- Amended C9: `fill` on an empty photo list returns the freshly built
page unchanged, with every column of height `0` — but on that page
`Page.wasted_space` raises `IndexError` and `Page.hidden_space` raises
`ZeroDivisionError` instead of returning `0` or a named `EmptyLayout`. -/
theorem c9_amended_empty_fill_metrics_fault {W : ℚ} {n : Nat} {p0 : Page}
    {rng : Nat → Bool} {k : Nat}
    (hinit : Page.init W n = .ok p0) (hn : 1 ≤ n) :
    p0.fill [] rng k = .ok (p0, k) ∧ (∀ c ∈ p0.cols, c.h = 0) ∧
    p0.wasted_space = .error .indexError ∧
    p0.hidden_space = .error .zeroDivision := by
  obtain ⟨hw0, hn0, hne, hcols⟩ := init_ok hinit
  refine ⟨rfl, ?_, ?_, ?_⟩
  · intro c hc
    rw [hcols] at hc
    exact (initCols_imglist_nil _ _ _ c hc).2
  · -- the first column's wasted_space hits imglist[-1] on an empty list
    have hcols1 : ∃ c cs, p0.cols = c :: cs := by
      rw [hcols]
      cases n with
      | zero => omega
      | succ m => exact ⟨_, _, rfl⟩
    obtain ⟨c, cs, hcc⟩ := hcols1
    have hcnil : c.imglist = [] := by
      have : c ∈ p0.cols := by rw [hcc]; exact List.mem_cons_self c cs
      rw [hcols] at this
      exact (initCols_imglist_nil _ _ _ c this).1
    unfold Page.wasted_space
    rw [hcc]
    simp [sumWasted, Column.wasted_space, hcnil, wasteLR, wasteGaps,
      Bind.bind, Except.bind]
  · have hnil : ∀ c ∈ p0.cols, c.imglist = [] := by
      intro c hc
      rw [hcols] at hc
      exact (initCols_imglist_nil _ _ _ c hc).1
    have hsum := @sumHidden_nil_cols p0.photos p0.extents p0.cols hnil
    have hte : totalEntries p0 = 0 := by
      unfold totalEntries
      rw [List.sum_eq_zero]
      intro x hx
      obtain ⟨c, hc, hcx⟩ := List.mem_map.mp hx
      rw [← hcx, hnil c hc]
      rfl
    unfold Page.hidden_space
    rw [hsum, hte]
    simp [pydiv, Bind.bind, Except.bind]

/-- Witness for the amended C9 at a concrete input. -/
theorem c9_amended_witness :
    (Page.init 2 2 = .ok wtP0 ∧ 1 ≤ 2) ∧
    (wtP0.fill [] rngF 0 = .ok (wtP0, 0) ∧ (∀ c ∈ wtP0.cols, c.h = 0) ∧
      wtP0.wasted_space = .error .indexError ∧
      wtP0.hidden_space = .error .zeroDivision) :=
  have h1 : Page.init 2 2 = .ok wtP0 := by with_unfolding_all decide
  have h2 : 1 ≤ 2 := by decide
  ⟨⟨h1, h2⟩, c9_amended_empty_fill_metrics_fault h1 h2⟩

/-! ### `hidden_space` divides by the slot count, extents included (claim C10) -/

theorem sum_map_set_add {α : Type} (f : α → ℕ) (d : ℕ) :
    ∀ {l : List α} {i : Nat} {c a : α},
    l[i]? = some c → f a = f c + d →
    ((l.set i a).map f).sum = (l.map f).sum + d
  | [], i, c, a => by intro hc hf; simp at hc
  | x :: xs, 0, c, a => by
    intro hc hf
    simp only [List.getElem?_cons_zero, Option.some.injEq] at hc
    subst hc
    simp [List.set, hf]
    omega
  | x :: xs, n + 1, c, a => by
    intro hc hf
    simp only [List.getElem?_cons_succ] at hc
    rw [List.set_cons_succ, List.map_cons, List.map_cons, List.sum_cons, List.sum_cons,
      sum_map_set_add f d hc hf]
    omega

theorem totalEntries_set2 {cols : List Column} {a b : Nat} {ca cb ca1 cb1 : Column}
    (hab : a ≠ b) (hca : cols[a]? = some ca) (hcb : cols[b]? = some cb)
    (h1 : ca1.imglist.length = ca.imglist.length + 1)
    (h2 : cb1.imglist.length = cb.imglist.length + 1) :
    (((cols.set a ca1).set b cb1).map (fun c => c.imglist.length)).sum =
      (cols.map (fun c => c.imglist.length)).sum + 2 := by
  have hb' : (cols.set a ca1)[b]? = some cb := by
    rw [List.getElem?_set_ne hab]
    exact hcb
  rw [sum_map_set_add _ 1 hb' h2, sum_map_set_add _ 1 hca h1]

theorem appendNormal_entries {p : Page} {img0 : Photo} {p' : Page}
    (h : p.appendNormal img0 = .ok p') :
    totalEntries p' = totalEntries p + 1 ∧ p'.extents = p.extents := by
  unfold Page.appendNormal at h
  obtain ⟨oi, hoi, h⟩ := exceptBind_ok h
  match oi with
  | none => simp at h
  | some i =>
    simp only at h
    obtain ⟨c, hc, h⟩ := exceptBind_ok h
    obtain ⟨hv, hh, h⟩ := exceptBind_ok h
    simp only [Except.ok.injEq] at h
    subst h
    refine ⟨?_, rfl⟩
    unfold totalEntries
    exact sum_map_set_add _ 1 (pyget_ok hc) (by simp)

/-- C10, structural part: an `append` adds one photo entry to a column,
plus one further column entry for each `PhotoExtent` it creates, so an
extended photo contributes two entries to `totalEntries` and a normal one
contributes one. -/
theorem append_entries {p : Page} {img0 : Photo} {rng : Nat → Bool} {k : Nat}
    {p' : Page} {k' : Nat} (h : p.append img0 rng k = .ok (p', k')) :
    totalEntries p' = totalEntries p + 1 + (p'.extents.length - p.extents.length) ∧
    p'.extents.length ≤ p.extents.length + 1 := by
  unfold Page.append at h
  obtain ⟨mc, hmc, h⟩ := exceptBind_ok h
  match mc with
  | none =>
    simp only at h
    obtain ⟨p1, hp1, h⟩ := exceptBind_ok h
    simp only [Except.ok.injEq, Prod.mk.injEq] at h
    rw [← h.1]
    obtain ⟨he, hx⟩ := appendNormal_entries hp1
    rw [he, hx]
    omega
  | some (a, b) =>
    simp only at h
    obtain ⟨aspect, hasp, h⟩ := exceptBind_ok h
    obtain ⟨hab, -, hal, hbl⟩ := worth_multicol_ok_some hmc
    split at h
    · split at h
      · obtain ⟨ca, hca, h⟩ := exceptBind_ok h
        obtain ⟨cb, hcb, h⟩ := exceptBind_ok h
        obtain ⟨hv, hh, h⟩ := exceptBind_ok h
        simp only [Except.ok.injEq, Prod.mk.injEq] at h
        rw [← h.1]
        unfold totalEntries
        simp only
        rw [totalEntries_set2 (Nat.ne_of_lt hab) (pyget_ok hca) (pyget_ok hcb)
          (by simp) (by simp)]
        simp
      · obtain ⟨p1, hp1, h⟩ := exceptBind_ok h
        simp only [Except.ok.injEq, Prod.mk.injEq] at h
        rw [← h.1]
        obtain ⟨he, hx⟩ := appendNormal_entries hp1
        rw [he, hx]
        omega
    · obtain ⟨p1, hp1, h⟩ := exceptBind_ok h
      simp only [Except.ok.injEq, Prod.mk.injEq] at h
      rw [← h.1]
      obtain ⟨he, hx⟩ := appendNormal_entries hp1
      rw [he, hx]
      omega

/-- C10: `Page.hidden_space` divides the summed per-column hidden space by
`totalEntries` — the number of all column entries, `PhotoExtent`s included —
and an extended photo contributes two such entries (its own and its
extent's), a normal photo one: the metric is an average per placed slot,
not per photo. -/
theorem c10_hidden_space_per_slot {p : Page} {img0 : Photo} {rng : Nat → Bool}
    {k : Nat} {p' : Page} {k' : Nat} {s : ℚ}
    (h : p.append img0 rng k = .ok (p', k'))
    (hs : sumHidden p'.photos p'.extents p'.cols = .ok s) :
    p'.hidden_space = pydiv s (totalEntries p' : ℚ) ∧
    totalEntries p' = totalEntries p + 1 + (p'.extents.length - p.extents.length) := by
  refine ⟨?_, (append_entries h).1⟩
  unfold Page.hidden_space
  rw [hs]
  simp [Bind.bind, Except.bind]

/-- Witness for C10: the extended `4×1` photo of the `cexC7` run
contributes two entries (denominator `3` over two photos). -/
theorem c10_witness :
    (cexC7mid.append (mkPhoto 4 1) rng01 1 = .ok (cexC7, 2) ∧
      sumHidden cexC7.photos cexC7.extents cexC7.cols = .ok 0) ∧
    (cexC7.hidden_space = pydiv 0 (totalEntries cexC7 : ℚ) ∧
      totalEntries cexC7 = totalEntries cexC7mid + 1 +
        (cexC7.extents.length - cexC7mid.extents.length)) :=
  have h1 : cexC7mid.append (mkPhoto 4 1) rng01 1 = .ok (cexC7, 2) := by
    with_unfolding_all decide
  have h2 : sumHidden cexC7.photos cexC7.extents cexC7.cols = .ok 0 := by
    with_unfolding_all decide
  ⟨⟨h1, h2⟩, c10_hidden_space_per_slot h1 h2⟩

/-! ### Aspect preservation in phase B (claim C3) -/

theorem adjustGroupImgs_aspect {alpha : ℚ} : ∀ {pids : List Nat} {y : ℚ}
    {photos : List Photo} {extents : List PhotoExtent} {ps : List Photo}
    {es : List PhotoExtent},
    adjustGroupImgs alpha pids y photos extents = .ok (ps, es) →
    (∀ pid ∈ pids, ∃ ph, ps[pid]? = some ph ∧
      ph.w = ph.h * ph.real_w / ph.real_h ∧ ph.real_h ≠ 0) ∧
    (∀ pid, pid ∉ pids → ps[pid]? = photos[pid]?)
  | [], y, photos, extents, ps, es => by
    intro h
    simp only [adjustGroupImgs, Except.ok.injEq, Prod.mk.injEq] at h
    exact ⟨by simp, fun pid _ => by rw [← h.1]⟩
  | pid :: rest, y, photos, extents, ps, es => by
    intro h
    simp only [adjustGroupImgs] at h
    obtain ⟨img, himg, h⟩ := exceptBind_ok h
    obtain ⟨es1, hes1, h⟩ := exceptBind_ok h
    obtain ⟨q, hq, h⟩ := exceptBind_ok h
    obtain ⟨hrh, hqv⟩ := pydiv_ok hq
    obtain ⟨hmem, hframe⟩ := adjustGroupImgs_aspect h
    have hlt := pyget_ok_lt himg
    constructor
    · intro pid' hpid'
      rcases List.mem_cons.mp hpid' with heq | hrest
      · subst heq
        by_cases hin : pid' ∈ rest
        · exact hmem pid' hin
        · refine ⟨_, (hframe pid' hin).trans (List.getElem?_set_eq_of_lt _ hlt), ?_, hrh⟩
          simp only
          rw [hqv]
      · exact hmem pid' hrest
    · intro pid' hpid'
      have hne : pid' ∉ rest := fun hc => hpid' (List.mem_cons_of_mem _ hc)
      have hnp : pid' ≠ pid := fun hc => hpid' (hc ▸ List.mem_cons_self pid rest)
      rw [hframe pid' hne, List.getElem?_set_ne (Ne.symm hnp)]

theorem adjustGroups_aspect : ∀ {gs : List MovGroup} {photos : List Photo}
    {extents : List PhotoExtent} {ps : List Photo} {es : List PhotoExtent},
    adjustGroups gs photos extents = .ok (ps, es) →
    (∀ pid, (∃ g ∈ gs, pid ∈ g.imglist) → ∃ ph, ps[pid]? = some ph ∧
      ph.w = ph.h * ph.real_w / ph.real_h ∧ ph.real_h ≠ 0) ∧
    (∀ pid, (∀ g ∈ gs, pid ∉ g.imglist) → ps[pid]? = photos[pid]?)
  | [], photos, extents, ps, es => by
    intro h
    simp only [adjustGroups, Except.ok.injEq, Prod.mk.injEq] at h
    exact ⟨by simp, fun pid _ => by rw [← h.1]⟩
  | g :: gs, photos, extents, ps, es => by
    intro h
    simp only [adjustGroups] at h
    by_cases hg : g.imglist.isEmpty
    · rw [if_pos hg] at h
      obtain ⟨hmem, hframe⟩ := adjustGroups_aspect h
      refine ⟨?_, ?_⟩
      · intro pid hpid
        obtain ⟨g', hg', hpg⟩ := hpid
        rcases List.mem_cons.mp hg' with heq | hgs
        · subst heq
          rw [List.isEmpty_iff.mp hg] at hpg
          simp at hpg
        · exact hmem pid ⟨g', hgs, hpg⟩
      · intro pid hpid
        exact hframe pid (fun g' hg' => hpid g' (List.mem_cons_of_mem _ hg'))
    · rw [if_neg hg] at h
      obtain ⟨hsum, hhs, h⟩ := exceptBind_ok h
      obtain ⟨alpha, halpha, h⟩ := exceptBind_ok h
      obtain ⟨⟨ps1, es1⟩, hadj, h⟩ := exceptBind_ok h
      obtain ⟨hmem1, hframe1⟩ := adjustGroupImgs_aspect hadj
      obtain ⟨hmem2, hframe2⟩ := adjustGroups_aspect h
      refine ⟨?_, ?_⟩
      · intro pid hpid
        obtain ⟨g', hg', hpg⟩ := hpid
        by_cases hin : ∃ g2 ∈ gs, pid ∈ g2.imglist
        · exact hmem2 pid hin
        · push_neg at hin
          have hframe := hframe2 pid hin
          rcases List.mem_cons.mp hg' with heq | hgs
          · subst heq
            obtain ⟨ph, hph, he⟩ := hmem1 pid hpg
            exact ⟨ph, hframe.trans hph, he⟩
          · exact absurd hpg (hin g' hgs)
      · intro pid hpid
        rw [hframe2 pid (fun g' hg' => hpid g' (List.mem_cons_of_mem _ hg'))]
        exact hframe1 pid (hpid g (List.mem_cons_self g gs))

theorem buildGroups_coverage {extents : List PhotoExtent} {H : ℚ} :
    ∀ {items : List ColItem} {gy : ℚ} {acc : List Nat} {gs : List MovGroup},
    buildGroups extents H items gy acc = .ok gs →
    ∀ pid, (∃ g ∈ gs, pid ∈ g.imglist) ↔ (pid ∈ acc ∨ ColItem.photo pid ∈ items)
  | [], gy, acc, gs => by
    intro h pid
    simp only [buildGroups, Except.ok.injEq] at h
    subst h
    simp
  | .photo pid' :: rest, gy, acc, gs => by
    intro h pid
    simp only [buildGroups] at h
    rw [buildGroups_coverage h pid]
    constructor
    · intro hx
      rcases hx with hx | hx
      · rcases List.mem_append.mp hx with h1 | h1
        · exact Or.inl h1
        · have hpe : pid = pid' := by simpa using h1
          exact Or.inr (List.mem_cons.mpr (Or.inl (by rw [hpe])))
      · exact Or.inr (List.mem_cons_of_mem _ hx)
    · intro hx
      rcases hx with h1 | h1
      · exact Or.inl (List.mem_append.mpr (Or.inl h1))
      · rcases List.mem_cons.mp h1 with h2 | h2
        · injection h2 with h3
          exact Or.inl (List.mem_append.mpr (Or.inr (by simp [h3])))
        · exact Or.inr h2
  | .extent eid :: rest, gy, acc, gs => by
    intro h pid
    simp only [buildGroups] at h
    obtain ⟨e, he, h⟩ := exceptBind_ok h
    obtain ⟨gs1, hgs1, h⟩ := exceptBind_ok h
    simp only [Except.ok.injEq] at h
    subst h
    have := buildGroups_coverage hgs1 pid
    simp only [List.not_mem_nil, false_or] at this
    constructor
    · intro hex
      obtain ⟨g', hg', hpg⟩ := hex
      rcases List.mem_cons.mp hg' with heq | hgs
      · subst heq
        exact Or.inl hpg
      · exact Or.inr (List.mem_cons_of_mem _ (this.mp ⟨g', hgs, hpg⟩))
    · rintro (hacc | hitems)
      · exact ⟨⟨gy, acc, e.y - gy⟩, List.mem_cons_self _ _, hacc⟩
      · rcases List.mem_cons.mp hitems with heq | hrest
        · cases heq
        · obtain ⟨g', hg', hpg⟩ := this.mpr hrest
          exact ⟨g', List.mem_cons_of_mem _ hg', hpg⟩

theorem adjust_height_photos {c : Column} {H : ℚ} {photos : List Photo}
    {extents : List PhotoExtent} {c1 : Column} {ps : List Photo} {es : List PhotoExtent}
    (h : c.adjust_height H photos extents = .ok (c1, ps, es)) :
    (∀ pid, ColItem.photo pid ∈ c.imglist → ∃ ph, ps[pid]? = some ph ∧
      ph.w = ph.h * ph.real_w / ph.real_h ∧ ph.real_h ≠ 0) ∧
    (∀ pid, ColItem.photo pid ∉ c.imglist → ps[pid]? = photos[pid]?) := by
  unfold Column.adjust_height at h
  obtain ⟨gs, hgs, h⟩ := exceptBind_ok h
  obtain ⟨⟨ps1, es1⟩, hadj, h⟩ := exceptBind_ok h
  simp only [Except.ok.injEq, Prod.mk.injEq] at h
  obtain ⟨-, hps, -⟩ := h
  subst hps
  obtain ⟨hmem, hframe⟩ := adjustGroups_aspect hadj
  have hcov := buildGroups_coverage hgs
  constructor
  · intro pid hpid
    exact hmem pid ((hcov pid).mpr (Or.inr hpid))
  · intro pid hpid
    refine hframe pid ?_
    intro g hg hpg
    exact hpid (((hcov pid).mp ⟨g, hg, hpg⟩).resolve_left (by simp))

theorem eatSpaceCols_photos {H : ℚ} : ∀ {cs : List Column} {photos : List Photo}
    {extents : List PhotoExtent} {cs1 : List Column} {ps : List Photo}
    {es : List PhotoExtent},
    eatSpaceCols H cs photos extents = .ok (cs1, ps, es) →
    (∀ c ∈ cs, ∀ pid, ColItem.photo pid ∈ c.imglist → ∃ ph, ps[pid]? = some ph ∧
      ph.w = ph.h * ph.real_w / ph.real_h ∧ ph.real_h ≠ 0) ∧
    (∀ pid, (∀ c ∈ cs, ColItem.photo pid ∉ c.imglist) → ps[pid]? = photos[pid]?)
  | [], photos, extents, cs1, ps, es => by
    intro h
    simp only [eatSpaceCols, Except.ok.injEq, Prod.mk.injEq] at h
    exact ⟨by simp, fun pid _ => by rw [← h.2.1]⟩
  | c :: cs, photos, extents, cs1, ps, es => by
    intro h
    simp only [eatSpaceCols] at h
    obtain ⟨⟨c1, ps1, es1⟩, h1, h⟩ := exceptBind_ok h
    obtain ⟨⟨cs2, ps2, es2⟩, h2, h⟩ := exceptBind_ok h
    simp only [Except.ok.injEq, Prod.mk.injEq] at h
    obtain ⟨-, hps, -⟩ := h
    subst hps
    obtain ⟨hmem1, hframe1⟩ := adjust_height_photos h1
    obtain ⟨hmem2, hframe2⟩ := eatSpaceCols_photos h2
    constructor
    · intro c' hc' pid hpid
      rcases List.mem_cons.mp hc' with heq | hcs
      · subst heq
        by_cases hin : ∃ c2 ∈ cs, ColItem.photo pid ∈ c2.imglist
        · obtain ⟨c2, hc2, hp2⟩ := hin
          exact hmem2 c2 hc2 pid hp2
        · push_neg at hin
          obtain ⟨ph, hph, he⟩ := hmem1 pid hpid
          exact ⟨ph, (hframe2 pid hin).trans hph, he⟩
      · exact hmem2 c' hcs pid hpid
    · intro pid hpid
      rw [hframe2 pid (fun c' hc' => hpid c' (List.mem_cons_of_mem _ hc'))]
      exact hframe1 pid (hpid c (List.mem_cons_self c cs))

/-- C3: after phase B (`Page.eat_space`), every photo placed in some
column satisfies `w = h * real_w / real_h` exactly, and hence — whenever
the placed height is nonzero, in particular for every photo the claim's
`item.w / item.h` is defined on — `w / h = real_w / real_h`: the placed
rectangle preserves the intrinsic aspect ratio. -/
theorem c3_aspect_preserved {p p' : Page} {c : Column} {pid : Nat} {ph : Photo}
    (h : p.eat_space = .ok p')
    (hc : c ∈ p'.cols)
    (hpid : ColItem.photo pid ∈ c.imglist)
    (hph : p'.photos[pid]? = some ph)
    (hext : ph.extended = false)
    (hrw : 0 < ph.real_w)
    (hrh : 0 < ph.real_h)
    (hh : ph.h ≠ 0) :
    ph.w = ph.h * ph.real_w / ph.real_h ∧ ph.w / ph.h = ph.real_w / ph.real_h := by
  unfold Page.eat_space at h
  obtain ⟨H, hH, h⟩ := exceptBind_ok h
  obtain ⟨⟨cs1, ps1, es1⟩, hcs, h⟩ := exceptBind_ok h
  simp only [Except.ok.injEq] at h
  subst h
  obtain ⟨hmem, -⟩ := eatSpaceCols_photos hcs
  have hcols := eatSpaceCols_ok hcs
  dsimp only at hc
  rw [hcols] at hc
  obtain ⟨c0, hc0, hc0e⟩ := List.mem_map.mp hc
  have hpid0 : ColItem.photo pid ∈ c0.imglist := by
    rw [← hc0e] at hpid
    exact hpid
  obtain ⟨ph1, hph1, hasp, -⟩ := hmem c0 hc0 pid hpid0
  dsimp only at hph
  rw [hph1] at hph
  injection hph with hph
  subst hph
  refine ⟨hasp, ?_⟩
  rw [hasp]
  field_simp
  ring

/-- Witness for C3 on the two-square-photo page after phase B. -/
theorem c3_witness :
    (wtPA.eat_space = .ok wtPA ∧ (⟨[.photo 0], 0, 1, 1⟩ : Column) ∈ wtPA.cols ∧
      ColItem.photo 0 ∈ (⟨[.photo 0], 0, 1, 1⟩ : Column).imglist ∧
      wtPA.photos[0]? = some ⟨1, 1, 0, 0, 1, 1, false, []⟩ ∧
      (⟨1, 1, 0, 0, 1, 1, false, []⟩ : Photo).extended = false ∧
      (0 : ℚ) < 1 ∧ (1 : ℚ) ≠ 0) ∧
    ((⟨1, 1, 0, 0, 1, 1, false, []⟩ : Photo).w =
      (⟨1, 1, 0, 0, 1, 1, false, []⟩ : Photo).h * 1 / 1 ∧
      (⟨1, 1, 0, 0, 1, 1, false, []⟩ : Photo).w / (⟨1, 1, 0, 0, 1, 1, false, []⟩ : Photo).h
        = (1 : ℚ) / 1) :=
  have h1 : wtPA.eat_space = .ok wtPA := by with_unfolding_all decide
  have h2 : (⟨[.photo 0], 0, 1, 1⟩ : Column) ∈ wtPA.cols := by decide
  have h3 : ColItem.photo 0 ∈ (⟨[.photo 0], 0, 1, 1⟩ : Column).imglist := by decide
  have h4 : wtPA.photos[0]? = some ⟨1, 1, 0, 0, 1, 1, false, []⟩ := by
    with_unfolding_all decide
  have h5 : (⟨1, 1, 0, 0, 1, 1, false, []⟩ : Photo).extended = false := by decide
  have h6 : (0 : ℚ) < 1 := by norm_num
  have h7 : (1 : ℚ) ≠ 0 := by norm_num
  ⟨⟨h1, h2, h3, h4, h5, h6, h7⟩, c3_aspect_preserved h1 h2 h3 h4 h5 h6 h6 h7⟩


/-! ### Phase A item ordering (claim C7) -/

/-- Counterexample to C7: in the `cexC7` run the extent in column 1 has
`y = 0` while its referenced photo has `y = 2/5`: the extent does not
occupy the same `y..y+h` span as its referenced item, and the referenced
photo sits above a vertical gap (its `y` exceeds the previous content
bottom of the shorter column at placement time). -/
theorem c7_counterexample :
    Page.init 2 2 = .ok wtP0 ∧
    wtP0.fill [mkPhoto 1 (2/5), mkPhoto 4 1] rng01 0 = .ok (cexC7, 2) ∧
    cexC7.cols[1]? = some ⟨[.extent 0], 1, 1, 9/10⟩ ∧
    cexC7.extents[0]? = some ⟨1, 1, 0, 2, 1/2⟩ ∧
    (cexC7.photos[1]?.map Photo.y = some (2/5)) ∧
    (0 : ℚ) ≠ 2/5 := by
  refine ⟨by with_unfolding_all decide, by with_unfolding_all decide,
    by with_unfolding_all decide, by with_unfolding_all decide,
    by with_unfolding_all decide, by norm_num⟩

theorem itemYH_mono {photos photos2 : List Photo} {extents extents2 : List PhotoExtent}
    (hp : ∀ (i : Nat) (v : Photo), photos[i]? = some v → photos2[i]? = some v)
    (he : ∀ (i : Nat) (v : PhotoExtent), extents[i]? = some v → extents2[i]? = some v)
    {it : ColItem} {yh : ℚ × ℚ} (hit : itemYH photos extents it = some yh) :
    itemYH photos2 extents2 it = some yh := by
  cases it with
  | photo pid =>
    simp only [itemYH] at hit ⊢
    cases hg : photos[pid]? with
    | none => rw [hg] at hit; simp at hit
    | some ph => rw [hp pid ph hg]; rw [hg] at hit; exact hit
  | extent eid =>
    simp only [itemYH] at hit ⊢
    cases hg : extents[eid]? with
    | none => rw [hg] at hit; simp at hit
    | some e => rw [he eid e hg]; rw [hg] at hit; exact hit

theorem ChainBound.mono_arena {photos photos2 : List Photo}
    {extents extents2 : List PhotoExtent}
    (hp : ∀ (i : Nat) (v : Photo), photos[i]? = some v → photos2[i]? = some v)
    (he : ∀ (i : Nat) (v : PhotoExtent), extents[i]? = some v → extents2[i]? = some v)
    {lo hi : ℚ} {items : List ColItem}
    (h : ChainBound photos extents lo items hi) :
    ChainBound photos2 extents2 lo items hi := by
  induction h with
  | nil hle => exact .nil hle
  | cons hit hlo _ ih => exact .cons (itemYH_mono hp he hit) hlo ih

theorem ChainBound.mono_hi {photos : List Photo} {extents : List PhotoExtent}
    {lo hi hi2 : ℚ} {items : List ColItem}
    (h : ChainBound photos extents lo items hi) (hle : hi ≤ hi2) :
    ChainBound photos extents lo items hi2 := by
  induction h with
  | nil h0 => exact .nil (le_trans h0 hle)
  | cons hit hlo _ ih => exact .cons hit hlo (ih hle)

theorem ChainBound.snoc {photos : List Photo} {extents : List PhotoExtent}
    {it : ColItem} {y h : ℚ} (hit : itemYH photos extents it = some (y, h)) :
    ∀ {lo hi : ℚ} {items : List ColItem},
    ChainBound photos extents lo items hi → hi ≤ y →
    ChainBound photos extents lo (items ++ [it]) (y + h) := by
  intro lo hi items hc
  induction hc with
  | nil h0 => exact fun hle => .cons hit (le_trans h0 hle) (.nil (le_refl _))
  | cons hit0 hlo _ ih => exact fun hle => .cons hit0 hlo (ih hle)

theorem arena_append_stable {α : Type} (l l2 : List α) :
    ∀ (i : Nat) (v : α), l[i]? = some v → (l ++ l2)[i]? = some v := by
  intro i v h
  rw [List.getElem?_append_left (List.getElem?_eq_some_iff.mp h).1]
  exact h

theorem appendNormal_geom {p : Page} {img0 : Photo} {p' : Page}
    (hg : geomOK p) (he : extentRefOK p)
    (h : p.appendNormal img0 = .ok p') : geomOK p' ∧ extentRefOK p' := by
  unfold Page.appendNormal at h
  obtain ⟨oi, hoi, h⟩ := exceptBind_ok h
  match oi with
  | none => simp at h
  | some i =>
    simp only at h
    obtain ⟨c, hc, h⟩ := exceptBind_ok h
    obtain ⟨hv, hh, h⟩ := exceptBind_ok h
    simp only [Except.ok.injEq] at h
    subst h
    have hp2 := arena_append_stable p.photos
      [{ img0 with x := c.x, y := c.h, w := c.w, h := hv }]
    have he2 : ∀ (i : Nat) (v : PhotoExtent), p.extents[i]? = some v →
        p.extents[i]? = some v := fun _ _ hx => hx
    have hcmem : c ∈ p.cols := List.getElem?_mem (pyget_ok hc)
    constructor
    · intro c' hc'
      dsimp only at hc' ⊢
      rcases List.mem_or_eq_of_mem_set hc' with hmem | heq
      · exact (hg c' hmem).mono_arena hp2 he2
      · subst heq
        dsimp only
        have hnew : itemYH (p.photos ++ [{ img0 with x := c.x, y := c.h, w := c.w, h := hv }])
            p.extents (ColItem.photo p.photos.length) = some (c.h, hv) := by
          simp [itemYH, List.getElem?_concat_length]
        exact ChainBound.snoc hnew ((hg c hcmem).mono_arena hp2 he2) (le_refl _)
    · intro eid e heid
      dsimp only at heid ⊢
      obtain ⟨ph, hph, hh1, hy1⟩ := he eid e heid
      exact ⟨ph, hp2 _ _ hph, hh1, hy1⟩

theorem append_geom {p : Page} {img0 : Photo} {rng : Nat → Bool} {k : Nat}
    {p' : Page} {k' : Nat}
    (hg : geomOK p) (he : extentRefOK p)
    (h : p.append img0 rng k = .ok (p', k')) : geomOK p' ∧ extentRefOK p' := by
  unfold Page.append at h
  obtain ⟨mc, hmc, h⟩ := exceptBind_ok h
  match mc with
  | none =>
    simp only at h
    obtain ⟨p1, hp1, h⟩ := exceptBind_ok h
    simp only [Except.ok.injEq, Prod.mk.injEq] at h
    rw [← h.1]
    exact appendNormal_geom hg he hp1
  | some (a, b) =>
    simp only at h
    obtain ⟨aspect, hasp, h⟩ := exceptBind_ok h
    obtain ⟨hab, -, hal, hbl⟩ := worth_multicol_ok_some hmc
    split at h
    · split at h
      · obtain ⟨ca, hca, h⟩ := exceptBind_ok h
        obtain ⟨cb, hcb, h⟩ := exceptBind_ok h
        obtain ⟨hv, hh, h⟩ := exceptBind_ok h
        simp only [Except.ok.injEq, Prod.mk.injEq] at h
        rw [← h.1]
        have hcamem : ca ∈ p.cols := List.getElem?_mem (pyget_ok hca)
        have hcbmem : cb ∈ p.cols := List.getElem?_mem (pyget_ok hcb)
        have hp2 := arena_append_stable p.photos
          [{ img0 with
             x := ca.x, y := max ca.h cb.h, w := ca.w + cb.w, h := hv,
             extended := true, spacings := img0.spacings ++ [p.extents.length] }]
        have he2 := arena_append_stable p.extents
          [{ img_ref := p.photos.length, x := cb.x, y := cb.h, w := ca.w + cb.w, h := hv }]
        constructor
        · intro c' hc'
          dsimp only at hc' ⊢
          rcases List.mem_or_eq_of_mem_set hc' with hmem1 | heq1
          · rcases List.mem_or_eq_of_mem_set hmem1 with hmem2 | heq2
            · exact (hg c' hmem2).mono_arena hp2 he2
            · subst heq2
              dsimp only
              have hnew : itemYH
                  (p.photos ++ [{ img0 with
                                  x := ca.x, y := max ca.h cb.h,
                                  w := ca.w + cb.w, h := hv, extended := true,
                                  spacings := img0.spacings ++ [p.extents.length] }])
                  (p.extents ++ [{ img_ref := p.photos.length, x := cb.x, y := cb.h,
                                   w := ca.w + cb.w, h := hv }])
                  (ColItem.photo p.photos.length) = some (max ca.h cb.h, hv) := by
                simp [itemYH, List.getElem?_concat_length]
              exact ChainBound.snoc hnew ((hg ca hcamem).mono_arena hp2 he2)
                (le_max_left _ _)
          · subst heq1
            dsimp only
            have hnew : itemYH
                (p.photos ++ [{ img0 with
                                x := ca.x, y := max ca.h cb.h,
                                w := ca.w + cb.w, h := hv, extended := true,
                                spacings := img0.spacings ++ [p.extents.length] }])
                (p.extents ++ [{ img_ref := p.photos.length, x := cb.x, y := cb.h,
                                 w := ca.w + cb.w, h := hv }])
                (ColItem.extent p.extents.length) = some (cb.h, hv) := by
              simp [itemYH, List.getElem?_concat_length]
            have hchain := ChainBound.snoc hnew ((hg cb hcbmem).mono_arena hp2 he2)
              (le_refl _)
            exact hchain.mono_hi (by
              have : cb.h ≤ max ca.h cb.h := le_max_right _ _
              linarith)
        · intro eid e heid
          dsimp only at heid ⊢
          by_cases hlt : eid < p.extents.length
          · rw [List.getElem?_append_left hlt] at heid
            obtain ⟨ph, hph, hh1, hy1⟩ := he eid e heid
            exact ⟨ph, hp2 _ _ hph, hh1, hy1⟩
          · have heq : eid = p.extents.length := by
              have := (List.getElem?_eq_some_iff.mp heid).1
              simp at this
              omega
            subst heq
            rw [List.getElem?_concat_length] at heid
            injection heid with heid
            subst heid
            refine ⟨{ img0 with
                      x := ca.x, y := max ca.h cb.h, w := ca.w + cb.w, h := hv,
                      extended := true,
                      spacings := img0.spacings ++ [p.extents.length] },
              ?_, rfl, le_max_right _ _⟩
            dsimp only
            rw [List.getElem?_concat_length]
      · obtain ⟨p1, hp1, h⟩ := exceptBind_ok h
        simp only [Except.ok.injEq, Prod.mk.injEq] at h
        rw [← h.1]
        exact appendNormal_geom hg he hp1
    · obtain ⟨p1, hp1, h⟩ := exceptBind_ok h
      simp only [Except.ok.injEq, Prod.mk.injEq] at h
      rw [← h.1]
      exact appendNormal_geom hg he hp1

theorem fill_geom : ∀ {imgs : List Photo} {p : Page} {rng : Nat → Bool} {k : Nat}
    {p' : Page} {k' : Nat},
    geomOK p → extentRefOK p → p.fill imgs rng k = .ok (p', k') →
    geomOK p' ∧ extentRefOK p'
  | [], p, rng, k, p', k' => by
    intro hg he h
    simp only [Page.fill, Except.ok.injEq, Prod.mk.injEq] at h
    rw [← h.1]
    exact ⟨hg, he⟩
  | img :: rest, p, rng, k, p', k' => by
    intro hg he h
    simp only [Page.fill] at h
    obtain ⟨⟨p1, k1⟩, h1, h⟩ := exceptBind_ok h
    obtain ⟨hg1, he1⟩ := append_geom hg he h1
    exact fill_geom hg1 he1 h

theorem init_geom {W : ℚ} {n : Nat} {p0 : Page} (h : Page.init W n = .ok p0) :
    geomOK p0 ∧ extentRefOK p0 := by
  obtain ⟨-, -, -, hcols⟩ := init_ok h
  constructor
  · intro c hc
    rw [hcols] at hc
    rw [(initCols_imglist_nil _ _ _ c hc).1, (initCols_imglist_nil _ _ _ c hc).2]
    exact .nil (le_refl _)
  · intro eid e heid
    have hp : p0.extents = [] := by
      unfold Page.init at h
      obtain ⟨cw, hcw, h⟩ := exceptBind_ok h
      simp only [Except.ok.injEq] at h
      rw [← h]
    rw [hp] at heid
    simp at heid

/-- Amended C7: after phase A each column's items are ordered and
non-overlapping — every item starts at or below the previous item's
bottom (`y ≥ prev.y + prev.h`), starting from `0` and bounded by the
column height — but not necessarily contiguous, and an extent shares its
referenced photo's `h` while its `y` is only bounded above by (it can be
strictly below) the referenced photo's `y`. -/
theorem c7_amended_ordering {W : ℚ} {n : Nat} {imgs : List Photo} {rng : Nat → Bool}
    {p0 p1 : Page} {k1 : Nat}
    (hinit : Page.init W n = .ok p0)
    (hfill : p0.fill imgs rng 0 = .ok (p1, k1)) :
    (∀ c ∈ p1.cols, ChainBound p1.photos p1.extents 0 c.imglist c.h) ∧
    (∀ (eid : Nat) (e : PhotoExtent), p1.extents[eid]? = some e →
      ∃ ph, p1.photos[e.img_ref]? = some ph ∧ e.h = ph.h ∧ e.y ≤ ph.y) := by
  obtain ⟨hg0, he0⟩ := init_geom hinit
  exact fill_geom hg0 he0 hfill

/-- Witness for the amended C7 on the `cexC7` run. -/
theorem c7_amended_witness :
    (Page.init 2 2 = .ok wtP0 ∧
      wtP0.fill [mkPhoto 1 (2/5), mkPhoto 4 1] rng01 0 = .ok (cexC7, 2)) ∧
    ((∀ c ∈ cexC7.cols, ChainBound cexC7.photos cexC7.extents 0 c.imglist c.h) ∧
      (∀ (eid : Nat) (e : PhotoExtent), cexC7.extents[eid]? = some e →
        ∃ ph, cexC7.photos[e.img_ref]? = some ph ∧ e.h = ph.h ∧ e.y ≤ ph.y)) :=
  have h1 : Page.init 2 2 = .ok wtP0 := by with_unfolding_all decide
  have h2 : wtP0.fill [mkPhoto 1 (2/5), mkPhoto 4 1] rng01 0 = .ok (cexC7, 2) := by
    with_unfolding_all decide
  ⟨⟨h1, h2⟩, c7_amended_ordering h1 h2⟩

/-! ### Phase A bookkeeping: unique placement and spacings aliasing (for claim C4) -/

theorem count_snoc (l : List ColItem) (x it0 : ColItem) :
    (l ++ [x]).count it0 = l.count it0 + (if x = it0 then 1 else 0) := by
  rw [List.count_append]
  by_cases hx : x = it0 <;> simp [List.count_cons, hx]

theorem count_set_snoc {cols : List Column} {i : Nat} {c c1 : Column} {x : ColItem}
    (hc : cols[i]? = some c) (hl : c1.imglist = c.imglist ++ [x]) (it0 : ColItem) :
    ((cols.set i c1).map (fun c => c.imglist.count it0)).sum =
      (cols.map (fun c => c.imglist.count it0)).sum + (if x = it0 then 1 else 0) :=
  sum_map_set_add _ _ hc (by rw [hl, count_snoc])

theorem count_set2_snoc {cols : List Column} {a b : Nat} {ca cb ca1 cb1 : Column}
    {xa xb : ColItem}
    (hab : a ≠ b) (hca : cols[a]? = some ca) (hcb : cols[b]? = some cb)
    (ha1 : ca1.imglist = ca.imglist ++ [xa]) (hb1 : cb1.imglist = cb.imglist ++ [xb])
    (it0 : ColItem) :
    (((cols.set a ca1).set b cb1).map (fun c => c.imglist.count it0)).sum =
      (cols.map (fun c => c.imglist.count it0)).sum +
        ((if xa = it0 then 1 else 0) + (if xb = it0 then 1 else 0)) := by
  have hb' : (cols.set a ca1)[b]? = some cb := by
    rw [List.getElem?_set_ne hab]
    exact hcb
  rw [count_set_snoc hb' hb1, count_set_snoc hca ha1]
  omega

theorem appendNormal_wf {p : Page} {img0 : Photo} {p' : Page}
    (hsp : img0.spacings = [])
    (hpo : placedOnce p) (hbij : spacingsBij p.photos p.extents)
    (h : p.appendNormal img0 = .ok p') :
    placedOnce p' ∧ spacingsBij p'.photos p'.extents ∧
    p'.photos.length = p.photos.length + 1 ∧ p'.extents = p.extents := by
  unfold Page.appendNormal at h
  obtain ⟨oi, hoi, h⟩ := exceptBind_ok h
  match oi with
  | none => simp at h
  | some i =>
    simp only at h
    obtain ⟨c, hc, h⟩ := exceptBind_ok h
    obtain ⟨hv, hh, h⟩ := exceptBind_ok h
    simp only [Except.ok.injEq] at h
    subst h
    obtain ⟨hpo1, hpo2, hpo3, hpo4⟩ := hpo
    have hcnt := fun it0 => @count_set_snoc p.cols i c
      { c with
        imglist := c.imglist ++ [ColItem.photo p.photos.length],
        h := c.h + hv }
      (ColItem.photo p.photos.length) (pyget_ok hc) rfl it0
    refine ⟨⟨?_, ?_, ?_, ?_⟩, ?_, by simp, rfl⟩
    · intro pid hpid
      show countP _ pid = 1
      unfold countP
      dsimp only
      rw [hcnt (ColItem.photo pid)]
      simp only [List.length_append, List.length_singleton] at hpid
      by_cases hpe : pid = p.photos.length
      · subst hpe
        have h0 : countP p p.photos.length = 0 := hpo2 _ (le_refl _)
        unfold countP at h0
        simp [h0]
      · have h1 : pid < p.photos.length := by omega
        have := hpo1 pid h1
        unfold countP at this
        simp only [ColItem.photo.injEq]
        rw [if_neg (fun hx => hpe hx.symm)]
        omega
    · intro pid hpid
      show countP _ pid = 0
      unfold countP
      dsimp only
      rw [hcnt (ColItem.photo pid)]
      simp only [List.length_append, List.length_singleton] at hpid
      have := hpo2 pid (by omega)
      unfold countP at this
      simp only [ColItem.photo.injEq]
      rw [if_neg (by omega)]
      omega
    · intro eid heid
      show countE _ eid = 1
      unfold countE
      dsimp only
      rw [hcnt (ColItem.extent eid)]
      have := hpo3 eid heid
      unfold countE at this
      simp [this]
    · intro eid heid
      show countE _ eid = 0
      unfold countE
      dsimp only
      rw [hcnt (ColItem.extent eid)]
      have := hpo4 eid heid
      unfold countE at this
      simp [this]
    · obtain ⟨hb1, hb2⟩ := hbij
      constructor
      · intro eid e heid
        dsimp only at heid ⊢
        obtain ⟨ph, hph, hsp1⟩ := hb1 eid e heid
        exact ⟨ph, arena_append_stable _ _ _ _ hph, hsp1⟩
      · intro pid ph hph eid heid
        dsimp only at hph ⊢
        by_cases hlt : pid < p.photos.length
        · rw [List.getElem?_append_left hlt] at hph
          exact hb2 pid ph hph eid heid
        · have hpe : pid = p.photos.length := by
            have := (List.getElem?_eq_some_iff.mp hph).1
            simp at this
            omega
          subst hpe
          rw [List.getElem?_concat_length] at hph
          injection hph with hph
          rw [← hph] at heid
          dsimp only at heid
          rw [hsp] at heid
          simp at heid

theorem append_wf {p : Page} {img0 : Photo} {rng : Nat → Bool} {k : Nat}
    {p' : Page} {k' : Nat}
    (hsp : img0.spacings = [])
    (hpo : placedOnce p) (hbij : spacingsBij p.photos p.extents)
    (h : p.append img0 rng k = .ok (p', k')) :
    placedOnce p' ∧ spacingsBij p'.photos p'.extents := by
  unfold Page.append at h
  obtain ⟨mc, hmc, h⟩ := exceptBind_ok h
  match mc with
  | none =>
    simp only at h
    obtain ⟨p1, hp1, h⟩ := exceptBind_ok h
    simp only [Except.ok.injEq, Prod.mk.injEq] at h
    rw [← h.1]
    obtain ⟨h1, h2, -, -⟩ := appendNormal_wf hsp hpo hbij hp1
    exact ⟨h1, h2⟩
  | some (a, b) =>
    simp only at h
    obtain ⟨aspect, hasp, h⟩ := exceptBind_ok h
    obtain ⟨hab, -, hal, hbl⟩ := worth_multicol_ok_some hmc
    split at h
    · split at h
      · obtain ⟨ca, hca, h⟩ := exceptBind_ok h
        obtain ⟨cb, hcb, h⟩ := exceptBind_ok h
        obtain ⟨hv, hh, h⟩ := exceptBind_ok h
        simp only [Except.ok.injEq, Prod.mk.injEq] at h
        rw [← h.1]
        obtain ⟨hpo1, hpo2, hpo3, hpo4⟩ := hpo
        have hcnt := fun it0 => @count_set2_snoc p.cols a b ca cb
          { ca with
            imglist := ca.imglist ++ [ColItem.photo p.photos.length],
            h := max ca.h cb.h + hv }
          { cb with
            imglist := cb.imglist ++ [ColItem.extent p.extents.length],
            h := max ca.h cb.h + hv }
          (ColItem.photo p.photos.length) (ColItem.extent p.extents.length)
          (Nat.ne_of_lt hab) (pyget_ok hca) (pyget_ok hcb) rfl rfl it0
        refine ⟨⟨?_, ?_, ?_, ?_⟩, ?_⟩
        · intro pid hpid
          show countP _ pid = 1
          unfold countP
          dsimp only
          rw [hcnt (ColItem.photo pid)]
          simp only [List.length_append, List.length_singleton] at hpid
          by_cases hpe : pid = p.photos.length
          · subst hpe
            have h0 : countP p p.photos.length = 0 := hpo2 _ (le_refl _)
            unfold countP at h0
            simp [h0]
          · have := hpo1 pid (by omega)
            unfold countP at this
            simp only [ColItem.photo.injEq, reduceCtorEq, if_false]
            rw [if_neg (fun hx => hpe hx.symm)]
            omega
        · intro pid hpid
          show countP _ pid = 0
          unfold countP
          dsimp only
          rw [hcnt (ColItem.photo pid)]
          simp only [List.length_append, List.length_singleton] at hpid
          have := hpo2 pid (by omega)
          unfold countP at this
          simp only [ColItem.photo.injEq, reduceCtorEq, if_false]
          rw [if_neg (by omega)]
          omega
        · intro eid heid
          show countE _ eid = 1
          unfold countE
          dsimp only
          rw [hcnt (ColItem.extent eid)]
          simp only [List.length_append, List.length_singleton] at heid
          by_cases hee : eid = p.extents.length
          · subst hee
            have h0 : countE p p.extents.length = 0 := hpo4 _ (le_refl _)
            unfold countE at h0
            simp [h0]
          · have := hpo3 eid (by omega)
            unfold countE at this
            simp only [ColItem.extent.injEq, reduceCtorEq, if_false]
            rw [if_neg (fun hx => hee hx.symm)]
            omega
        · intro eid heid
          show countE _ eid = 0
          unfold countE
          dsimp only
          rw [hcnt (ColItem.extent eid)]
          simp only [List.length_append, List.length_singleton] at heid
          have := hpo4 eid (by omega)
          unfold countE at this
          simp only [ColItem.extent.injEq, reduceCtorEq, if_false]
          rw [if_neg (by omega)]
          omega
        · obtain ⟨hb1, hb2⟩ := hbij
          constructor
          · intro eid e heid
            dsimp only at heid ⊢
            by_cases hlt : eid < p.extents.length
            · rw [List.getElem?_append_left hlt] at heid
              obtain ⟨ph, hph, hsp1⟩ := hb1 eid e heid
              exact ⟨ph, arena_append_stable _ _ _ _ hph, hsp1⟩
            · have hee : eid = p.extents.length := by
                have := (List.getElem?_eq_some_iff.mp heid).1
                simp at this
                omega
              subst hee
              rw [List.getElem?_concat_length] at heid
              injection heid with heid
              subst heid
              refine ⟨{ img0 with
                        x := ca.x, y := max ca.h cb.h, w := ca.w + cb.w, h := hv,
                        extended := true,
                        spacings := img0.spacings ++ [p.extents.length] },
                ?_, ?_⟩
              · dsimp only
                rw [List.getElem?_concat_length]
              · dsimp only
                rw [hsp]
                rfl
          · intro pid ph hph eid heid
            dsimp only at hph ⊢
            by_cases hlt : pid < p.photos.length
            · rw [List.getElem?_append_left hlt] at hph
              obtain ⟨e, he, hr⟩ := hb2 pid ph hph eid heid
              exact ⟨e, arena_append_stable _ _ _ _ he, hr⟩
            · have hpe : pid = p.photos.length := by
                have := (List.getElem?_eq_some_iff.mp hph).1
                simp at this
                omega
              subst hpe
              rw [List.getElem?_concat_length] at hph
              injection hph with hph
              rw [← hph] at heid
              dsimp only at heid
              rw [hsp] at heid
              simp only [List.nil_append, List.mem_singleton] at heid
              subst heid
              refine ⟨{ img_ref := p.photos.length, x := cb.x, y := cb.h,
                        w := ca.w + cb.w, h := hv }, ?_, rfl⟩
              dsimp only
              rw [List.getElem?_concat_length]
      · obtain ⟨p1, hp1, h⟩ := exceptBind_ok h
        simp only [Except.ok.injEq, Prod.mk.injEq] at h
        rw [← h.1]
        obtain ⟨h1, h2, -, -⟩ := appendNormal_wf hsp hpo hbij hp1
        exact ⟨h1, h2⟩
    · obtain ⟨p1, hp1, h⟩ := exceptBind_ok h
      simp only [Except.ok.injEq, Prod.mk.injEq] at h
      rw [← h.1]
      obtain ⟨h1, h2, -, -⟩ := appendNormal_wf hsp hpo hbij hp1
      exact ⟨h1, h2⟩

theorem fill_wf : ∀ {imgs : List Photo} {p : Page} {rng : Nat → Bool} {k : Nat}
    {p' : Page} {k' : Nat},
    (∀ im ∈ imgs, im.spacings = []) →
    placedOnce p → spacingsBij p.photos p.extents →
    p.fill imgs rng k = .ok (p', k') →
    placedOnce p' ∧ spacingsBij p'.photos p'.extents
  | [], p, rng, k, p', k' => by
    intro hsp hpo hbij h
    simp only [Page.fill, Except.ok.injEq, Prod.mk.injEq] at h
    rw [← h.1]
    exact ⟨hpo, hbij⟩
  | img :: rest, p, rng, k, p', k' => by
    intro hsp hpo hbij h
    simp only [Page.fill] at h
    obtain ⟨⟨p1, k1⟩, h1, h⟩ := exceptBind_ok h
    obtain ⟨hpo1, hbij1⟩ := append_wf (hsp img (List.mem_cons_self img rest)) hpo hbij h1
    exact fill_wf (fun im him => hsp im (List.mem_cons_of_mem _ him)) hpo1 hbij1 h

theorem init_wf {W : ℚ} {n : Nat} {p0 : Page} (h : Page.init W n = .ok p0) :
    placedOnce p0 ∧ spacingsBij p0.photos p0.extents := by
  obtain ⟨-, -, -, hcols⟩ := init_ok h
  have harena : p0.photos = [] ∧ p0.extents = [] := by
    unfold Page.init at h
    obtain ⟨cw, hcw, h⟩ := exceptBind_ok h
    simp only [Except.ok.injEq] at h
    rw [← h]
    exact ⟨rfl, rfl⟩
  have hcount : ∀ (it0 : ColItem),
      (p0.cols.map (fun c => c.imglist.count it0)).sum = 0 := by
    intro it0
    rw [List.sum_eq_zero]
    intro x hx
    obtain ⟨c, hc, hcx⟩ := List.mem_map.mp hx
    rw [hcols] at hc
    rw [← hcx, (initCols_imglist_nil _ _ _ c hc).1]
    rfl
  refine ⟨⟨?_, ?_, ?_, ?_⟩, ?_, ?_⟩
  · intro pid hpid
    rw [harena.1] at hpid
    simp at hpid
  · intro pid hpid
    exact hcount (ColItem.photo pid)
  · intro eid heid
    rw [harena.2] at heid
    simp at heid
  · intro eid heid
    exact hcount (ColItem.extent eid)
  · intro eid e heid
    rw [harena.2] at heid
    simp at heid
  · intro pid ph hph
    rw [harena.1] at hph
    simp at hph

/-! ### Phase B extent synchronisation (claim C4) -/

theorem buildGroups_join {extents : List PhotoExtent} {H : ℚ} :
    ∀ {items : List ColItem} {gy : ℚ} {acc : List Nat} {gs : List MovGroup},
    buildGroups extents H items gy acc = .ok gs →
    (gs.map MovGroup.imglist).flatten = acc ++ pidList items
  | [], gy, acc, gs => by
    intro h
    simp only [buildGroups, Except.ok.injEq] at h
    subst h
    simp [pidList]
  | .photo pid :: rest, gy, acc, gs => by
    intro h
    simp only [buildGroups] at h
    rw [buildGroups_join h]
    simp [pidList, List.filterMap_cons]
  | .extent eid :: rest, gy, acc, gs => by
    intro h
    simp only [buildGroups] at h
    obtain ⟨e, he, h⟩ := exceptBind_ok h
    obtain ⟨gs1, hgs1, h⟩ := exceptBind_ok h
    simp only [Except.ok.injEq] at h
    subst h
    simp only [List.map_cons, List.flatten_cons]
    rw [buildGroups_join hgs1]
    simp [pidList, List.filterMap_cons]

theorem pidList_mem {items : List ColItem} {pid : Nat} :
    pid ∈ pidList items ↔ ColItem.photo pid ∈ items := by
  unfold pidList
  rw [List.mem_filterMap]
  constructor
  · rintro ⟨it, hit, hm⟩
    match it with
    | .photo pid' =>
      simp only [Option.some.injEq] at hm
      subst hm
      exact hit
    | .extent _ => simp at hm
  · intro hm
    exact ⟨ColItem.photo pid, hm, rfl⟩

theorem pidList_count {pid : Nat} : ∀ {items : List ColItem},
    (pidList items).count pid = items.count (ColItem.photo pid)
  | [] => rfl
  | .photo pid' :: rest => by
    have ih := @pidList_count pid rest
    unfold pidList at ih ⊢
    simp only [List.filterMap_cons]
    rw [List.count_cons, List.count_cons, ih]
    by_cases hp : pid = pid'
    · simp [hp]
    · simp [hp]
  | .extent eid :: rest => by
    have ih := @pidList_count pid rest
    unfold pidList at ih ⊢
    simp only [List.filterMap_cons]
    rw [List.count_cons, ih]
    simp

/-- The cumulative effect of `syncSpacings`: listed extents get the new
`y`/`h`, all others are untouched. -/
theorem syncSpacings_ok {y h : ℚ} : ∀ {eids : List Nat} {extents es : List PhotoExtent},
    syncSpacings y h eids extents = .ok es →
    ∀ (eid : Nat), es[eid]? = if eid ∈ eids
      then (extents[eid]?).map (fun e => { e with y := y, h := h })
      else extents[eid]?
  | [], extents, es => by
    intro hx eid
    simp only [syncSpacings, Except.ok.injEq] at hx
    subst hx
    simp
  | eid0 :: rest, extents, es => by
    intro hx eid
    simp only [syncSpacings] at hx
    obtain ⟨e0, he0, hx⟩ := exceptBind_ok hx
    have he0' := pyget_ok he0
    have hlt := pyget_ok_lt he0
    have ih := syncSpacings_ok hx eid
    by_cases h1 : eid ∈ rest
    · rw [if_pos h1] at ih
      rw [if_pos (List.mem_cons_of_mem _ h1), ih]
      by_cases h2 : eid = eid0
      · subst h2
        rw [List.getElem?_set_eq_of_lt _ hlt, he0']
        rfl
      · rw [List.getElem?_set_ne (Ne.symm h2)]
    · rw [if_neg h1] at ih
      by_cases h2 : eid = eid0
      · subst h2
        rw [if_pos (List.mem_cons_self _ _), ih, List.getElem?_set_eq_of_lt _ hlt, he0']
        rfl
      · rw [if_neg (by simp [h2, h1]), ih, List.getElem?_set_ne (Ne.symm h2)]

theorem adjustGroupImgs_sync {alpha : ℚ} : ∀ {pids : List Nat} {y0 : ℚ}
    {photos : List Photo} {extents : List PhotoExtent} {ps : List Photo}
    {es : List PhotoExtent},
    adjustGroupImgs alpha pids y0 photos extents = .ok (ps, es) →
    spacingsBij photos extents →
    pids.Nodup →
    spacingsBij ps es ∧
    (∀ (eid : Nat) (e : PhotoExtent), es[eid]? = some e →
      ∃ e0, extents[eid]? = some e0 ∧ e.img_ref = e0.img_ref) ∧
    (∀ (eid : Nat) (e : PhotoExtent), es[eid]? = some e → e.img_ref ∈ pids →
      ∃ ph, ps[e.img_ref]? = some ph ∧ e.y = ph.y ∧ e.h = ph.h) ∧
    (∀ (eid : Nat), (∀ e0, extents[eid]? = some e0 → e0.img_ref ∉ pids) →
      es[eid]? = extents[eid]?) ∧
    (∀ (pid : Nat), pid ∉ pids → ps[pid]? = photos[pid]?)
  | [], y0, photos, extents, ps, es => by
    intro h hbij hnd
    simp only [adjustGroupImgs, Except.ok.injEq, Prod.mk.injEq] at h
    obtain ⟨h1, h2⟩ := h
    subst h1 h2
    exact ⟨hbij, fun eid e he => ⟨e, he, rfl⟩, by simp, fun eid _ => rfl, fun pid _ => rfl⟩
  | pid0 :: rest, y0, photos, extents, ps, es => by
    intro h hbij hnd
    obtain ⟨hb1, hb2⟩ := hbij
    simp only [adjustGroupImgs] at h
    obtain ⟨img, himg, h⟩ := exceptBind_ok h
    obtain ⟨es1, hes1, h⟩ := exceptBind_ok h
    obtain ⟨q, hq, h⟩ := exceptBind_ok h
    have himg' := pyget_ok himg
    have hlt := pyget_ok_lt himg
    have hsy := syncSpacings_ok hes1
    have hnd1 := (List.nodup_cons.mp hnd).2
    have hnm : pid0 ∉ rest := (List.nodup_cons.mp hnd).1
    -- facts about the one-step updated arenas
    have hself : (photos.set pid0 { img with
          y := y0, h := img.h * alpha, x := img.x + (img.w - q) / 2, w := q })[pid0]? =
        some { img with
               y := y0, h := img.h * alpha, x := img.x + (img.w - q) / 2, w := q } :=
      List.getElem?_set_eq_of_lt _ hlt
    have hother : ∀ (pid : Nat), pid ≠ pid0 →
        (photos.set pid0 { img with
          y := y0, h := img.h * alpha, x := img.x + (img.w - q) / 2, w := q })[pid]? =
          photos[pid]? :=
      fun pid hne => List.getElem?_set_ne (Ne.symm hne)
    -- the new aliasing discipline after the one step
    have hb1' : ∀ (eid : Nat) (e : PhotoExtent), es1[eid]? = some e →
        ∃ ph, (photos.set pid0 { img with
          y := y0, h := img.h * alpha, x := img.x + (img.w - q) / 2, w := q })[e.img_ref]? = some ph ∧
          ph.spacings = [eid] := by
      intro eid e he
      rw [hsy eid] at he
      by_cases hmem : eid ∈ img.spacings
      · rw [if_pos hmem] at he
        cases he0 : extents[eid]? with
        | none => rw [he0] at he; simp at he
        | some e0 =>
          rw [he0] at he
          simp only [Option.map_some', Option.some.injEq] at he
          subst he
          obtain ⟨e', he', hre⟩ := hb2 pid0 img himg' eid hmem
          rw [he0] at he'
          injection he' with he'
          subst he'
          obtain ⟨ph, hph, hps⟩ := hb1 eid e0 he0
          rw [hre] at hph
          rw [himg'] at hph
          injection hph with hph
          subst hph
          refine ⟨{ img with
                    y := y0, h := img.h * alpha, x := img.x + (img.w - q) / 2, w := q },
            ?_, ?_⟩
          · dsimp only
            rw [hre]
            exact hself
          · dsimp only
            exact hps
      · rw [if_neg hmem] at he
        obtain ⟨ph, hph, hps⟩ := hb1 eid e he
        by_cases hre : e.img_ref = pid0
        · rw [hre, himg'] at hph
          injection hph with hph
          subst hph
          exact absurd (hps ▸ List.mem_singleton_self eid) (by rw [hps] at hmem ⊢; exact fun hx => hmem (hps ▸ hx))
        · rw [hother e.img_ref hre]
          exact ⟨ph, hph, hps⟩
    have hb2' : ∀ (pid : Nat) (ph : Photo),
        (photos.set pid0 { img with
          y := y0, h := img.h * alpha, x := img.x + (img.w - q) / 2, w := q })[pid]? = some ph →
        ∀ eid ∈ ph.spacings, ∃ e, es1[eid]? = some e ∧ e.img_ref = pid := by
      intro pid ph hph eid heid
      by_cases hpe : pid = pid0
      · subst hpe
        rw [hself] at hph
        injection hph with hph
        subst hph
        dsimp only at heid
        obtain ⟨e', he', hre⟩ := hb2 pid img himg' eid heid
        refine ⟨{ e' with y := y0, h := img.h * alpha }, ?_, hre⟩
        rw [hsy eid, if_pos heid, he']
        rfl
      · rw [hother pid hpe] at hph
        obtain ⟨e', he', hre⟩ := hb2 pid ph hph eid heid
        refine ⟨e', ?_, hre⟩
        rw [hsy eid]
        by_cases hmem : eid ∈ img.spacings
        · obtain ⟨e'', he'', hre2⟩ := hb2 pid0 img himg' eid hmem
          rw [he'] at he''
          injection he'' with he''
          rw [← he''] at hre2
          exact absurd (hre.symm.trans hre2) hpe
        · rw [if_neg hmem]
          exact he'
    obtain ⟨hbijI, hshapeI, hsyncI, hframeI, hpframeI⟩ :=
      adjustGroupImgs_sync h ⟨hb1', hb2'⟩ hnd1
    refine ⟨hbijI, ?_, ?_, ?_, ?_⟩
    · -- shape composes with the sync step
      intro eid e he
      obtain ⟨e1, he1, hr1⟩ := hshapeI eid e he
      rw [hsy eid] at he1
      by_cases hmem : eid ∈ img.spacings
      · rw [if_pos hmem] at he1
        cases he0 : extents[eid]? with
        | none => rw [he0] at he1; simp at he1
        | some e0 =>
          rw [he0] at he1
          simp only [Option.map_some', Option.some.injEq] at he1
          subst he1
          exact ⟨e0, rfl, hr1⟩
      · rw [if_neg hmem] at he1
        exact ⟨e1, he1, hr1⟩
    · -- synchronisation
      intro eid e he hmemp
      rcases List.mem_cons.mp hmemp with hre | hre
      · -- the head photo: its extent was synced in this step and then left alone
        obtain ⟨e1, he1, hr1⟩ := hshapeI eid e he
        have hre0 : e1.img_ref = pid0 := by rw [← hr1, hre]
        -- eid must be the unique spacing of pid0
        have heid1 : es1[eid]? = some e1 := he1
        -- identify e1 through the sync step
        rw [hsy eid] at he1
        by_cases hmem : eid ∈ img.spacings
        · rw [if_pos hmem] at he1
          cases he0 : extents[eid]? with
          | none => rw [he0] at he1; simp at he1
          | some e0 =>
            rw [he0] at he1
            simp only [Option.map_some', Option.some.injEq] at he1
            -- after the step the extent is not resynced (its photo is not in rest)
            have hfr : es[eid]? = es1[eid]? := by
              refine hframeI eid ?_
              intro e2 he2 hin
              rw [heid1] at he2
              injection he2 with he2
              rw [← he2] at hin
              rw [hre0] at hin
              exact hnm hin
            rw [heid1] at hfr
            rw [he] at hfr
            injection hfr with hfr
            have hpfr : ps[pid0]? = some { img with
                y := y0, h := img.h * alpha, x := img.x + (img.w - q) / 2, w := q } := by
              rw [hpframeI pid0 hnm]
              exact hself
            refine ⟨_, by rw [hre]; exact hpfr, ?_, ?_⟩
            · rw [hfr, ← he1]
            · rw [hfr, ← he1]
        · -- impossible: the extent of pid0 is listed in img.spacings
          exfalso
          rw [if_neg hmem] at he1
          obtain ⟨ph, hph, hps⟩ := hb1 eid e1 he1
          rw [hre0, himg'] at hph
          injection hph with hph
          rw [← hph] at hps
          exact hmem (hps ▸ List.mem_singleton_self eid)
      · exact hsyncI eid e he hre
    · -- frame for untouched extents
      intro eid hnone
      have h1 : es1[eid]? = extents[eid]? := by
        rw [hsy eid]
        by_cases hmem : eid ∈ img.spacings
        · obtain ⟨e', he', hre⟩ := hb2 pid0 img himg' eid hmem
          exact absurd (List.mem_cons_self pid0 rest)
            (hre ▸ hnone e' he')
        · rw [if_neg hmem]
      rw [← h1]
      refine hframeI eid ?_
      intro e0 he0 hin
      rw [h1] at he0
      exact hnone e0 he0 (List.mem_cons_of_mem _ hin)
    · intro pid hpid
      rw [hpframeI pid (fun hx => hpid (List.mem_cons_of_mem _ hx)),
        hother pid (fun hx => hpid (hx ▸ List.mem_cons_self pid0 rest))]

theorem adjustGroups_sync : ∀ {gs : List MovGroup} {photos : List Photo}
    {extents : List PhotoExtent} {ps : List Photo} {es : List PhotoExtent},
    adjustGroups gs photos extents = .ok (ps, es) →
    spacingsBij photos extents →
    ((gs.map MovGroup.imglist).flatten).Nodup →
    spacingsBij ps es ∧
    (∀ (eid : Nat) (e : PhotoExtent), es[eid]? = some e →
      ∃ e0, extents[eid]? = some e0 ∧ e.img_ref = e0.img_ref) ∧
    (∀ (eid : Nat) (e : PhotoExtent), es[eid]? = some e →
      (∃ g ∈ gs, e.img_ref ∈ g.imglist) →
      ∃ ph, ps[e.img_ref]? = some ph ∧ e.y = ph.y ∧ e.h = ph.h) ∧
    (∀ (eid : Nat), (∀ e0, extents[eid]? = some e0 →
      ∀ g ∈ gs, e0.img_ref ∉ g.imglist) → es[eid]? = extents[eid]?) ∧
    (∀ (pid : Nat), (∀ g ∈ gs, pid ∉ g.imglist) → ps[pid]? = photos[pid]?)
  | [], photos, extents, ps, es => by
    intro h hbij hnd
    simp only [adjustGroups, Except.ok.injEq, Prod.mk.injEq] at h
    obtain ⟨h1, h2⟩ := h
    subst h1 h2
    exact ⟨hbij, fun eid e he => ⟨e, he, rfl⟩, by simp, fun eid _ => rfl, fun pid _ => rfl⟩
  | g :: gs, photos, extents, ps, es => by
    intro h hbij hnd
    simp only [adjustGroups] at h
    simp only [List.map_cons, List.flatten_cons, List.nodup_append] at hnd
    obtain ⟨hndg, hndgs, hdisj⟩ := hnd
    by_cases hg : g.imglist.isEmpty
    · rw [if_pos hg] at h
      have hge : g.imglist = [] := List.isEmpty_iff.mp hg
      obtain ⟨hbijI, hshapeI, hsyncI, hframeI, hpframeI⟩ :=
        adjustGroups_sync h hbij hndgs
      refine ⟨hbijI, hshapeI, ?_, ?_, ?_⟩
      · intro eid e he hmem
        obtain ⟨g', hg', hpg⟩ := hmem
        rcases List.mem_cons.mp hg' with heq | hgs2
        · subst heq
          rw [hge] at hpg
          simp at hpg
        · exact hsyncI eid e he ⟨g', hgs2, hpg⟩
      · intro eid hnone
        exact hframeI eid (fun e0 he0 g' hg' => hnone e0 he0 g' (List.mem_cons_of_mem _ hg'))
      · intro pid hpid
        exact hpframeI pid (fun g' hg' => hpid g' (List.mem_cons_of_mem _ hg'))
    · rw [if_neg hg] at h
      obtain ⟨hsum, hhs, h⟩ := exceptBind_ok h
      obtain ⟨alpha, halpha, h⟩ := exceptBind_ok h
      obtain ⟨⟨ps1, es1⟩, hadj, h⟩ := exceptBind_ok h
      obtain ⟨hbij1, hshape1, hsync1, hframe1, hpframe1⟩ :=
        adjustGroupImgs_sync hadj hbij hndg
      obtain ⟨hbijI, hshapeI, hsyncI, hframeI, hpframeI⟩ :=
        adjustGroups_sync h hbij1 hndgs
      refine ⟨hbijI, ?_, ?_, ?_, ?_⟩
      · intro eid e he
        obtain ⟨e1, he1, hr1⟩ := hshapeI eid e he
        obtain ⟨e0, he0, hr0⟩ := hshape1 eid e1 he1
        exact ⟨e0, he0, hr1.trans hr0⟩
      · intro eid e he hmem
        obtain ⟨g', hg', hpg⟩ := hmem
        rcases List.mem_cons.mp hg' with heq | hgs2
        · -- the head group already synced this extent; later groups leave it be
          rw [heq] at hpg
          obtain ⟨e1, he1, hr1⟩ := hshapeI eid e he
          have hr1g : e1.img_ref ∈ g.imglist := by rw [hr1] at hpg; exact hpg
          have hfr : es[eid]? = es1[eid]? := by
            refine hframeI eid ?_
            intro e2 he2 g2 hg2 hin
            rw [he1] at he2
            injection he2 with he2
            rw [← he2] at hin
            exact hdisj hr1g (by
              refine List.mem_flatten.mpr ?_
              exact ⟨g2.imglist, List.mem_map.mpr ⟨g2, hg2, rfl⟩, hin⟩)
          rw [he1] at hfr
          rw [he] at hfr
          injection hfr with hfr
          subst hfr
          obtain ⟨ph, hph, hy, hh⟩ := hsync1 eid e he1 (by rw [← hr1] at hpg; exact hpg)
          refine ⟨ph, ?_, hy, hh⟩
          rw [hpframeI e.img_ref (fun g2 hg2 hin => hdisj (by rw [hr1] at hpg; exact hpg)
            (List.mem_flatten.mpr ⟨g2.imglist, List.mem_map.mpr ⟨g2, hg2, rfl⟩, hin⟩))]
          exact hph
        · exact hsyncI eid e he ⟨g', hgs2, hpg⟩
      · intro eid hnone
        have h1 : es1[eid]? = extents[eid]? :=
          hframe1 eid (fun e0 he0 => hnone e0 he0 g (List.mem_cons_self g gs))
        rw [← h1]
        refine hframeI eid ?_
        intro e0 he0 g2 hg2
        rw [h1] at he0
        exact hnone e0 he0 g2 (List.mem_cons_of_mem _ hg2)
      · intro pid hpid
        rw [hpframeI pid (fun g2 hg2 => hpid g2 (List.mem_cons_of_mem _ hg2)),
          hpframe1 pid (hpid g (List.mem_cons_self g gs))]

theorem adjust_height_sync {c : Column} {H : ℚ} {photos : List Photo}
    {extents : List PhotoExtent} {c1 : Column} {ps : List Photo} {es : List PhotoExtent}
    (h : c.adjust_height H photos extents = .ok (c1, ps, es))
    (hbij : spacingsBij photos extents)
    (hcnt : ∀ pid, c.imglist.count (ColItem.photo pid) ≤ 1) :
    spacingsBij ps es ∧
    (∀ (eid : Nat) (e : PhotoExtent), es[eid]? = some e →
      ∃ e0, extents[eid]? = some e0 ∧ e.img_ref = e0.img_ref) ∧
    (∀ (eid : Nat) (e : PhotoExtent), es[eid]? = some e →
      ColItem.photo e.img_ref ∈ c.imglist →
      ∃ ph, ps[e.img_ref]? = some ph ∧ e.y = ph.y ∧ e.h = ph.h) ∧
    (∀ (eid : Nat), (∀ e0, extents[eid]? = some e0 →
      ColItem.photo e0.img_ref ∉ c.imglist) → es[eid]? = extents[eid]?) ∧
    (∀ (pid : Nat), ColItem.photo pid ∉ c.imglist → ps[pid]? = photos[pid]?) := by
  unfold Column.adjust_height at h
  obtain ⟨gs, hgs, h⟩ := exceptBind_ok h
  obtain ⟨⟨ps1, es1⟩, hadj, h⟩ := exceptBind_ok h
  simp only [Except.ok.injEq, Prod.mk.injEq] at h
  obtain ⟨-, hps, hes⟩ := h
  subst hps hes
  have hjoin := buildGroups_join hgs
  simp only [List.nil_append] at hjoin
  have hmemiff : ∀ pid, (∃ g ∈ gs, pid ∈ g.imglist) ↔ ColItem.photo pid ∈ c.imglist := by
    intro pid
    rw [← pidList_mem, ← hjoin]
    constructor
    · rintro ⟨g, hg, hpg⟩
      exact List.mem_flatten.mpr ⟨g.imglist, List.mem_map.mpr ⟨g, hg, rfl⟩, hpg⟩
    · intro hx
      obtain ⟨l, hl, hxl⟩ := List.mem_flatten.mp hx
      obtain ⟨g, hg, hgl⟩ := List.mem_map.mp hl
      exact ⟨g, hg, by rw [hgl]; exact hxl⟩
  have hnd : ((gs.map MovGroup.imglist).flatten).Nodup := by
    rw [hjoin]
    rw [List.nodup_iff_count_le_one]
    intro pid
    rw [pidList_count]
    exact hcnt pid
  obtain ⟨hbijI, hshapeI, hsyncI, hframeI, hpframeI⟩ := adjustGroups_sync hadj hbij hnd
  refine ⟨hbijI, hshapeI, ?_, ?_, ?_⟩
  · intro eid e he hmem
    exact hsyncI eid e he ((hmemiff e.img_ref).mpr hmem)
  · intro eid hnone
    refine hframeI eid ?_
    intro e0 he0 g hg hin
    exact hnone e0 he0 ((hmemiff e0.img_ref).mp ⟨g, hg, hin⟩)
  · intro pid hpid
    exact hpframeI pid (fun g hg hin => hpid ((hmemiff pid).mp ⟨g, hg, hin⟩))

theorem eatSpaceCols_sync {H : ℚ} : ∀ {cs : List Column} {photos : List Photo}
    {extents : List PhotoExtent} {cs1 : List Column} {ps : List Photo}
    {es : List PhotoExtent},
    eatSpaceCols H cs photos extents = .ok (cs1, ps, es) →
    spacingsBij photos extents →
    (∀ pid, ((cs.map (fun c => c.imglist.count (ColItem.photo pid))).sum) ≤ 1) →
    spacingsBij ps es ∧
    (∀ (eid : Nat) (e : PhotoExtent), es[eid]? = some e →
      ∃ e0, extents[eid]? = some e0 ∧ e.img_ref = e0.img_ref) ∧
    (∀ (eid : Nat) (e : PhotoExtent), es[eid]? = some e →
      (∃ c ∈ cs, ColItem.photo e.img_ref ∈ c.imglist) →
      ∃ ph, ps[e.img_ref]? = some ph ∧ e.y = ph.y ∧ e.h = ph.h) ∧
    (∀ (eid : Nat), (∀ e0, extents[eid]? = some e0 →
      ∀ c ∈ cs, ColItem.photo e0.img_ref ∉ c.imglist) → es[eid]? = extents[eid]?) ∧
    (∀ (pid : Nat), (∀ c ∈ cs, ColItem.photo pid ∉ c.imglist) → ps[pid]? = photos[pid]?)
  | [], photos, extents, cs1, ps, es => by
    intro h hbij hcnt
    simp only [eatSpaceCols, Except.ok.injEq, Prod.mk.injEq] at h
    obtain ⟨-, hps, hes⟩ := h
    subst hps hes
    exact ⟨hbij, fun eid e he => ⟨e, he, rfl⟩, by simp, fun eid _ => rfl, fun pid _ => rfl⟩
  | c :: cs, photos, extents, cs1, ps, es => by
    intro h hbij hcnt
    simp only [eatSpaceCols] at h
    obtain ⟨⟨c1, ps1, es1⟩, h1, h⟩ := exceptBind_ok h
    obtain ⟨⟨cs2, ps2, es2⟩, h2, h⟩ := exceptBind_ok h
    simp only [Except.ok.injEq, Prod.mk.injEq] at h
    obtain ⟨-, hps, hes⟩ := h
    subst hps hes
    have hcnthd : ∀ pid, c.imglist.count (ColItem.photo pid) ≤ 1 := by
      intro pid
      have := hcnt pid
      simp only [List.map_cons, List.sum_cons] at this
      omega
    have hdisj : ∀ pid, ColItem.photo pid ∈ c.imglist →
        ∀ c2 ∈ cs, ColItem.photo pid ∉ c2.imglist := by
      intro pid hmem c2 hc2 hmem2
      have h1p : 1 ≤ c.imglist.count (ColItem.photo pid) :=
        List.count_pos_iff.mpr hmem
      have h2p : 1 ≤ c2.imglist.count (ColItem.photo pid) :=
        List.count_pos_iff.mpr hmem2
      have hsum := hcnt pid
      simp only [List.map_cons, List.sum_cons] at hsum
      have hle : c2.imglist.count (ColItem.photo pid) ≤
          ((cs.map (fun c => c.imglist.count (ColItem.photo pid))).sum) :=
        List.le_sum_of_mem (List.mem_map.mpr ⟨c2, hc2, rfl⟩)
      omega
    obtain ⟨hbij1, hshape1, hsync1, hframe1, hpframe1⟩ :=
      adjust_height_sync h1 hbij hcnthd
    have hcnttl : ∀ pid, ((cs.map (fun c => c.imglist.count (ColItem.photo pid))).sum) ≤ 1 := by
      intro pid
      have := hcnt pid
      simp only [List.map_cons, List.sum_cons] at this
      omega
    obtain ⟨hbijI, hshapeI, hsyncI, hframeI, hpframeI⟩ :=
      eatSpaceCols_sync h2 hbij1 hcnttl
    refine ⟨hbijI, ?_, ?_, ?_, ?_⟩
    · intro eid e he
      obtain ⟨e1, he1, hr1⟩ := hshapeI eid e he
      obtain ⟨e0, he0, hr0⟩ := hshape1 eid e1 he1
      exact ⟨e0, he0, hr1.trans hr0⟩
    · intro eid e he hmem
      obtain ⟨c', hc', hpg⟩ := hmem
      rcases List.mem_cons.mp hc' with heq | hcs2
      · rw [heq] at hpg
        obtain ⟨e1, he1, hr1⟩ := hshapeI eid e he
        have hpg1 : ColItem.photo e1.img_ref ∈ c.imglist := by rw [hr1] at hpg; exact hpg
        have hfr : es2[eid]? = es1[eid]? := by
          refine hframeI eid ?_
          intro e2 he2 c2 hc2 hin
          rw [he1] at he2
          injection he2 with he2
          rw [← he2] at hin
          exact hdisj e1.img_ref hpg1 c2 hc2 hin
        rw [he1] at hfr
        rw [he] at hfr
        injection hfr with hfr
        subst hfr
        obtain ⟨ph, hph, hy, hh⟩ := hsync1 eid e he1 hpg
        refine ⟨ph, ?_, hy, hh⟩
        rw [hpframeI e.img_ref (fun c2 hc2 hin => hdisj e.img_ref hpg c2 hc2 hin)]
        exact hph
      · exact hsyncI eid e he ⟨c', hcs2, hpg⟩
    · intro eid hnone
      have hfr1 : es1[eid]? = extents[eid]? :=
        hframe1 eid (fun e0 he0 => hnone e0 he0 c (List.mem_cons_self c cs))
      rw [← hfr1]
      refine hframeI eid ?_
      intro e0 he0 c2 hc2
      rw [hfr1] at he0
      exact hnone e0 he0 c2 (List.mem_cons_of_mem _ hc2)
    · intro pid hpid
      rw [hpframeI pid (fun c2 hc2 => hpid c2 (List.mem_cons_of_mem _ hc2)),
        hpframe1 pid (hpid c (List.mem_cons_self c cs))]

/-- C4: after phase B (`Page.eat_space`) on a filled page, every
`PhotoExtent` has `y` and `h` exactly equal to the `y` and `h` of the
photo it references (`Column.adjust_height` re-synchronises each photo's
`spacings` when it moves the photo, and no later column touches either
side again). -/
theorem c4_extent_sync {W : ℚ} {n : Nat} {imgs : List Photo} {rng : Nat → Bool}
    {p0 p1 p2 : Page} {k1 : Nat} {eid : Nat} {e : PhotoExtent}
    (hsp : ∀ im ∈ imgs, im.spacings = [])
    (hinit : Page.init W n = .ok p0)
    (hfill : p0.fill imgs rng 0 = .ok (p1, k1))
    (heat : p1.eat_space = .ok p2)
    (heid : p2.extents[eid]? = some e) :
    ∃ ph, p2.photos[e.img_ref]? = some ph ∧ e.y = ph.y ∧ e.h = ph.h := by
  obtain ⟨hpo0, hbij0⟩ := init_wf hinit
  obtain ⟨hpo1, hbij1⟩ := fill_wf hsp hpo0 hbij0 hfill
  unfold Page.eat_space at heat
  obtain ⟨H, hH, heat⟩ := exceptBind_ok heat
  obtain ⟨⟨cs1, ps, es⟩, hcs, heat⟩ := exceptBind_ok heat
  simp only [Except.ok.injEq] at heat
  subst heat
  dsimp only at heid ⊢
  obtain ⟨hpo1a, hpo1b, -, -⟩ := hpo1
  have hcnt : ∀ pid, ((p1.cols.map
      (fun c => c.imglist.count (ColItem.photo pid))).sum) ≤ 1 := by
    intro pid
    by_cases hlt : pid < p1.photos.length
    · have := hpo1a pid hlt
      unfold countP at this
      omega
    · have := hpo1b pid (by omega)
      unfold countP at this
      omega
  obtain ⟨-, hshape, hsync, -, -⟩ := eatSpaceCols_sync hcs hbij1 hcnt
  obtain ⟨e0, he0, hr0⟩ := hshape eid e heid
  obtain ⟨ph0, hph0, -⟩ := hbij1.1 eid e0 he0
  have hlt0 : e0.img_ref < p1.photos.length :=
    (List.getElem?_eq_some_iff.mp hph0).1
  have hcount1 : countP p1 e0.img_ref = 1 := hpo1a _ hlt0
  have hmem : ∃ c ∈ p1.cols, ColItem.photo e0.img_ref ∈ c.imglist := by
    by_contra hnone
    push_neg at hnone
    have hzero : countP p1 e0.img_ref = 0 := by
      unfold countP
      rw [List.sum_eq_zero]
      intro x hx
      obtain ⟨c, hc, hcx⟩ := List.mem_map.mp hx
      rw [← hcx]
      exact List.count_eq_zero.mpr (hnone c hc)
    omega
  obtain ⟨c, hc, hcm⟩ := hmem
  exact hsync eid e heid ⟨c, hc, by rw [hr0]; exact hcm⟩

/-- Witness for C4 on the `cexC7` run: the extent ends at `y = 2/5`,
`h = 1/2`, exactly its referenced photo's values. -/
theorem c4_witness :
    ((∀ im ∈ [mkPhoto 1 (2/5), mkPhoto 4 1], im.spacings = []) ∧
      Page.init 2 2 = .ok wtP0 ∧
      wtP0.fill [mkPhoto 1 (2/5), mkPhoto 4 1] rng01 0 = .ok (cexC7, 2) ∧
      cexC7.eat_space = .ok cexC7B ∧
      cexC7B.extents[0]? = some ⟨1, 1, 2/5, 2, 1/2⟩) ∧
    (∃ ph, cexC7B.photos[(1 : Nat)]? = some ph ∧
      (2/5 : ℚ) = ph.y ∧ (1/2 : ℚ) = ph.h) :=
  have h0 : ∀ im ∈ [mkPhoto 1 (2/5), mkPhoto 4 1], im.spacings = [] := by
    with_unfolding_all decide
  have h1 : Page.init 2 2 = .ok wtP0 := by with_unfolding_all decide
  have h2 : wtP0.fill [mkPhoto 1 (2/5), mkPhoto 4 1] rng01 0 = .ok (cexC7, 2) := by
    with_unfolding_all decide
  have h3 : cexC7.eat_space = .ok cexC7B := by with_unfolding_all decide
  have h4 : cexC7B.extents[0]? = some ⟨1, 1, 2/5, 2, 1/2⟩ := by
    with_unfolding_all decide
  ⟨⟨h0, h1, h2, h3, h4⟩, c4_extent_sync h0 h1 h2 h3 h4⟩

/-! ### Nonnegative placed dimensions in every phase (claim C6) -/

theorem filterMap_congr_mem {α β : Type} {f g : α → Option β} : ∀ {l : List α},
    (∀ a ∈ l, f a = g a) → l.filterMap f = l.filterMap g
  | [] => by intro h; rfl
  | a :: l => by
    intro h
    rw [List.filterMap_cons, List.filterMap_cons, h a (List.mem_cons_self a l),
      filterMap_congr_mem (fun x hx => h x (List.mem_cons_of_mem _ hx))]

theorem eidList_snoc_photo (items : List ColItem) (pid : Nat) :
    eidList (items ++ [ColItem.photo pid]) = eidList items := by
  unfold eidList
  simp [List.filterMap_append]

theorem eidList_snoc_extent (items : List ColItem) (eid : Nat) :
    eidList (items ++ [ColItem.extent eid]) = eidList items ++ [eid] := by
  unfold eidList
  simp [List.filterMap_append]

theorem pidList_snoc_photo (items : List ColItem) (pid : Nat) :
    pidList (items ++ [ColItem.photo pid]) = pidList items ++ [pid] := by
  unfold pidList
  simp [List.filterMap_append]

theorem pidList_snoc_extent (items : List ColItem) (eid : Nat) :
    pidList (items ++ [ColItem.extent eid]) = pidList items := by
  unfold pidList
  simp [List.filterMap_append]

theorem eidList_mem {items : List ColItem} {eid : Nat} :
    eid ∈ eidList items ↔ ColItem.extent eid ∈ items := by
  unfold eidList
  rw [List.mem_filterMap]
  constructor
  · rintro ⟨it, hit, hm⟩
    match it with
    | .extent eid' =>
      simp only [Option.some.injEq] at hm
      subst hm
      exact hit
    | .photo _ => simp at hm
  · intro hm
    exact ⟨ColItem.extent eid, hm, rfl⟩

theorem refListE_congr {extents1 extents2 : List PhotoExtent} {items : List ColItem}
    (h : ∀ eid ∈ eidList items, (extents2[eid]?).map PhotoExtent.img_ref =
      (extents1[eid]?).map PhotoExtent.img_ref) :
    refListE extents2 items = refListE extents1 items := by
  unfold refListE
  exact filterMap_congr_mem (fun eid heid => by rw [h eid heid])

theorem refListE_append_right {extents : List PhotoExtent} {l2 : List PhotoExtent}
    {items : List ColItem} (hv : ∀ eid ∈ eidList items, eid < extents.length) :
    refListE (extents ++ l2) items = refListE extents items :=
  refListE_congr (fun eid heid => by rw [List.getElem?_append_left (hv eid heid)])

theorem refListE_snoc_photo (extents : List PhotoExtent) (items : List ColItem)
    (pid : Nat) :
    refListE extents (items ++ [ColItem.photo pid]) = refListE extents items := by
  unfold refListE
  rw [eidList_snoc_photo]

theorem refListE_mem {extents : List PhotoExtent} {items : List ColItem}
    {eid : Nat} {e : PhotoExtent}
    (heid : eid ∈ eidList items) (he : extents[eid]? = some e) :
    e.img_ref ∈ refListE extents items := by
  unfold refListE
  exact List.mem_filterMap.mpr ⟨eid, heid, by rw [he]; rfl⟩

theorem countP_pos_lt {p : Page} (hpo : placedOnce p) {c : Column} (hc : c ∈ p.cols)
    {pid : Nat} (he : ColItem.photo pid ∈ c.imglist) : pid < p.photos.length := by
  by_contra hge
  have h0 : countP p pid = 0 := hpo.2.1 pid (by omega)
  have h1 : 1 ≤ c.imglist.count (ColItem.photo pid) := List.count_pos_iff.mpr he
  have hle : c.imglist.count (ColItem.photo pid) ≤
      (p.cols.map (fun c => c.imglist.count (ColItem.photo pid))).sum :=
    List.le_sum_of_mem (List.mem_map.mpr ⟨c, hc, rfl⟩)
  unfold countP at h0
  omega

theorem countE_pos_lt {p : Page} (hpo : placedOnce p) {c : Column} (hc : c ∈ p.cols)
    {eid : Nat} (he : ColItem.extent eid ∈ c.imglist) : eid < p.extents.length := by
  by_contra hge
  have h0 : countE p eid = 0 := hpo.2.2.2 eid (by omega)
  have h1 : 1 ≤ c.imglist.count (ColItem.extent eid) := List.count_pos_iff.mpr he
  have hle : c.imglist.count (ColItem.extent eid) ≤
      (p.cols.map (fun c => c.imglist.count (ColItem.extent eid))).sum :=
    List.le_sum_of_mem (List.mem_map.mpr ⟨c, hc, rfl⟩)
  unfold countE at h0
  omega

theorem PChain.mono_lo {photos : List Photo} {lo lo' hi : ℚ} {l : List Nat}
    (h : PChain photos lo l hi) (hle : lo' ≤ lo) : PChain photos lo' l hi := by
  cases h with
  | nil h1 => exact .nil (hle.trans h1)
  | cons hph hlo hh hrest => exact .cons hph (hle.trans hlo) hh hrest

theorem GChain.relax {lo lo' hi : ℚ} {gs : List MovGroup}
    (h : GChain lo gs hi) (hle : lo' ≤ lo) : GChain lo' gs hi := by
  cases h with
  | nil h1 => exact .nil (hle.trans h1)
  | cons hlo hh hrest => exact .cons (hle.trans hlo) hh hrest

theorem PChain.sublist {photos : List Photo} {l1 l2 : List Nat}
    (hs : List.Sublist l1 l2) : ∀ {lo hi : ℚ}, PChain photos lo l2 hi → PChain photos lo l1 hi := by
  induction hs with
  | slnil => exact fun h => h
  | cons a hs ih =>
    intro lo hi h
    cases h with
    | cons hph hlo hh hrest => exact (ih hrest).mono_lo (by linarith)
  | cons₂ a hs ih =>
    intro lo hi h
    cases h with
    | cons hph hlo hh hrest => exact .cons hph hlo hh (ih hrest)

theorem PChain.congr {photos1 photos2 : List Photo} {l : List Nat} {lo hi : ℚ}
    (heq : ∀ pid ∈ l, photos2[pid]? = photos1[pid]?)
    (h : PChain photos1 lo l hi) : PChain photos2 lo l hi := by
  induction h with
  | nil h1 => exact .nil h1
  | cons hph hlo hh hrest ih =>
    exact .cons ((heq _ (List.mem_cons_self _ _)).trans hph) hlo hh
      (ih (fun pid hpid => heq pid (List.mem_cons_of_mem _ hpid)))

theorem PChain.append {photos : List Photo} {l1 l2 : List Nat} {lo mid hi : ℚ}
    (h1 : PChain photos lo l1 mid) (h2 : PChain photos mid l2 hi) :
    PChain photos lo (l1 ++ l2) hi := by
  induction h1 with
  | nil hle => exact h2.mono_lo hle
  | cons hph hlo hh hrest ih => exact .cons hph hlo hh (ih h2)

theorem PChain.mem_nonneg {photos : List Photo} {l : List Nat} {lo hi : ℚ}
    (h : PChain photos lo l hi) (h0 : 0 ≤ lo) :
    ∀ pid ∈ l, ∃ ph, photos[pid]? = some ph ∧ 0 ≤ ph.y ∧ 0 ≤ ph.h := by
  induction h with
  | nil h1 => simp
  | cons hph hlo hh hrest ih =>
    intro pid hpid
    rcases List.mem_cons.mp hpid with hpe | hpe
    · subst hpe
      exact ⟨_, hph, by linarith, hh⟩
    · exact ih (by linarith) pid hpe

theorem syncSpacings_sig {y h : ℚ} {eids : List Nat} {extents es : List PhotoExtent}
    (h1 : syncSpacings y h eids extents = .ok es) (eid : Nat) :
    (es[eid]?).map extSig = (extents[eid]?).map extSig := by
  rw [syncSpacings_ok h1 eid]
  by_cases hm : eid ∈ eids
  · rw [if_pos hm]
    cases extents[eid]? <;> rfl
  · rw [if_neg hm]

theorem adjustGroupImgs_sig {alpha : ℚ} : ∀ {pids : List Nat} {y0 : ℚ}
    {photos : List Photo} {extents : List PhotoExtent} {ps : List Photo}
    {es : List PhotoExtent},
    adjustGroupImgs alpha pids y0 photos extents = .ok (ps, es) →
    ∀ (eid : Nat), (es[eid]?).map extSig = (extents[eid]?).map extSig
  | [], y0, photos, extents, ps, es => by
    intro h eid
    simp only [adjustGroupImgs, Except.ok.injEq, Prod.mk.injEq] at h
    rw [h.2]
  | pid :: rest, y0, photos, extents, ps, es => by
    intro h eid
    simp only [adjustGroupImgs] at h
    obtain ⟨img, himg, h⟩ := exceptBind_ok h
    obtain ⟨es1, hes1, h⟩ := exceptBind_ok h
    obtain ⟨q, hq, h⟩ := exceptBind_ok h
    rw [adjustGroupImgs_sig h eid, syncSpacings_sig hes1 eid]

theorem adjustGroups_sig : ∀ {gs : List MovGroup} {photos : List Photo}
    {extents : List PhotoExtent} {ps : List Photo} {es : List PhotoExtent},
    adjustGroups gs photos extents = .ok (ps, es) →
    ∀ (eid : Nat), (es[eid]?).map extSig = (extents[eid]?).map extSig
  | [], photos, extents, ps, es => by
    intro h eid
    simp only [adjustGroups, Except.ok.injEq, Prod.mk.injEq] at h
    rw [h.2]
  | g :: gs, photos, extents, ps, es => by
    intro h eid
    simp only [adjustGroups] at h
    by_cases hg : g.imglist.isEmpty
    · rw [if_pos hg] at h
      exact adjustGroups_sig h eid
    · rw [if_neg hg] at h
      obtain ⟨hsum, hhs, h⟩ := exceptBind_ok h
      obtain ⟨alpha, halpha, h⟩ := exceptBind_ok h
      obtain ⟨⟨ps1, es1⟩, hadj, h⟩ := exceptBind_ok h
      rw [adjustGroups_sig h eid, adjustGroupImgs_sig hadj eid]

theorem adjust_height_sig {c : Column} {H : ℚ} {photos : List Photo}
    {extents : List PhotoExtent} {c1 : Column} {ps : List Photo} {es : List PhotoExtent}
    (h : c.adjust_height H photos extents = .ok (c1, ps, es)) :
    ∀ (eid : Nat), (es[eid]?).map extSig = (extents[eid]?).map extSig := by
  unfold Column.adjust_height at h
  obtain ⟨gs, hgs, h⟩ := exceptBind_ok h
  obtain ⟨⟨ps1, es1⟩, hadj, h⟩ := exceptBind_ok h
  simp only [Except.ok.injEq, Prod.mk.injEq] at h
  obtain ⟨-, -, hes⟩ := h
  subst hes
  exact adjustGroups_sig hadj

theorem eatSpaceCols_sig {H : ℚ} : ∀ {cs : List Column} {photos : List Photo}
    {extents : List PhotoExtent} {cs1 : List Column} {ps : List Photo}
    {es : List PhotoExtent},
    eatSpaceCols H cs photos extents = .ok (cs1, ps, es) →
    ∀ (eid : Nat), (es[eid]?).map extSig = (extents[eid]?).map extSig
  | [], photos, extents, cs1, ps, es => by
    intro h eid
    simp only [eatSpaceCols, Except.ok.injEq, Prod.mk.injEq] at h
    rw [h.2.2]
  | c :: cs, photos, extents, cs1, ps, es => by
    intro h eid
    simp only [eatSpaceCols] at h
    obtain ⟨⟨c1, ps1, es1⟩, h1, h⟩ := exceptBind_ok h
    obtain ⟨⟨cs2, ps2, es2⟩, h2, h⟩ := exceptBind_ok h
    simp only [Except.ok.injEq, Prod.mk.injEq] at h
    obtain ⟨-, -, hes⟩ := h
    subst hes
    rw [eatSpaceCols_sig h2 eid, adjust_height_sig h1 eid]

theorem sig_ref {extents es : List PhotoExtent}
    (h : ∀ (eid : Nat), (es[eid]?).map extSig = (extents[eid]?).map extSig) (eid : Nat) :
    (es[eid]?).map PhotoExtent.img_ref = (extents[eid]?).map PhotoExtent.img_ref := by
  have h1 := h eid
  cases he : es[eid]? with
  | none =>
    rw [he] at h1
    cases he2 : extents[eid]? with
    | none => rfl
    | some e => rw [he2] at h1; simp at h1
  | some e =>
    rw [he] at h1
    cases he2 : extents[eid]? with
    | none => rw [he2] at h1; simp at h1
    | some e2 =>
      rw [he2] at h1
      simp only [Option.map_some', Option.some.injEq] at h1 ⊢
      unfold extSig at h1
      simp only [Prod.mk.injEq] at h1
      exact h1.1

theorem sig_some {extents es : List PhotoExtent}
    (h : ∀ (eid : Nat), (es[eid]?).map extSig = (extents[eid]?).map extSig) {eid : Nat}
    {e0 : PhotoExtent} (he0 : extents[eid]? = some e0) :
    ∃ e, es[eid]? = some e ∧ e.img_ref = e0.img_ref ∧ e.w = e0.w := by
  have h1 := h eid
  rw [he0] at h1
  cases he : es[eid]? with
  | none => rw [he] at h1; simp at h1
  | some e =>
    rw [he] at h1
    simp only [Option.map_some', Option.some.injEq] at h1
    unfold extSig at h1
    simp only [Prod.mk.injEq] at h1
    exact ⟨e, rfl, h1.1, h1.2.2⟩

theorem initCols_mem {cw : ℚ} : ∀ {n : Nat} {x : ℚ} {c : Column},
    c ∈ initCols cw n x → c.imglist = [] ∧ c.w = cw ∧ c.h = 0
  | 0, x, c => by intro h; simp [initCols] at h
  | n + 1, x, c => by
    intro h
    rcases List.mem_cons.mp h with h1 | h1
    · subst h1; exact ⟨rfl, rfl, rfl⟩
    · exact initCols_mem h1

theorem getElem?_set2 {α : Type} {l : List α} {a b : Nat} {ca cb : α} (ca1 cb1 : α)
    (hca : l[a]? = some ca) (hcb : l[b]? = some cb) (m : Nat) :
    ((l.set a ca1).set b cb1)[m]? =
      if m = b then some cb1 else if m = a then some ca1 else l[m]? := by
  by_cases hmb : m = b
  · subst hmb
    rw [if_pos rfl]
    have hbl : m < (l.set a ca1).length := by
      rw [List.length_set]
      exact (List.getElem?_eq_some_iff.mp hcb).1
    exact List.getElem?_set_eq_of_lt _ hbl
  · rw [if_neg hmb, List.getElem?_set_ne (fun hx => hmb hx.symm)]
    by_cases hma : m = a
    · subst hma
      rw [if_pos rfl]
      have hal : m < l.length := (List.getElem?_eq_some_iff.mp hca).1
      exact List.getElem?_set_eq_of_lt _ hal
    · rw [if_neg hma, List.getElem?_set_ne (fun hx => hma hx.symm)]

theorem init_posadj {W : ℚ} {n : Nat} {p0 : Page} (h : Page.init W n = .ok p0)
    (hW : 0 < W) (hn : 1 ≤ n) : posOK p0 ∧ colsAdj p0 := by
  obtain ⟨hw0, hn0, hne, hcols⟩ := init_ok h
  have harena : p0.photos = [] ∧ p0.extents = [] := by
    unfold Page.init at h
    obtain ⟨cw, hcw, h⟩ := exceptBind_ok h
    simp only [Except.ok.injEq] at h
    rw [← h]
    exact ⟨rfl, rfl⟩
  have hcw : 0 < W / (n : ℚ) := by
    apply div_pos hW
    exact_mod_cast Nat.lt_of_lt_of_le Nat.zero_lt_one hn
  refine ⟨⟨?_, ?_, ?_⟩, ?_, ?_⟩
  · intro ph hph
    rw [harena.1] at hph
    simp at hph
  · intro e he
    rw [harena.2] at he
    simp at he
  · intro c hc
    rw [hcols] at hc
    obtain ⟨-, hcw1, hch⟩ := initCols_mem hc
    rw [hcw1, hch]
    exact ⟨hcw, le_refl 0⟩
  · intro c hc
    have hmem : c ∈ p0.cols := List.getElem?_mem hc
    rw [hcols] at hmem
    rw [(initCols_mem hmem).1]
    rfl
  · intro i c c' hc hc'
    have hmem : c' ∈ p0.cols := List.getElem?_mem hc'
    rw [hcols] at hmem
    rw [(initCols_mem hmem).1]
    unfold refListE eidList
    simp

theorem appendNormal_posadj {p : Page} {img0 : Photo} {p' : Page}
    (h : p.appendNormal img0 = .ok p')
    (hpos : posOK p) (hadj : colsAdj p)
    (hvw : 0 < img0.real_w) (hvh : 0 < img0.real_h) :
    posOK p' ∧ colsAdj p' := by
  unfold Page.appendNormal at h
  obtain ⟨oi, hoi, h⟩ := exceptBind_ok h
  match oi with
  | none => simp at h
  | some i =>
    simp only at h
    obtain ⟨c, hc, h⟩ := exceptBind_ok h
    obtain ⟨hv, hh, h⟩ := exceptBind_ok h
    simp only [Except.ok.injEq] at h
    subst h
    have hcm : c ∈ p.cols := List.getElem?_mem (pyget_ok hc)
    obtain ⟨hcw, hch⟩ := hpos.2.2 c hcm
    obtain ⟨hw0, hveq⟩ := pydiv_ok hh
    have hvp : 0 < hv := by
      rw [hveq]
      exact div_pos (mul_pos hcw hvh) hvw
    refine ⟨⟨?_, ?_, ?_⟩, ?_, ?_⟩
    · intro ph hph
      dsimp only at hph
      rcases List.mem_append.mp hph with h1 | h1
      · exact hpos.1 ph h1
      · rw [List.mem_singleton] at h1
        subst h1
        exact ⟨hvw, hvh, hcw, hvp⟩
    · exact hpos.2.1
    · intro c2 hc2
      dsimp only at hc2
      rcases List.mem_or_eq_of_mem_set hc2 with h1 | h1
      · exact hpos.2.2 c2 h1
      · subst h1
        exact ⟨hcw, by dsimp only; linarith⟩
    · intro c0 hc0
      dsimp only at hc0
      by_cases hi : i = 0
      · subst hi
        rw [List.getElem?_set_eq_of_lt _ (pyget_ok_lt hc)] at hc0
        injection hc0 with hc0
        subst hc0
        dsimp only
        rw [eidList_snoc_photo]
        exact hadj.1 c (pyget_ok hc)
      · rw [List.getElem?_set_ne hi] at hc0
        exact hadj.1 c0 hc0
    · intro j ca cb hca hcb
      dsimp only at hca hcb ⊢
      by_cases hji : j = i
      · subst hji
        rw [List.getElem?_set_eq_of_lt _ (pyget_ok_lt hc)] at hca
        injection hca with hca
        subst hca
        rw [List.getElem?_set_ne (by omega)] at hcb
        dsimp only
        rw [pidList_snoc_photo]
        exact (hadj.2 j c cb (pyget_ok hc) hcb).trans (List.sublist_append_left _ _)
      · rw [List.getElem?_set_ne (fun hx => hji hx.symm)] at hca
        by_cases hji2 : j + 1 = i
        · rw [hji2, List.getElem?_set_eq_of_lt _ (pyget_ok_lt hc)] at hcb
          injection hcb with hcb
          subst hcb
          dsimp only
          rw [refListE_snoc_photo]
          exact hadj.2 j ca c hca (by rw [← hji2] at hc; exact pyget_ok hc)
        · rw [List.getElem?_set_ne (fun hx => hji2 hx.symm)] at hcb
          exact hadj.2 j ca cb hca hcb

theorem append_posadj {p : Page} {img0 : Photo} {rng : Nat → Bool} {k : Nat}
    {p' : Page} {k' : Nat}
    (h : p.append img0 rng k = .ok (p', k'))
    (hpo : placedOnce p)
    (hpos : posOK p) (hadj : colsAdj p)
    (hvw : 0 < img0.real_w) (hvh : 0 < img0.real_h) :
    posOK p' ∧ colsAdj p' := by
  unfold Page.append at h
  obtain ⟨mc, hmc, h⟩ := exceptBind_ok h
  match mc with
  | none =>
    simp only at h
    obtain ⟨p1, hp1, h⟩ := exceptBind_ok h
    simp only [Except.ok.injEq, Prod.mk.injEq] at h
    rw [← h.1]
    exact appendNormal_posadj hp1 hpos hadj hvw hvh
  | some (a, b) =>
    simp only at h
    obtain ⟨aspect, hasp, h⟩ := exceptBind_ok h
    obtain ⟨hab, hb1, hal, hbl⟩ := worth_multicol_ok_some hmc
    split at h
    · split at h
      · obtain ⟨ca, hca, h⟩ := exceptBind_ok h
        obtain ⟨cb, hcb, h⟩ := exceptBind_ok h
        obtain ⟨hv, hh, h⟩ := exceptBind_ok h
        simp only [Except.ok.injEq, Prod.mk.injEq] at h
        rw [← h.1]
        subst hb1
        have hma : p.cols[a]? = some ca := pyget_ok hca
        have hmb : p.cols[a + 1]? = some cb := pyget_ok hcb
        obtain ⟨hcaw, hcah⟩ := hpos.2.2 ca (List.getElem?_mem hma)
        obtain ⟨hcbw, hcbh⟩ := hpos.2.2 cb (List.getElem?_mem hmb)
        obtain ⟨hw0, hveq⟩ := pydiv_ok hh
        have hvp : 0 < hv := by
          rw [hveq]
          exact div_pos (mul_pos (by linarith) hvh) hvw
        have hymax : 0 ≤ max ca.h cb.h := le_trans hcah (le_max_left _ _)
        have hget := getElem?_set2
          (l := p.cols)
          { ca with
            imglist := ca.imglist ++ [ColItem.photo p.photos.length],
            h := max ca.h cb.h + hv }
          { cb with
            imglist := cb.imglist ++ [ColItem.extent p.extents.length],
            h := max ca.h cb.h + hv }
          hma hmb
        have hval : ∀ c0 ∈ p.cols, ∀ eid ∈ eidList c0.imglist,
            eid < p.extents.length :=
          fun c0 hc0 eid heid => countE_pos_lt hpo hc0 (eidList_mem.mp heid)
        refine ⟨⟨?_, ?_, ?_⟩, ?_, ?_⟩
        · intro ph hph
          dsimp only at hph
          rcases List.mem_append.mp hph with h1 | h1
          · exact hpos.1 ph h1
          · rw [List.mem_singleton] at h1
            subst h1
            exact ⟨hvw, hvh, by dsimp only; linarith, hvp⟩
        · intro e he
          dsimp only at he
          rcases List.mem_append.mp he with h1 | h1
          · exact hpos.2.1 e h1
          · rw [List.mem_singleton] at h1
            subst h1
            exact ⟨by dsimp only; linarith, hvp⟩
        · intro c2 hc2
          dsimp only at hc2
          rcases List.mem_or_eq_of_mem_set hc2 with h1 | h1
          · rcases List.mem_or_eq_of_mem_set h1 with h2 | h2
            · exact hpos.2.2 c2 h2
            · subst h2
              exact ⟨hcaw, by dsimp only; linarith⟩
          · subst h1
            exact ⟨hcbw, by dsimp only; linarith⟩
        · intro c0 hc0
          dsimp only at hc0
          rw [hget 0, if_neg (by omega)] at hc0
          by_cases ha0 : a = 0
          · rw [if_pos (by omega)] at hc0
            injection hc0 with hc0
            subst hc0
            dsimp only
            rw [eidList_snoc_photo]
            exact hadj.1 ca (ha0 ▸ hma)
          · rw [if_neg (by omega)] at hc0
            exact hadj.1 c0 hc0
        · intro j cx cy hx hy
          dsimp only at hx hy ⊢
          rw [hget j] at hx
          rw [hget (j + 1)] at hy
          by_cases hja : j = a
          · subst hja
            rw [if_neg (by omega), if_pos rfl] at hx
            rw [if_pos rfl] at hy
            injection hx with hx
            injection hy with hy
            subst hx hy
            dsimp only
            rw [pidList_snoc_photo]
            have hrl : refListE (p.extents ++
                [{ img_ref := p.photos.length, x := cb.x, y := cb.h,
                   w := ca.w + cb.w, h := hv }])
                (cb.imglist ++ [ColItem.extent p.extents.length]) =
                refListE p.extents cb.imglist ++ [p.photos.length] := by
              unfold refListE
              rw [eidList_snoc_extent, List.filterMap_append]
              congr 1
              · exact refListE_append_right (hval cb (List.getElem?_mem hmb))
              · simp [List.getElem?_concat_length]
            rw [hrl]
            exact (hadj.2 j ca cb hma hmb).append (List.Sublist.refl _)
          · by_cases hjb : j = a + 1
            · subst hjb
              rw [if_pos rfl] at hx
              rw [if_neg (by omega), if_neg (by omega)] at hy
              injection hx with hx
              subst hx
              dsimp only
              rw [pidList_snoc_extent]
              rw [refListE_append_right (hval cy (List.getElem?_mem hy))]
              exact hadj.2 (a + 1) cb cy hmb hy
            · rw [if_neg (by omega), if_neg hja] at hx
              by_cases hj1a : j + 1 = a
              · rw [if_neg (by omega), if_pos hj1a] at hy
                injection hy with hy
                subst hy
                dsimp only
                rw [refListE_snoc_photo,
                  refListE_append_right (hval ca (List.getElem?_mem hma))]
                exact hadj.2 j cx ca hx (by rw [hj1a]; exact hma)
              · rw [if_neg (by omega), if_neg hj1a] at hy
                rw [refListE_append_right (hval cy (List.getElem?_mem hy))]
                exact hadj.2 j cx cy hx hy
      · obtain ⟨p1, hp1, h⟩ := exceptBind_ok h
        simp only [Except.ok.injEq, Prod.mk.injEq] at h
        rw [← h.1]
        exact appendNormal_posadj hp1 hpos hadj hvw hvh
    · obtain ⟨p1, hp1, h⟩ := exceptBind_ok h
      simp only [Except.ok.injEq, Prod.mk.injEq] at h
      rw [← h.1]
      exact appendNormal_posadj hp1 hpos hadj hvw hvh

theorem fill_posadj : ∀ {imgs : List Photo} {p : Page} {rng : Nat → Bool} {k : Nat}
    {p' : Page} {k' : Nat},
    (∀ im ∈ imgs, im.spacings = [] ∧ 0 < im.real_w ∧ 0 < im.real_h) →
    placedOnce p → spacingsBij p.photos p.extents →
    posOK p → colsAdj p →
    p.fill imgs rng k = .ok (p', k') →
    posOK p' ∧ colsAdj p'
  | [], p, rng, k, p', k' => by
    intro hsp hpo hbij hpos hadj h
    simp only [Page.fill, Except.ok.injEq, Prod.mk.injEq] at h
    rw [← h.1]
    exact ⟨hpos, hadj⟩
  | img :: rest, p, rng, k, p', k' => by
    intro hsp hpo hbij hpos hadj h
    simp only [Page.fill] at h
    obtain ⟨⟨p1, k1⟩, h1, h⟩ := exceptBind_ok h
    obtain ⟨hs0, hw0, hh0⟩ := hsp img (List.mem_cons_self img rest)
    obtain ⟨hpo1, hbij1⟩ := append_wf hs0 hpo hbij h1
    obtain ⟨hpos1, hadj1⟩ := append_posadj h1 hpo hpos hadj hw0 hh0
    exact fill_posadj (fun im him => hsp im (List.mem_cons_of_mem _ him))
      hpo1 hbij1 hpos1 hadj1 h

theorem eidList_cons_photo (pid : Nat) (rest : List ColItem) :
    eidList (ColItem.photo pid :: rest) = eidList rest := rfl

theorem eidList_cons_extent (eid : Nat) (rest : List ColItem) :
    eidList (ColItem.extent eid :: rest) = eid :: eidList rest := rfl

theorem sumHeights_congr : ∀ {pids : List Nat} {photos1 photos2 : List Photo},
    (∀ pid ∈ pids, photos2[pid]? = photos1[pid]?) →
    sumHeights photos2 pids = sumHeights photos1 pids
  | [], photos1, photos2 => by intro h; rfl
  | pid :: rest, photos1, photos2 => by
    intro h
    have hp : pyget photos2 pid = pyget photos1 pid := by
      unfold pyget
      rw [h pid (List.mem_cons_self pid rest)]
    simp only [sumHeights, hp,
      sumHeights_congr (fun p hp2 => h p (List.mem_cons_of_mem _ hp2))]

theorem sumHeights_ok_nonneg : ∀ {pids : List Nat} {photos : List Photo} {s : ℚ},
    sumHeights photos pids = .ok s →
    (∀ pid ∈ pids, ∃ ph, photos[pid]? = some ph ∧ 0 < ph.h) →
    0 ≤ s ∧ (pids ≠ [] → 0 < s)
  | [], photos, s => by
    intro h hpos
    simp only [sumHeights, Except.ok.injEq] at h
    subst h
    exact ⟨le_refl 0, fun hx => absurd rfl hx⟩
  | pid :: rest, photos, s => by
    intro h hpos
    simp only [sumHeights] at h
    obtain ⟨img, himg, h⟩ := exceptBind_ok h
    obtain ⟨s1, hs1, h⟩ := exceptBind_ok h
    simp only [Except.ok.injEq] at h
    subst h
    obtain ⟨ph, hph, hh⟩ := hpos pid (List.mem_cons_self pid rest)
    rw [pyget_ok himg] at hph
    injection hph with hph
    subst hph
    obtain ⟨hs1n, -⟩ := sumHeights_ok_nonneg hs1
      (fun p hp => hpos p (List.mem_cons_of_mem _ hp))
    constructor
    · linarith
    · intro _
      linarith

theorem adjustGroupImgs_pos {alpha : ℚ} : ∀ {pids : List Nat} {y0 : ℚ}
    {photos : List Photo} {extents : List PhotoExtent} {ps : List Photo}
    {es : List PhotoExtent} {s : ℚ},
    adjustGroupImgs alpha pids y0 photos extents = .ok (ps, es) →
    sumHeights photos pids = .ok s →
    pids.Nodup →
    0 ≤ alpha →
    (∀ pid ∈ pids, ∃ ph, photos[pid]? = some ph ∧
      0 < ph.h ∧ 0 < ph.real_w ∧ 0 < ph.real_h) →
    PChain ps y0 pids (y0 + alpha * s) ∧
    (∀ pid ∈ pids, ∃ ph, ps[pid]? = some ph ∧ 0 ≤ ph.w) ∧
    (∀ pid, pid ∉ pids → ps[pid]? = photos[pid]?)
  | [], y0, photos, extents, ps, es => by
    intro h hsum hnd halpha hpos
    simp only [adjustGroupImgs, Except.ok.injEq, Prod.mk.injEq] at h
    obtain ⟨h1, h2⟩ := h
    subst h1 h2
    simp only [sumHeights, Except.ok.injEq] at hsum
    subst hsum
    refine ⟨PChain.nil (by linarith [mul_zero alpha]), by simp, fun pid _ => rfl⟩
  | pid :: rest, y0, photos, extents, ps, es => by
    intro h hsum hnd halpha hpos
    simp only [adjustGroupImgs] at h
    obtain ⟨img, himg, h⟩ := exceptBind_ok h
    obtain ⟨es1, hes1, h⟩ := exceptBind_ok h
    obtain ⟨q, hq, h⟩ := exceptBind_ok h
    simp only [sumHeights] at hsum
    obtain ⟨img2, himg2, hsum⟩ := exceptBind_ok hsum
    obtain ⟨s1, hs1, hsum⟩ := exceptBind_ok hsum
    simp only [Except.ok.injEq] at hsum
    rw [himg] at himg2
    injection himg2 with himg2
    subst himg2
    subst hsum
    have himg' := pyget_ok himg
    have hlt := pyget_ok_lt himg
    have hnm : pid ∉ rest := (List.nodup_cons.mp hnd).1
    have hnd1 := (List.nodup_cons.mp hnd).2
    obtain ⟨ph0, hph0, hh0, hrw0, hrh0⟩ := hpos pid (List.mem_cons_self pid rest)
    rw [himg'] at hph0
    injection hph0 with hph0
    subst hph0
    obtain ⟨hrh0', hqeq⟩ := pydiv_ok hq
    have hqn : 0 ≤ q := by
      rw [hqeq]
      exact div_nonneg (mul_nonneg (mul_nonneg hh0.le halpha) hrw0.le) hrh0.le
    have hother : ∀ (p2 : Nat), p2 ≠ pid →
        (photos.set pid { img with
          y := y0, h := img.h * alpha, x := img.x + (img.w - q) / 2, w := q })[p2]? =
          photos[p2]? :=
      fun p2 hne => List.getElem?_set_ne (Ne.symm hne)
    have hsum1 : sumHeights (photos.set pid { img with
        y := y0, h := img.h * alpha, x := img.x + (img.w - q) / 2, w := q }) rest =
        .ok s1 := by
      rw [sumHeights_congr (fun p2 hp2 => hother p2 (fun hx => hnm (hx ▸ hp2)))]
      exact hs1
    have hpos1 : ∀ p2 ∈ rest, ∃ ph, (photos.set pid { img with
        y := y0, h := img.h * alpha, x := img.x + (img.w - q) / 2, w := q })[p2]? =
        some ph ∧ 0 < ph.h ∧ 0 < ph.real_w ∧ 0 < ph.real_h := by
      intro p2 hp2
      rw [hother p2 (fun hx => hnm (hx ▸ hp2))]
      exact hpos p2 (List.mem_cons_of_mem _ hp2)
    obtain ⟨hchI, hvalsI, hframeI⟩ := adjustGroupImgs_pos h hsum1 hnd1 halpha hpos1
    have hself : ps[pid]? = some { img with
        y := y0, h := img.h * alpha, x := img.x + (img.w - q) / 2, w := q } := by
      rw [hframeI pid hnm]
      exact List.getElem?_set_eq_of_lt _ hlt
    have hEnd : (y0 + img.h * alpha) + alpha * s1 = y0 + alpha * (img.h + s1) := by
      ring
    rw [hEnd] at hchI
    refine ⟨PChain.cons hself (le_refl y0) (mul_nonneg hh0.le halpha) hchI, ?_, ?_⟩
    · intro p2 hp2
      rcases List.mem_cons.mp hp2 with hpe | hpe
      · subst hpe
        exact ⟨_, hself, hqn⟩
      · exact hvalsI p2 hpe
    · intro p2 hp2
      rw [hframeI p2 (fun hx => hp2 (List.mem_cons_of_mem _ hx)),
        hother p2 (fun hx => hp2 (hx ▸ List.mem_cons_self pid rest))]

theorem buildGroups_gchain {extents : List PhotoExtent} {H : ℚ} :
    ∀ {items : List ColItem} {gy : ℚ} {acc : List Nat} {gs : List MovGroup},
    buildGroups extents H items gy acc = .ok gs →
    EChain extents gy (eidList items) H →
    GChain gy gs H
  | [], gy, acc, gs => by
    intro h hch
    simp only [buildGroups, Except.ok.injEq] at h
    subst h
    cases hch with
    | nil hle =>
      exact GChain.cons (le_refl _) (by dsimp only; linarith) (GChain.nil (by dsimp only; linarith))
  | .photo pid :: rest, gy, acc, gs => by
    intro h hch
    simp only [buildGroups] at h
    rw [eidList_cons_photo] at hch
    exact buildGroups_gchain h hch
  | .extent eid :: rest, gy, acc, gs => by
    intro h hch
    simp only [buildGroups] at h
    obtain ⟨e, he, h⟩ := exceptBind_ok h
    obtain ⟨gs1, hgs1, h⟩ := exceptBind_ok h
    simp only [Except.ok.injEq] at h
    subst h
    rw [eidList_cons_extent] at hch
    cases hch with
    | cons he' hlo hh hrest =>
      rw [pyget_ok he] at he'
      injection he' with he'
      subst he'
      have hg1 : GChain (e.y + e.h) gs1 H := buildGroups_gchain hgs1 hrest
      refine GChain.cons (le_refl _) (by dsimp only; linarith) ?_
      have hEnd : GChain (gy + (e.y - gy)) gs1 H := by
        have : gy + (e.y - gy) = e.y := by ring
        rw [this]
        exact hg1.relax (by linarith)
      exact hEnd

theorem adjustGroups_pos : ∀ {gs : List MovGroup} {photos : List Photo}
    {extents : List PhotoExtent} {ps : List Photo} {es : List PhotoExtent} {lo hi : ℚ},
    adjustGroups gs photos extents = .ok (ps, es) →
    GChain lo gs hi →
    ((gs.map MovGroup.imglist).flatten).Nodup →
    (∀ g ∈ gs, ∀ pid ∈ g.imglist, ∃ ph, photos[pid]? = some ph ∧
      0 < ph.h ∧ 0 < ph.real_w ∧ 0 < ph.real_h) →
    PChain ps lo ((gs.map MovGroup.imglist).flatten) hi ∧
    (∀ g ∈ gs, ∀ pid ∈ g.imglist, ∃ ph, ps[pid]? = some ph ∧ 0 ≤ ph.w) ∧
    (∀ pid, (∀ g ∈ gs, pid ∉ g.imglist) → ps[pid]? = photos[pid]?)
  | [], photos, extents, ps, es => by
    intro h hG hnd hpos
    simp only [adjustGroups, Except.ok.injEq, Prod.mk.injEq] at h
    obtain ⟨h1, h2⟩ := h
    subst h1 h2
    cases hG with
    | nil hle => exact ⟨PChain.nil hle, by simp, fun pid _ => rfl⟩
  | g :: gs, photos, extents, ps, es => by
    intro h hG hnd hpos
    simp only [adjustGroups] at h
    simp only [List.map_cons, List.flatten_cons, List.nodup_append] at hnd
    obtain ⟨hndg, hndgs, hdisj⟩ := hnd
    cases hG with
    | cons hgy hgh hrest =>
    by_cases hg : g.imglist.isEmpty
    · rw [if_pos hg] at h
      have hge : g.imglist = [] := List.isEmpty_iff.mp hg
      obtain ⟨hchI, hvalsI, hframeI⟩ := adjustGroups_pos h hrest hndgs
        (fun g2 hg2 => hpos g2 (List.mem_cons_of_mem _ hg2))
      refine ⟨?_, ?_, ?_⟩
      · simp only [List.map_cons, List.flatten_cons, hge, List.nil_append]
        exact hchI.mono_lo (by linarith)
      · intro g2 hg2 pid hpid
        rcases List.mem_cons.mp hg2 with heq | hg2'
        · subst heq
          rw [hge] at hpid
          simp at hpid
        · exact hvalsI g2 hg2' pid hpid
      · intro pid hpid
        exact hframeI pid (fun g2 hg2 => hpid g2 (List.mem_cons_of_mem _ hg2))
    · rw [if_neg hg] at h
      obtain ⟨hsumv, hhs, h⟩ := exceptBind_ok h
      obtain ⟨alpha, halpha, h⟩ := exceptBind_ok h
      obtain ⟨⟨ps1, es1⟩, hadj, h⟩ := exceptBind_ok h
      have hne : g.imglist ≠ [] := fun hx => hg (List.isEmpty_iff.mpr hx)
      have hposg : ∀ pid ∈ g.imglist, ∃ ph, photos[pid]? = some ph ∧
          0 < ph.h ∧ 0 < ph.real_w ∧ 0 < ph.real_h :=
        fun pid hpid => hpos g (List.mem_cons_self g gs) pid hpid
      obtain ⟨hsn, hsp'⟩ := sumHeights_ok_nonneg hhs
        (fun pid hpid => (hposg pid hpid).imp (fun ph hph => ⟨hph.1, hph.2.1⟩))
      have hsp : 0 < hsumv := hsp' hne
      obtain ⟨hs0, haeq⟩ := pydiv_ok halpha
      have halpha0 : 0 ≤ alpha := by
        rw [haeq]
        exact div_nonneg hgh hsn
      obtain ⟨hch1, hvals1, hframe1⟩ := adjustGroupImgs_pos hadj hhs hndg halpha0 hposg
      have hEnd : g.y + alpha * hsumv = g.y + g.h := by
        rw [haeq, div_mul_cancel₀ _ hs0]
      rw [hEnd] at hch1
      have hnotin : ∀ pid, pid ∈ g.imglist → ∀ g2 ∈ gs, pid ∉ g2.imglist := by
        intro pid hpid g2 hg2 hpid2
        exact hdisj hpid (List.mem_flatten.mpr
          ⟨g2.imglist, List.mem_map.mpr ⟨g2, hg2, rfl⟩, hpid2⟩)
      have hpos1 : ∀ g2 ∈ gs, ∀ pid ∈ g2.imglist, ∃ ph, ps1[pid]? = some ph ∧
          0 < ph.h ∧ 0 < ph.real_w ∧ 0 < ph.real_h := by
        intro g2 hg2 pid hpid
        rw [hframe1 pid (fun hx => hnotin pid hx g2 hg2 hpid)]
        exact hpos g2 (List.mem_cons_of_mem _ hg2) pid hpid
      obtain ⟨hchI, hvalsI, hframeI⟩ := adjustGroups_pos h hrest hndgs hpos1
      have hagree : ∀ pid ∈ g.imglist, ps[pid]? = ps1[pid]? :=
        fun pid hpid => hframeI pid (fun g2 hg2 => hnotin pid hpid g2 hg2)
      refine ⟨?_, ?_, ?_⟩
      · simp only [List.map_cons, List.flatten_cons]
        exact ((hch1.congr hagree).mono_lo hgy).append hchI
      · intro g2 hg2 pid hpid
        rcases List.mem_cons.mp hg2 with heq | hg2'
        · subst heq
          obtain ⟨ph, hph, hw⟩ := hvals1 pid hpid
          exact ⟨ph, (hagree pid hpid).trans hph, hw⟩
        · exact hvalsI g2 hg2' pid hpid
      · intro pid hpid
        rw [hframeI pid (fun g2 hg2 => hpid g2 (List.mem_cons_of_mem _ hg2)),
          hframe1 pid (hpid g (List.mem_cons_self g gs))]

theorem adjust_height_pos {c : Column} {H : ℚ} {photos : List Photo}
    {extents : List PhotoExtent} {c1 : Column} {ps : List Photo} {es : List PhotoExtent}
    (h : c.adjust_height H photos extents = .ok (c1, ps, es))
    (hch : EChain extents 0 (eidList c.imglist) H)
    (hcnt : ∀ pid, c.imglist.count (ColItem.photo pid) ≤ 1)
    (hpos : ∀ pid, ColItem.photo pid ∈ c.imglist →
      ∃ ph, photos[pid]? = some ph ∧ 0 < ph.h ∧ 0 < ph.real_w ∧ 0 < ph.real_h) :
    PChain ps 0 (pidList c.imglist) H ∧
    (∀ pid, ColItem.photo pid ∈ c.imglist → ∃ ph, ps[pid]? = some ph ∧ 0 ≤ ph.w) ∧
    (∀ pid, ColItem.photo pid ∉ c.imglist → ps[pid]? = photos[pid]?) := by
  unfold Column.adjust_height at h
  obtain ⟨gs, hgs, h⟩ := exceptBind_ok h
  obtain ⟨⟨ps1, es1⟩, hadj, h⟩ := exceptBind_ok h
  simp only [Except.ok.injEq, Prod.mk.injEq] at h
  obtain ⟨-, hps, hes⟩ := h
  subst hps hes
  have hjoin := buildGroups_join hgs
  simp only [List.nil_append] at hjoin
  have hmemiff : ∀ pid, (∃ g ∈ gs, pid ∈ g.imglist) ↔ ColItem.photo pid ∈ c.imglist := by
    intro pid
    rw [← pidList_mem, ← hjoin]
    constructor
    · rintro ⟨g, hg, hpg⟩
      exact List.mem_flatten.mpr ⟨g.imglist, List.mem_map.mpr ⟨g, hg, rfl⟩, hpg⟩
    · intro hx
      obtain ⟨l, hl, hxl⟩ := List.mem_flatten.mp hx
      obtain ⟨g, hg, hgl⟩ := List.mem_map.mp hl
      exact ⟨g, hg, by rw [hgl]; exact hxl⟩
  have hnd : ((gs.map MovGroup.imglist).flatten).Nodup := by
    rw [hjoin]
    rw [List.nodup_iff_count_le_one]
    intro pid
    rw [pidList_count]
    exact hcnt pid
  have hG : GChain 0 gs H := buildGroups_gchain hgs hch
  have hposg : ∀ g ∈ gs, ∀ pid ∈ g.imglist, ∃ ph, photos[pid]? = some ph ∧
      0 < ph.h ∧ 0 < ph.real_w ∧ 0 < ph.real_h :=
    fun g hg pid hpid => hpos pid ((hmemiff pid).mp ⟨g, hg, hpid⟩)
  obtain ⟨hchI, hvalsI, hframeI⟩ := adjustGroups_pos hadj hG hnd hposg
  rw [hjoin] at hchI
  refine ⟨hchI, ?_, ?_⟩
  · intro pid hpid
    obtain ⟨g, hg, hpg⟩ := (hmemiff pid).mpr hpid
    exact hvalsI g hg pid hpg
  · intro pid hpid
    exact hframeI pid (fun g hg hin => hpid ((hmemiff pid).mp ⟨g, hg, hin⟩))

theorem echain_of_pchain {photos : List Photo} {extents : List PhotoExtent} :
    ∀ {eids : List Nat} {lo hi : ℚ},
    (∀ eid ∈ eids, ∃ e, extents[eid]? = some e ∧
      ∃ ph, photos[e.img_ref]? = some ph ∧ e.y = ph.y ∧ e.h = ph.h) →
    PChain photos lo
      (eids.filterMap (fun eid => (extents[eid]?).map PhotoExtent.img_ref)) hi →
    EChain extents lo eids hi
  | [], lo, hi => by
    intro hres hch
    cases hch with
    | nil hle => exact EChain.nil hle
  | eid :: rest, lo, hi => by
    intro hres hch
    obtain ⟨e, he, ph, hph, hy, hh⟩ := hres eid (List.mem_cons_self eid rest)
    rw [List.filterMap_cons, he, Option.map_some'] at hch
    cases hch with
    | cons hph' hlo hh' hrest =>
      rw [hph] at hph'
      injection hph' with hph'
      subst hph'
      refine EChain.cons he (by rw [hy]; exact hlo) (by rw [hh]; exact hh') ?_
      have hrest' : PChain photos (e.y + e.h)
          (rest.filterMap (fun eid => (extents[eid]?).map PhotoExtent.img_ref)) hi := by
        rw [hy, hh]
        exact hrest
      exact echain_of_pchain (fun e2 he2 => hres e2 (List.mem_cons_of_mem _ he2)) hrest'

theorem eatSpaceCols_pos {H : ℚ} : ∀ {cs : List Column} {photos : List Photo}
    {extents : List PhotoExtent} {cs1 : List Column} {ps : List Photo}
    {es : List PhotoExtent},
    eatSpaceCols H cs photos extents = .ok (cs1, ps, es) →
    spacingsBij photos extents →
    (∀ pid, ((cs.map (fun c => c.imglist.count (ColItem.photo pid))).sum) ≤ 1) →
    (∀ c ∈ cs, ∀ pid, ColItem.photo pid ∈ c.imglist →
      ∃ ph, photos[pid]? = some ph ∧ 0 < ph.h ∧ 0 < ph.real_w ∧ 0 < ph.real_h) →
    (∀ (i : Nat) (ca cb : Column), cs[i]? = some ca → cs[i + 1]? = some cb →
      List.Sublist (refListE extents cb.imglist) (pidList ca.imglist)) →
    (∀ c ∈ cs, ∀ eid, ColItem.extent eid ∈ c.imglist →
      ∃ e, extents[eid]? = some e) →
    (∀ c, cs[0]? = some c → EChain extents 0 (eidList c.imglist) H) →
    (∀ c ∈ cs, ∀ pid, ColItem.photo pid ∈ c.imglist →
      ∃ ph, ps[pid]? = some ph ∧ 0 ≤ ph.y ∧ 0 ≤ ph.h ∧ 0 ≤ ph.w) ∧
    (∀ pid, (∀ c ∈ cs, ColItem.photo pid ∉ c.imglist) → ps[pid]? = photos[pid]?)
  | [], photos, extents, cs1, ps, es => by
    intro h hbij hcnt hpos hlink hres hhead
    simp only [eatSpaceCols, Except.ok.injEq, Prod.mk.injEq] at h
    obtain ⟨-, hps, hes⟩ := h
    subst hps hes
    exact ⟨by simp, fun pid _ => rfl⟩
  | c :: cs, photos, extents, cs1, ps, es => by
    intro h hbij hcnt hpos hlink hres hhead
    simp only [eatSpaceCols] at h
    obtain ⟨⟨c1, ps1, es1⟩, h1, h⟩ := exceptBind_ok h
    obtain ⟨⟨cs2, ps2, es2⟩, h2, h⟩ := exceptBind_ok h
    simp only [Except.ok.injEq, Prod.mk.injEq] at h
    obtain ⟨-, hps, hes⟩ := h
    subst hps hes
    have hcnthd : ∀ pid, c.imglist.count (ColItem.photo pid) ≤ 1 := by
      intro pid
      have := hcnt pid
      simp only [List.map_cons, List.sum_cons] at this
      omega
    have hcnttl : ∀ pid,
        ((cs.map (fun c => c.imglist.count (ColItem.photo pid))).sum) ≤ 1 := by
      intro pid
      have := hcnt pid
      simp only [List.map_cons, List.sum_cons] at this
      omega
    have hdisj : ∀ pid, ColItem.photo pid ∈ c.imglist →
        ∀ c2 ∈ cs, ColItem.photo pid ∉ c2.imglist := by
      intro pid hmem c2 hc2 hmem2
      have h1p : 1 ≤ c.imglist.count (ColItem.photo pid) := List.count_pos_iff.mpr hmem
      have h2p : 1 ≤ c2.imglist.count (ColItem.photo pid) := List.count_pos_iff.mpr hmem2
      have hsum := hcnt pid
      simp only [List.map_cons, List.sum_cons] at hsum
      have hle : c2.imglist.count (ColItem.photo pid) ≤
          ((cs.map (fun c => c.imglist.count (ColItem.photo pid))).sum) :=
        List.le_sum_of_mem (List.mem_map.mpr ⟨c2, hc2, rfl⟩)
      omega
    have hchd : EChain extents 0 (eidList c.imglist) H := hhead c (by simp)
    have hposhd : ∀ pid, ColItem.photo pid ∈ c.imglist → ∃ ph, photos[pid]? = some ph ∧
        0 < ph.h ∧ 0 < ph.real_w ∧ 0 < ph.real_h :=
      fun pid hpid => hpos c (List.mem_cons_self c cs) pid hpid
    obtain ⟨hch1, hvals1, hframe1⟩ := adjust_height_pos h1 hchd hcnthd hposhd
    obtain ⟨hbij1, hshape1, hsync1, hframeE1, hpframe1⟩ := adjust_height_sync h1 hbij hcnthd
    have hsig1 := adjust_height_sig h1
    have hpos' : ∀ c2 ∈ cs, ∀ pid, ColItem.photo pid ∈ c2.imglist →
        ∃ ph, ps1[pid]? = some ph ∧ 0 < ph.h ∧ 0 < ph.real_w ∧ 0 < ph.real_h := by
      intro c2 hc2 pid hpid
      have hnc : ColItem.photo pid ∉ c.imglist := fun hx => hdisj pid hx c2 hc2 hpid
      rw [hpframe1 pid hnc]
      exact hpos c2 (List.mem_cons_of_mem _ hc2) pid hpid
    have hrl : ∀ items, refListE es1 items = refListE extents items :=
      fun items => refListE_congr (fun eid _ => sig_ref hsig1 eid)
    have hlink' : ∀ (i : Nat) (ca cb : Column), cs[i]? = some ca → cs[i + 1]? = some cb →
        List.Sublist (refListE es1 cb.imglist) (pidList ca.imglist) := by
      intro i ca cb hca hcb
      rw [hrl]
      exact hlink (i + 1) ca cb (by simpa using hca) (by simpa using hcb)
    have hres' : ∀ c2 ∈ cs, ∀ eid, ColItem.extent eid ∈ c2.imglist →
        ∃ e, es1[eid]? = some e := by
      intro c2 hc2 eid heid
      obtain ⟨e0, he0⟩ := hres c2 (List.mem_cons_of_mem _ hc2) eid heid
      obtain ⟨e, he, -, -⟩ := sig_some hsig1 he0
      exact ⟨e, he⟩
    have hhead' : ∀ c2, cs[0]? = some c2 → EChain es1 0 (eidList c2.imglist) H := by
      intro c2 hc2
      have hc2m : c2 ∈ cs := List.getElem?_mem hc2
      have hsub : List.Sublist (refListE extents c2.imglist) (pidList c.imglist) :=
        hlink 0 c c2 (by simp) (by simpa using hc2)
      have hpc : PChain ps1 0 (refListE extents c2.imglist) H :=
        PChain.sublist hsub hch1
      have hpc1 : PChain ps1 0 (refListE es1 c2.imglist) H := by
        rw [hrl]
        exact hpc
      refine echain_of_pchain ?_ hpc1
      intro eid heid
      obtain ⟨e0, he0⟩ := hres c2 (List.mem_cons_of_mem _ hc2m) eid (eidList_mem.mp heid)
      obtain ⟨e, he, hrefeq, -⟩ := sig_some hsig1 he0
      have hrefmem : ColItem.photo e.img_ref ∈ c.imglist := by
        have hin : e0.img_ref ∈ refListE extents c2.imglist := refListE_mem heid he0
        rw [← hrefeq] at hin
        exact pidList_mem.mp (hsub.subset hin)
      obtain ⟨ph, hph, hy, hh⟩ := hsync1 eid e he hrefmem
      exact ⟨e, he, ph, hph, hy, hh⟩
    obtain ⟨hvalsI, hframeI⟩ := eatSpaceCols_pos h2 hbij1 hcnttl hpos' hlink' hres' hhead'
    refine ⟨?_, ?_⟩
    · intro c2 hc2 pid hpid
      rcases List.mem_cons.mp hc2 with heq | hc2'
      · subst heq
        have hnotin : ∀ c3 ∈ cs, ColItem.photo pid ∉ c3.imglist := hdisj pid hpid
        have hstable : ps2[pid]? = ps1[pid]? := hframeI pid hnotin
        obtain ⟨ph, hph, hy, hh⟩ := hch1.mem_nonneg (le_refl 0) pid (pidList_mem.mpr hpid)
        obtain ⟨ph2, hph2, hw⟩ := hvals1 pid hpid
        rw [hph] at hph2
        injection hph2 with hph2
        subst hph2
        exact ⟨ph, hstable.trans hph, hy, hh, hw⟩
      · exact hvalsI c2 hc2' pid hpid
    · intro pid hpid
      rw [hframeI pid (fun c2 hc2 => hpid c2 (List.mem_cons_of_mem _ hc2)),
        hpframe1 pid (hpid c (List.mem_cons_self c cs))]

/-- C6: for every run of the pipeline on photos with positive `real_w` and
`real_h` (on a page of positive width), no placed content has a negative
width or height: after phase A (`init` + `fill`) all placed dimensions are
positive; after phase B (`eat_space`) photos keep nonnegative `y`, `h`,
`w` (group targets are nonnegative because each column's extents copy the
already-adjusted geometry of the previous column's photos) and extents
stay synced to their photos; phase C (`eat_space2`) only rewrites `x`
coordinates and column widths. -/
theorem c6_no_negative_dims {W : ℚ} {n : Nat} {imgs : List Photo} {rng : Nat → Bool}
    {p0 p1 p2 p3 : Page} {k1 : Nat}
    (hW : 0 < W) (hn : 1 ≤ n)
    (hvalid : ∀ im ∈ imgs, im.spacings = [] ∧ 0 < im.real_w ∧ 0 < im.real_h)
    (hinit : Page.init W n = .ok p0)
    (hfill : p0.fill imgs rng 0 = .ok (p1, k1))
    (heat : p1.eat_space = .ok p2)
    (heat2 : p2.eat_space2 = .ok p3) :
    ((∀ ph ∈ p1.photos, 0 ≤ ph.w ∧ 0 ≤ ph.h) ∧
      (∀ e ∈ p1.extents, 0 ≤ e.w ∧ 0 ≤ e.h)) ∧
    ((∀ ph ∈ p2.photos, 0 ≤ ph.w ∧ 0 ≤ ph.h) ∧
      (∀ e ∈ p2.extents, 0 ≤ e.w ∧ 0 ≤ e.h)) ∧
    ((∀ ph ∈ p3.photos, 0 ≤ ph.w ∧ 0 ≤ ph.h) ∧
      (∀ e ∈ p3.extents, 0 ≤ e.w ∧ 0 ≤ e.h)) := by
  have hsp : ∀ im ∈ imgs, im.spacings = [] := fun im him => (hvalid im him).1
  obtain ⟨hpo0, hbij0⟩ := init_wf hinit
  obtain ⟨hpos0, hadj0⟩ := init_posadj hinit hW hn
  obtain ⟨hpo1, hbij1⟩ := fill_wf hsp hpo0 hbij0 hfill
  obtain ⟨hpos1, hadj1⟩ := fill_posadj hvalid hpo0 hbij0 hpos0 hadj0 hfill
  have hA : (∀ ph ∈ p1.photos, 0 ≤ ph.w ∧ 0 ≤ ph.h) ∧
      (∀ e ∈ p1.extents, 0 ≤ e.w ∧ 0 ≤ e.h) := by
    constructor
    · intro ph hph
      obtain ⟨-, -, hw, hh⟩ := hpos1.1 ph hph
      exact ⟨hw.le, hh.le⟩
    · intro e he
      obtain ⟨hw, hh⟩ := hpos1.2.1 e he
      exact ⟨hw.le, hh.le⟩
  unfold Page.eat_space at heat
  obtain ⟨H, hH, heat⟩ := exceptBind_ok heat
  obtain ⟨⟨cs1, ps, es⟩, hcs, heat⟩ := exceptBind_ok heat
  simp only [Except.ok.injEq] at heat
  subst heat
  obtain ⟨hn0, hHeq⟩ := pydiv_ok hH
  have hH0 : 0 ≤ H := by
    rw [hHeq]
    apply div_nonneg
    · apply List.sum_nonneg
      intro x hx
      obtain ⟨c, hc, hcx⟩ := List.mem_map.mp hx
      rw [← hcx]
      exact (hpos1.2.2 c hc).2
    · exact Nat.cast_nonneg _
  obtain ⟨hpo1a, hpo1b, hpo1c, hpo1d⟩ := hpo1
  have hcnt : ∀ pid, ((p1.cols.map
      (fun c => c.imglist.count (ColItem.photo pid))).sum) ≤ 1 := by
    intro pid
    by_cases hlt : pid < p1.photos.length
    · have := hpo1a pid hlt
      unfold countP at this
      omega
    · have := hpo1b pid (by omega)
      unfold countP at this
      omega
  have hpo1' : placedOnce p1 := ⟨hpo1a, hpo1b, hpo1c, hpo1d⟩
  have hposcols : ∀ c ∈ p1.cols, ∀ pid, ColItem.photo pid ∈ c.imglist →
      ∃ ph, p1.photos[pid]? = some ph ∧ 0 < ph.h ∧ 0 < ph.real_w ∧ 0 < ph.real_h := by
    intro c hc pid hpid
    have hlt := countP_pos_lt hpo1' hc hpid
    have hsome : p1.photos[pid]? = some (p1.photos[pid]) := List.getElem?_eq_getElem hlt
    obtain ⟨hrw, hrh, hw, hh⟩ := hpos1.1 _ (List.getElem?_mem hsome)
    exact ⟨_, hsome, hh, hrw, hrh⟩
  have hrescols : ∀ c ∈ p1.cols, ∀ eid, ColItem.extent eid ∈ c.imglist →
      ∃ e, p1.extents[eid]? = some e := by
    intro c hc eid heid
    have hlt := countE_pos_lt hpo1' hc heid
    exact ⟨_, List.getElem?_eq_getElem hlt⟩
  have hheadcols : ∀ c, p1.cols[0]? = some c →
      EChain p1.extents 0 (eidList c.imglist) H := by
    intro c hc
    rw [hadj1.1 c hc]
    exact EChain.nil hH0
  obtain ⟨hvalsB, hframeB⟩ :=
    eatSpaceCols_pos hcs hbij1 hcnt hposcols hadj1.2 hrescols hheadcols
  obtain ⟨hbij2, hshape2, hsync2, -, -⟩ := eatSpaceCols_sync hcs hbij1 hcnt
  have hsig2 := eatSpaceCols_sig hcs
  have hB : (∀ ph ∈ ps, 0 ≤ ph.w ∧ 0 ≤ ph.h) ∧ (∀ e ∈ es, 0 ≤ e.w ∧ 0 ≤ e.h) := by
    constructor
    · intro ph hph
      obtain ⟨pid, hlt2, hpid⟩ := List.getElem_of_mem hph
      have hsome : ps[pid]? = some ph := by
        rw [List.getElem?_eq_getElem hlt2, hpid]
      by_cases hplaced : ∃ c ∈ p1.cols, ColItem.photo pid ∈ c.imglist
      · obtain ⟨c, hc, hmem⟩ := hplaced
        obtain ⟨ph2, hph2, hy, hh, hw⟩ := hvalsB c hc pid hmem
        rw [hsome] at hph2
        injection hph2 with hph2
        subst hph2
        exact ⟨hw, hh⟩
      · push_neg at hplaced
        have hfr := hframeB pid hplaced
        rw [hsome] at hfr
        have hmem1 : ph ∈ p1.photos := List.getElem?_mem hfr.symm
        obtain ⟨-, -, hw, hh⟩ := hpos1.1 ph hmem1
        exact ⟨hw.le, hh.le⟩
    · intro e he
      obtain ⟨eid, hlt2, heid⟩ := List.getElem_of_mem he
      have hsome : es[eid]? = some e := by
        rw [List.getElem?_eq_getElem hlt2, heid]
      obtain ⟨e0, he0, hre⟩ := hshape2 eid e hsome
      have he0m : e0 ∈ p1.extents := List.getElem?_mem he0
      obtain ⟨hw0, -⟩ := hpos1.2.1 e0 he0m
      have hsg := hsig2 eid
      rw [hsome, he0] at hsg
      simp only [Option.map_some', Option.some.injEq] at hsg
      unfold extSig at hsg
      simp only [Prod.mk.injEq] at hsg
      obtain ⟨ph0, hph0, -⟩ := hbij1.1 eid e0 he0
      have hlt0 : e0.img_ref < p1.photos.length := (List.getElem?_eq_some_iff.mp hph0).1
      have hcount1 : countP p1 e0.img_ref = 1 := hpo1a _ hlt0
      have hmemc : ∃ c ∈ p1.cols, ColItem.photo e0.img_ref ∈ c.imglist := by
        by_contra hnone
        push_neg at hnone
        have hzero : countP p1 e0.img_ref = 0 := by
          unfold countP
          rw [List.sum_eq_zero]
          intro x hx
          obtain ⟨c, hc, hcx⟩ := List.mem_map.mp hx
          rw [← hcx]
          exact List.count_eq_zero.mpr (hnone c hc)
        omega
      obtain ⟨c, hc, hcm⟩ := hmemc
      obtain ⟨ph, hph, hy, hh⟩ := hsync2 eid e hsome ⟨c, hc, by rw [hre]; exact hcm⟩
      obtain ⟨ph2, hph2, hy2, hh2, -⟩ := hvalsB c hc e.img_ref (by rw [hre]; exact hcm)
      rw [hph] at hph2
      injection hph2 with hph2
      subst hph2
      constructor
      · rw [hsg.2.2]
        exact hw0.le
      · rw [hh]
        exact hh2
  unfold Page.eat_space2 at heat2
  dsimp only at heat2
  obtain ⟨⟨cols3, ps3⟩, hc3, heat2⟩ := exceptBind_ok heat2
  simp only [Except.ok.injEq] at heat2
  subst heat2
  obtain ⟨hmap3, -⟩ := eatSpace2Cols_ok hc3
  have hC : (∀ ph ∈ ps3, 0 ≤ ph.w ∧ 0 ≤ ph.h) ∧ (∀ e ∈ es, 0 ≤ e.w ∧ 0 ≤ e.h) := by
    refine ⟨?_, hB.2⟩
    intro ph hph
    have hmm : eraseX ph ∈ ps3.map eraseX := List.mem_map_of_mem _ hph
    rw [hmap3] at hmm
    obtain ⟨ph0, hph0, heq⟩ := List.mem_map.mp hmm
    have hw' := congrArg Photo.w heq
    have hh' := congrArg Photo.h heq
    have hw : ph0.w = ph.w := hw'
    have hh : ph0.h = ph.h := hh'
    obtain ⟨hw0, hh0⟩ := hB.1 ph0 hph0
    rw [← hw, ← hh]
    exact ⟨hw0, hh0⟩
  exact ⟨hA, hB, hC⟩

/-- Witness for C6 on the two-square-photo run, for which all three
phases are fixed points with nonnegative dimensions. -/
theorem c6_witness :
    ((0 : ℚ) < 2 ∧ 1 ≤ 2 ∧
      (∀ im ∈ [mkPhoto 1 1, mkPhoto 2 2],
        im.spacings = [] ∧ 0 < im.real_w ∧ 0 < im.real_h) ∧
      Page.init 2 2 = .ok wtP0 ∧
      wtP0.fill [mkPhoto 1 1, mkPhoto 2 2] rngF 0 = .ok (wtPA, 0) ∧
      wtPA.eat_space = .ok wtPA ∧
      wtPA.eat_space2 = .ok wtPA) ∧
    (((∀ ph ∈ wtPA.photos, 0 ≤ ph.w ∧ 0 ≤ ph.h) ∧
        (∀ e ∈ wtPA.extents, 0 ≤ e.w ∧ 0 ≤ e.h)) ∧
      ((∀ ph ∈ wtPA.photos, 0 ≤ ph.w ∧ 0 ≤ ph.h) ∧
        (∀ e ∈ wtPA.extents, 0 ≤ e.w ∧ 0 ≤ e.h)) ∧
      ((∀ ph ∈ wtPA.photos, 0 ≤ ph.w ∧ 0 ≤ ph.h) ∧
        (∀ e ∈ wtPA.extents, 0 ≤ e.w ∧ 0 ≤ e.h))) :=
  have h0 : (0 : ℚ) < 2 := by norm_num
  have h1 : (1 : Nat) ≤ 2 := by decide
  have hv : ∀ im ∈ [mkPhoto 1 1, mkPhoto 2 2],
      im.spacings = [] ∧ 0 < im.real_w ∧ 0 < im.real_h := by
    with_unfolding_all decide
  have h2 : Page.init 2 2 = .ok wtP0 := by with_unfolding_all decide
  have h3 : wtP0.fill [mkPhoto 1 1, mkPhoto 2 2] rngF 0 = .ok (wtPA, 0) := by
    with_unfolding_all decide
  have h4 : wtPA.eat_space = .ok wtPA := by with_unfolding_all decide
  have h5 : wtPA.eat_space2 = .ok wtPA := by with_unfolding_all decide
  ⟨⟨h0, h1, hv, h2, h3, h4, h5⟩, c6_no_negative_dims h0 h1 hv h2 h3 h4 h5⟩
